import Mathlib

/-! DependencyResolver (`lib/index.js`): a shallow embedding.

The container of `lib/index.js` is one closure over a private object `dependencies`.
Its three methods `add`, `resolver` and `finish` call each other, and user callbacks,
through the object `self`.  Here:

* the private object, the number of objects allocated by `new` and a log of the calls made
  to user functions form an explicit `State`, threaded through every method;
* a method returns an `Outcome` (a value, a thrown error, or an exhausted call stack)
  together with the state it leaves behind: an error never rolls the state back;
* `self` is a record of the three methods; `container n` is the container whose call
  stack has room for `n` nested method activations, so that `addBody`, `resolverBody` and
  `finishBody` are the three function bodies of the source with their calls going
  through `self`;
* `dependencies` is a plain object: a read `dependencies[key]` finds the own properties the
  container has written and, failing that, the members of `Object.prototype`
  (`lookup`), while `Object.keys` lists the own properties only (`objectKeys`);
* user code is data: a function declared with `function` and used as a constructor is
  described by what `new` makes of it (`Body`), a class declared with `class` is a value of
  its own (`typeof` gives `'function'`, a call without `new` is refused), a hook is the
  sequence of container calls it performs (`Action`); a hook catches nothing, so the first
  call that fails ends it, and it leaves alone the stored record it is handed as `this`.

The log (`trace`) and the allocation counter (`serial`) are observations: no method reads
them.
-/

namespace Deepen

/-- What a user function declared with `function` does when it is invoked as a constructor,
be it by `new` or by `apply` on a fresh `this`. -/
inductive Body where
  /-- It initialises `this` and returns no object: `new` yields the fresh `this`. -/
  | initialises
  /-- It returns the existing plain object with this reference: `new` yields that object. -/
  | returnsObject (ref : Nat)
  /-- It throws. -/
  | throws (msg : String)
  deriving DecidableEq, Repr

/-- JavaScript values that the container stores and hands back, compared by reference. -/
inductive Value where
  /-- A plain (non-function) user object. -/
  | object (ref : Nat)
  /-- A user function declared with `function`. -/
  | function (ref : Nat) (body : Body)
  /-- A user class declared with `class`: `typeof` gives `'function'`, and a call that does
  not go through `new`, such as `apply`, throws a TypeError before the constructor runs. -/
  | classConstructor (ref : Nat)
  /-- The container `self`. -/
  | container
  /-- The object allocated by the `serial`-th `new`, with the prototype of function `proto`. -/
  | created (serial : Nat) (proto : Nat)
  deriving DecidableEq, Repr

/-- The test `typeof v === 'function'`. -/
def Value.isFunction : Value → Bool
  | .function _ _ => true
  | .classConstructor _ => true
  | _ => false

mutual
/-- One step of a user hook: a call of a container method, or a `throw`. -/
inductive Action where
  | add (dep : Dependency) (options : Option DependencyOptions)
  | resolver (key : String)
  | finish
  | throw (msg : String)
/-- The `$`-properties read by `add` (JSDoc typedef `DependencyOptions`).  A property that is
absent is `none`; `$register` and `$after` are `none` also when they hold a non-function. -/
inductive DependencyOptions where
  | mk (name : Option String) (deps : Option (List String)) (single : Option Bool)
      (exports : Option (List ExportEntry)) (register : Option (List Action))
      (after : Option (List Action))
/-- An object or function handed to `add`, with the `$`-properties it carries itself
(JSDoc typedef `Dependency`). -/
inductive Dependency where
  | mk (value : Value) (props : DependencyOptions)
/-- An entry of `$exports`: an object with a truthy `$dependency` (JSDoc typedef
`DependencyExportRequest`), or a bare dependency. -/
inductive ExportEntry where
  | request (dependency : Dependency) (options : Option DependencyOptions)
  | bare (dep : Dependency)
end

/-- Property `$name`. -/
def DependencyOptions.name : DependencyOptions → Option String
  | .mk n _ _ _ _ _ => n

/-- Property `$deps`. -/
def DependencyOptions.deps : DependencyOptions → Option (List String)
  | .mk _ d _ _ _ _ => d

/-- Property `$single`. -/
def DependencyOptions.single : DependencyOptions → Option Bool
  | .mk _ _ b _ _ _ => b

/-- Property `$exports`. -/
def DependencyOptions.exports : DependencyOptions → Option (List ExportEntry)
  | .mk _ _ _ e _ _ => e

/-- Property `$register`, when it is a function. -/
def DependencyOptions.register : DependencyOptions → Option (List Action)
  | .mk _ _ _ _ r _ => r

/-- Property `$after`, when it is a function. -/
def DependencyOptions.after : DependencyOptions → Option (List Action)
  | .mk _ _ _ _ _ a => a

/-- The object or function itself. -/
def Dependency.value : Dependency → Value
  | .mk v _ => v

/-- The `$`-properties set on the object or function itself. -/
def Dependency.props : Dependency → DependencyOptions
  | .mk _ p => p

/-- The function held by `$after` of a stored definition. -/
inductive Callback where
  /-- The function supplied by the user. -/
  | user (body : List Action)
  /-- The empty function `() => {}` that `finish` installs. -/
  | noop

/-- The record `tmp` that `add` stores in `dependencies`. -/
structure Definition where
  ctr : Value
  name : String
  deps : List String
  single : Bool
  exports : Option (List ExportEntry)
  register : Option (List Action)
  after : Option Callback

/-- Calls observed from outside, in the order they happen. -/
inductive Event where
  /-- The function `ctr` was entered through `ctr.apply(this, args)` under `new F(args)`. -/
  | construct (ctr : Value) (args : List Value) (this : Value)
  /-- `$register.call(dependencies[name], arg)`. -/
  | register (name : String) (arg : Value)
  /-- The user function `$after` of `name` applied to `args`. -/
  | after (name : String) (args : List Value)
  /-- The method `finish` was entered. -/
  | finish
  deriving DecidableEq, Repr

/-- An error value in flight. -/
inductive Thrown where
  /-- `new Error(message)`, thrown by `resolver`. -/
  | error (message : String)
  /-- A `TypeError` raised by the runtime (a property read on `undefined`, a call of a
  non-function). -/
  | typeError
  /-- An error thrown by user code. -/
  | user (msg : String)
  deriving DecidableEq, Repr

/-- How a call ends. -/
inductive Outcome (α : Type) where
  | ok (a : α)
  | throw (e : Thrown)
  /-- The call stack was exhausted. -/
  | stackExhausted
  deriving DecidableEq, Repr

/-- The closure state: the private object `dependencies` (own properties in creation order),
the number of objects allocated by `new` so far, and the log of calls. -/
structure State where
  dependencies : List (String × Definition)
  serial : Nat
  trace : List Event

/-- The property names every plain object inherits from `Object.prototype`; each of them
reads as a truthy value on `dependencies = {}`. -/
def objectPrototype : List String :=
  ["constructor", "toString", "toLocaleString", "valueOf", "hasOwnProperty",
   "isPrototypeOf", "propertyIsEnumerable", "__defineGetter__", "__defineSetter__",
   "__lookupGetter__", "__lookupSetter__", "__proto__"]

/-- What `dependencies[key]` reads. -/
inductive Slot where
  /-- A definition stored by the container. -/
  | own (d : Definition)
  /-- A member of `Object.prototype`: truthy, without `$deps`, `$single` or `ctr`. -/
  | inherited
  /-- `undefined`. -/
  | absent

/-- Own property lookup. -/
def getOwn : List (String × Definition) → String → Option Definition
  | [], _ => none
  | (k, d) :: rest, key => if k = key then some d else getOwn rest key

/-- The read `dependencies[key]`. -/
def lookup (deps : List (String × Definition)) (key : String) : Slot :=
  match getOwn deps key with
  | some d => .own d
  | none => if key ∈ objectPrototype then .inherited else .absent

/-- Truthiness of `dependencies[key]`. -/
def Slot.truthy : Slot → Bool
  | .absent => false
  | _ => true

/-- The write `dependencies[key] = d`. -/
def setOwn : List (String × Definition) → String → Definition → List (String × Definition)
  | [], key, d => [(key, d)]
  | (k, e) :: rest, key, d => if k = key then (k, d) :: rest else (k, e) :: setOwn rest key d

/-- The write `dependencies[key].$after = () => {}`. -/
def consume : List (String × Definition) → String → List (String × Definition)
  | [], _ => []
  | (k, e) :: rest, key =>
    if k = key then (k, { e with after := some .noop }) :: rest else (k, e) :: consume rest key

/-- The number a key denotes when it is an array index: a canonical decimal numeral below
`2^32 - 1`. -/
def arrayIndex (key : String) : Option Nat :=
  match key.data with
  | [] => none
  | c :: cs =>
    if (c :: cs).all Char.isDigit && (c != '0' || cs.isEmpty) then
      let n := (c :: cs).foldl (fun acc d => 10 * acc + (d.toNat - 48)) 0
      if n < 4294967295 then some n else none
    else none

/-- `Object.keys(dependencies)`: array indices in ascending order, then the other own keys
in creation order. -/
def objectKeys (deps : List (String × Definition)) : List String :=
  let keys := deps.map Prod.fst
  ((keys.filterMap (fun k => (arrayIndex k).map (fun n => (n, k)))).insertionSort
      (fun a b => a.1 ≤ b.1)).map Prod.snd
    ++ keys.filter (fun k => (arrayIndex k).isNone)

/-- Appends an event to the log. -/
def emit (e : Event) (s : State) : State :=
  { s with trace := s.trace ++ [e] }

/-- A loop `xs.forEach(x => f(x))`: an error or an exhausted stack ends it. -/
def forEach {α : Type} (f : α → State → Outcome Unit × State) :
    List α → State → Outcome Unit × State
  | [], s => (.ok (), s)
  | x :: xs, s =>
    match f x s with
    | (.ok _, s1) => forEach f xs s1
    | (.throw e, s1) => (.throw e, s1)
    | (.stackExhausted, s1) => (.stackExhausted, s1)

/-- The loop `$deps.forEach((subdep) => { args.push(resolve(subdep)); })`, returning `args`. -/
def collect (resolve : String → State → Outcome Value × State) :
    List String → State → Outcome (List Value) × State
  | [], s => (.ok [], s)
  | subdep :: rest, s =>
    match resolve subdep s with
    | (.ok v, s1) =>
      (match collect resolve rest s1 with
       | (.ok vs, s2) => (.ok (v :: vs), s2)
       | (.throw e, s2) => (.throw e, s2)
       | (.stackExhausted, s2) => (.stackExhausted, s2))
    | (.throw e, s1) => (.throw e, s1)
    | (.stackExhausted, s1) => (.stackExhausted, s1)

/-- The methods reachable through the object `self`. -/
structure Self where
  add : Dependency → Option DependencyOptions → State → Outcome Unit × State
  resolver : String → State → Outcome Value × State
  finish : State → Outcome Unit × State

/-- One action of a hook, performed on the container it holds. -/
def perform (self : Self) : Action → State → Outcome Unit × State
  | .add dep options, s => self.add dep options s
  | .resolver key, s =>
    (match self.resolver key s with
     | (.ok _, s1) => (.ok (), s1)
     | (.throw e, s1) => (.throw e, s1)
     | (.stackExhausted, s1) => (.stackExhausted, s1))
  | .finish, s => self.finish s
  | .throw msg, s => (.throw (.user msg), s)

/-- A call of a user hook: its actions in order, up to the first that fails. -/
def runHook (self : Self) (body : List Action) (s : State) : Outcome Unit × State :=
  forEach (perform self) body s

/-- The expression `new F(args)` of `resolver` (lines 114-119), where `F` passes `args` on to
`ctr` and takes its prototype: `this` is allocated, `ctr.apply(this, args)` is called, and
its result replaces `this` when it is an object.  A class refuses the call of line 115, which
is made without `new`: a TypeError is thrown and the constructor of the class is not entered.
A value that is no function has no `apply`. -/
def construct (ctr : Value) (args : List Value) (s : State) : Outcome Value × State :=
  match ctr with
  | .function ref body =>
    let this := Value.created s.serial ref
    let s1 := emit (.construct ctr args this) { s with serial := s.serial + 1 }
    (match body with
     | .initialises => (.ok this, s1)
     | .returnsObject r => (.ok (.object r), s1)
     | .throws msg => (.throw (.user msg), s1))
  | .classConstructor _ => (.throw .typeError, { s with serial := s.serial + 1 })
  | _ => (.throw .typeError, { s with serial := s.serial + 1 })

/-- Body of `self.resolver` (lines 98-120). -/
def resolverBody (self : Self) (key : String) (s : State) : Outcome Value × State :=
  match lookup s.dependencies key with
  | .absent => (.throw (.error ("Dependency was not found: " ++ key)), s)
  | .inherited => (.throw .typeError, s)
  | .own d =>
    match collect self.resolver d.deps s with
    | (.ok args, s1) =>
      (match lookup s1.dependencies key with
       | .own d1 => if d1.single then (.ok d1.ctr, s1) else construct d1.ctr args s1
       | _ => (.throw .typeError, s1))
    | (.throw e, s1) => (.throw e, s1)
    | (.stackExhausted, s1) => (.stackExhausted, s1)

/-- The callback of `newDep.$exports.forEach` (lines 74-81). -/
def addExport (self : Self) : ExportEntry → State → Outcome Unit × State
  | .request dependency options, s => self.add dependency options s
  | .bare dep, s => self.add dep none s

/-- The record `tmp` built by `add` (lines 57-69): `$deps` defaults to `[]`, `$single` is
coerced to a boolean and forced to `true` when `dep` is not a function. -/
def newDefinition (dep : Dependency) (newDep : DependencyOptions) (name : String) :
    Definition :=
  { ctr := dep.value
    name := name
    deps := newDep.deps.getD []
    single := newDep.single.getD false || !dep.value.isFunction
    exports := newDep.exports
    register := newDep.register
    after := newDep.after.map Callback.user }

/-- Body of `self.add` (lines 53-88). -/
def addBody (self : Self) (dep : Dependency) (options : Option DependencyOptions)
    (s : State) : Outcome Unit × State :=
  let newDep := options.getD dep.props
  match newDep.name with
  | none => (.ok (), s)
  | some name =>
    if name ≠ "" ∧ (lookup s.dependencies name).truthy = false then
      let tmp := newDefinition dep newDep name
      let s1 := { s with dependencies := setOwn s.dependencies name tmp }
      match forEach (addExport self) (newDep.exports.getD []) s1 with
      | (.ok _, s2) =>
        (match newDep.register with
         | some body => runHook self body (emit (.register name .container) s2)
         | none => (.ok (), s2))
      | (.throw e, s2) => (.throw e, s2)
      | (.stackExhausted, s2) => (.stackExhausted, s2)
    else (.ok (), s)

/-- The callback of `Object.keys(dependencies).forEach` in `finish` (lines 131-144). -/
def finishKey (self : Self) (key : String) (s : State) : Outcome Unit × State :=
  match lookup s.dependencies key with
  | .own d =>
    (match d.after with
     | none => (.ok (), s)
     | some _ =>
       match collect self.resolver d.deps s with
       | (.ok args, s1) =>
         (match lookup s1.dependencies key with
          | .own d1 =>
            (match d1.after with
             | some (.user body) =>
               (match runHook self body (emit (.after key args) s1) with
                | (.ok _, s2) =>
                  (.ok (), { s2 with dependencies := consume s2.dependencies key })
                | (.throw e, s2) => (.throw e, s2)
                | (.stackExhausted, s2) => (.stackExhausted, s2))
             | some .noop => (.ok (), { s1 with dependencies := consume s1.dependencies key })
             | none => (.throw .typeError, s1))
          | _ => (.throw .typeError, s1))
       | (.throw e, s1) => (.throw e, s1)
       | (.stackExhausted, s1) => (.stackExhausted, s1))
  | _ => (.throw .typeError, s)

/-- Body of `self.finish` (lines 128-145). -/
def finishBody (self : Self) (s : State) : Outcome Unit × State :=
  forEach (finishKey self) (objectKeys s.dependencies) (emit .finish s)

/-- The container whose call stack has room for `fuel` nested method activations. -/
def container : Nat → Self
  | 0 =>
    { add := fun _ _ s => (.stackExhausted, s)
      resolver := fun _ s => (.stackExhausted, s)
      finish := fun s => (.stackExhausted, s) }
  | fuel + 1 =>
    { add := addBody (container fuel)
      resolver := resolverBody (container fuel)
      finish := finishBody (container fuel) }

/-- The method `add`, run with room for `fuel` nested activations. -/
def add (fuel : Nat) (dep : Dependency) (options : Option DependencyOptions) (s : State) :
    Outcome Unit × State :=
  (container fuel).add dep options s

/-- The method `resolver`, run with room for `fuel` nested activations. -/
def resolver (fuel : Nat) (key : String) (s : State) : Outcome Value × State :=
  (container fuel).resolver key s

/-- The method `finish`, run with room for `fuel` nested activations. -/
def finish (fuel : Nat) (s : State) : Outcome Unit × State :=
  (container fuel).finish s

/-- The state in which `DependencyResolver()` returns: `dependencies` holds the container
itself under its reserved name (lines 148-153). -/
def DependencyResolver : State :=
  { dependencies :=
      [("DependencyResolver",
        { ctr := .container, name := "DependencyResolver", deps := [], single := true,
          exports := none, register := none, after := none })]
    serial := 0
    trace := [] }

/-- A relation between an earlier and a later state that allocation respects. -/
structure ResolveInvariant (R : State → State → Prop) : Prop where
  refl : ∀ s, R s s
  trans : ∀ {a b c}, R a b → R b c → R a c
  alloc : ∀ s ctr args this,
    R s (emit (.construct ctr args this) { s with serial := s.serial + 1 })
  allocFail : ∀ s, R s { s with serial := s.serial + 1 }

/-- A relation between an earlier and a later state that every step of `add` respects.
`registerCall` is stated for the whole bracket it closes: the state it starts from is the
one in which the guard of `add` was tested. -/
structure AddInvariant (R : State → State → Prop) extends ResolveInvariant R : Prop where
  store : ∀ s dep newDep name, name ≠ "" → (lookup s.dependencies name).truthy = false →
    R s { s with dependencies := setOwn s.dependencies name (newDefinition dep newDep name) }
  registerCall : ∀ s dep newDep name s2, name ≠ "" →
    (lookup s.dependencies name).truthy = false →
    R { s with dependencies := setOwn s.dependencies name (newDefinition dep newDep name) } s2 →
    R s (emit (.register name .container) s2)

/-- A relation that the steps of `finish` respect as well.  `consume` is stated for the
whole bracket it closes: the state it starts from is the one in which `$after` was tested. -/
structure Invariant (R : State → State → Prop) extends AddInvariant R : Prop where
  afterCall : ∀ s key args d body, lookup s.dependencies key = .own d →
    d.after = some (.user body) → R s (emit (.after key args) s)
  consume : ∀ s key d s2, lookup s.dependencies key = .own d → d.after ≠ none → R s s2 →
    R s { s2 with dependencies := consume s2.dependencies key }
  finishCall : ∀ s, R s (emit .finish s)

/-- Every method of `self` respects `R`. -/
structure Respects (R : State → State → Prop) (c : Self) : Prop where
  add : ∀ dep options s, R s (c.add dep options s).2
  resolver : ∀ key s, R s (c.resolver key s).2
  finish : ∀ s, R s (c.finish s).2

/-- The fields of a stored definition other than `$after`. -/
def Definition.sameCore (d e : Definition) : Prop :=
  e.ctr = d.ctr ∧ e.name = d.name ∧ e.deps = d.deps ∧ e.single = d.single ∧
    e.exports = d.exports ∧ e.register = d.register

/-- The later registry keeps every definition of the earlier one: same fields, and an `$after`
that is either untouched or, when there was one, replaced by the empty function. -/
def Grows (s t : State) : Prop :=
  ∀ key d, getOwn s.dependencies key = some d →
    ∃ e, getOwn t.dependencies key = some e ∧ d.sameCore e ∧
      (e.after = d.after ∨ (d.after ≠ none ∧ e.after = some .noop))

/-- The later state has the same registry, and has allocated at least as much. -/
def Framed (s t : State) : Prop :=
  t.dependencies = s.dependencies ∧ s.serial ≤ t.serial

/-- The registry of the test-suite: the object `lodash` (reference 3) under `_`, declared
singleton, then the function `dep` (reference 7) under `testTrue` with `$deps: ['_']`. -/
def sampleTransient : State :=
  (add 1 (.mk (.function 7 .initialises) (.mk none none none none none none))
    (some (.mk (some "testTrue") (some ["_"]) none none none none))
    (add 1 (.mk (.object 3) (.mk none none none none none none))
      (some (.mk (some "_") (some []) (some true) none none none)) DependencyResolver).2).2

/-- The same registry with `dep` declared `$single: true`. -/
def sampleSingleton : State :=
  (add 1 (.mk (.function 7 .initialises) (.mk none none none none none none))
    (some (.mk (some "testTrue") (some ["_"]) (some true) none none none))
    (add 1 (.mk (.object 3) (.mk none none none none none none))
      (some (.mk (some "_") (some []) (some true) none none none)) DependencyResolver).2).2

/-- A fresh container to which were added the class `Foo` (reference 7) with
`$deps: ['_']`, then the object 3 under `_`. -/
def classTransient : State :=
  (add 1 (.mk (.object 3) (.mk none none none none none none))
    (some (.mk (some "_") none none none none none))
    (add 1 (.mk (.classConstructor 7) (.mk none none none none none none))
      (some (.mk (some "Foo") (some ["_"]) none none none none)) DependencyResolver).2).2

/-- A fresh container after `add({$name: 'A', $deps: ['missing']})`, the object having
reference 1: a singleton whose dependency is not registered. -/
def brokenSingleton : State :=
  (add 1 (.mk (.object 1) (.mk (some "A") (some ["missing"]) none none none none)) none
    DependencyResolver).2

/-- A fresh container after `add(F, {$name: 'T', $deps: ['missing']})` and
`add(G, {$name: 'U'})`, where the function `G` returns the existing object 9. -/
def brokenTransient : State :=
  (add 1 (.mk (.function 5 (.returnsObject 9)) (.mk none none none none none none))
    (some (.mk (some "U") none none none none none))
    (add 1 (.mk (.function 4 .initialises) (.mk none none none none none none))
      (some (.mk (some "T") (some ["missing"]) none none none none)) DependencyResolver).2).2

/-- The name `add(dep, options)` files `dep` under: `options.$name` when `options` is given,
otherwise `dep.$name` (line 54, `options || dep`). -/
def effectiveName (dep : Dependency) (options : Option DependencyOptions) : Option String :=
  (options.getD dep.props).name

/-- The state after the write `dependencies[name] = tmp` of `add` (line 71). -/
def store (dep : Dependency) (options : Option DependencyOptions) (name : String)
    (s : State) : State :=
  { s with dependencies :=
      setOwn s.dependencies name (newDefinition dep (options.getD dep.props) name) }

/-- A fresh container after `add({}, {$name: 'A', $single: false, $deps: ['missing']})`,
the object having reference 1. -/
def declaredTransientObject : State :=
  (add 1 (.mk (.object 1) (.mk none none none none none none))
    (some (.mk (some "A") (some ["missing"]) (some false) none none none))
    DependencyResolver).2

/-- The dependency an entry of `$exports` registers: `exp.$dependency` when that is truthy,
otherwise `exp` itself (lines 76-80). -/
def ExportEntry.dep : ExportEntry → Dependency
  | .request dependency _ => dependency
  | .bare dep => dep

/-- The options an entry of `$exports` registers its dependency with: `exp.$options`, or none
for a bare dependency (lines 76-80). -/
def ExportEntry.options : ExportEntry → Option DependencyOptions
  | .request _ options => options
  | .bare _ => none

/-- A fresh container after `add` of the object 1 named `P` whose `$exports` holds the
objects 2 and 3, both carrying the name `A`. -/
def duplicateExports : State :=
  (add 2 (.mk (.object 1) (.mk (some "P") none none
      (some [.bare (.mk (.object 2) (.mk (some "A") none none none none none)),
             .bare (.mk (.object 3) (.mk (some "A") none none none none none))])
      none none)) none DependencyResolver).2

/-- The first `add` of the test `should add exports`: `lodash` (object 3) under `_`. -/
def withLodash : State :=
  (add 1 (.mk (.object 3) (.mk none none none none none none))
    (some (.mk (some "_") (some []) (some true) none none none)) DependencyResolver).2

/-- First entry of `$exports` in the test `should add exports`: `bluebird` (function 8) with
options naming it `Promise`. -/
def exportPromise : ExportEntry :=
  .request (.mk (.function 8 .initialises) (.mk none none none none none none))
    (some (.mk (some "Promise") none (some true) none none none))

/-- Second entry: the object 10 named `withoutOptions`, wrapped in `$dependency`. -/
def exportWithoutOptions : ExportEntry :=
  .request (.mk (.object 10) (.mk (some "withoutOptions") none none none none none)) none

/-- Third entry: the bare object 11 named `withoutDependency`. -/
def exportWithoutDependency : ExportEntry :=
  .bare (.mk (.object 11) (.mk (some "withoutDependency") none (some true) none none none))

/-- The options of the second `add` of the test `should add exports`. -/
def exportingOptions : DependencyOptions :=
  .mk (some "testTrue") (some ["_"]) none
    (some [exportPromise, exportWithoutOptions, exportWithoutDependency]) none none

/-- The function `dep` (reference 7) of the test `should add exports`. -/
def exportingDep : Dependency :=
  .mk (.function 7 .initialises) (.mk none none none none none none)

/-- The arguments with which the `$register` hook of the definition `name` has been called,
in order. -/
def registerCalls (name : String) : List Event → List Value
  | [] => []
  | .register n arg :: rest =>
    if n = name then arg :: registerCalls name rest else registerCalls name rest
  | _ :: rest => registerCalls name rest

/-- The later registry keeps the earlier one, and no register hook of a definition already
stored in the earlier state has been called in between. -/
def Settled (s t : State) : Prop :=
  Grows s t ∧
    ∀ name d, getOwn s.dependencies name = some d →
      registerCalls name t.trace = registerCalls name s.trace

/-- The object 1 named `P`, with a register hook, exporting the object 2 named `E` whose own
register hook throws. -/
def failingExport : Dependency :=
  .mk (.object 1) (.mk (some "P") none none
    (some [.bare (.mk (.object 2) (.mk (some "E") none none none (some [.throw "boom"]) none))])
    (some []) none)

/-- The object `dep` of the test `should call register function with the
DependencyResolver` (reference 1), and its options: the hook resolves `_`. -/
def registeringOptions : DependencyOptions :=
  .mk (some "testTrue") (some ["Promise", "_"]) none none (some [.resolver "_"]) none

/-- The registry after the first two `add` calls of that test: `lodash` (object 3) under `_`
and `bluebird` (function 8) under `Promise`, both singletons. -/
def withPromise : State :=
  (add 1 (.mk (.function 8 .initialises) (.mk none none none none none none))
    (some (.mk (some "Promise") (some []) (some true) none none none)) withLodash).2

/-- What a completed registration of the exports `es`, started in `s1` by a container with
room for `fuel` nested activations, guarantees of a later state `t`: each entry whose own
name is non-empty and still free when its turn comes is stored in `t` under that name with
its own dependency as `ctr`, and the same holds, one level down, of the exports of every
such entry. -/
def cascaded : Nat → List ExportEntry → State → State → Prop
  | 0, _, _, _ => True
  | fuel + 1, es, s1, t =>
    ∀ pre e post sm n, es = pre ++ e :: post →
      forEach (addExport (container (fuel + 1))) pre s1 = (.ok (), sm) →
      effectiveName e.dep e.options = some n → n ≠ "" →
      lookup sm.dependencies n = .absent →
      (∃ d, getOwn t.dependencies n = some d ∧ d.ctr = e.dep.value) ∧
        cascaded fuel ((e.options.getD e.dep.props).exports.getD [])
          (store e.dep e.options n sm) t

/-- The object 1 named `P` whose only export carries the reserved name and itself exports
the object 3 named `X`; the register hook of `P` resolves `X`. -/
def skippedBranch : Dependency :=
  .mk (.object 1) (.mk (some "P") none none
    (some [.bare (.mk (.object 2) (.mk (some "DependencyResolver") none none
      (some [.bare (.mk (.object 3) (.mk (some "X") none none none none none))])
      none none))])
    (some [.resolver "X"]) none)

/-- The module `Foo` of the README example (function 20), exporting `BarModel` (object 21),
whose register hook resolves `_`. -/
def fooModule : Dependency :=
  .mk (.function 20 .initialises) (.mk (some "Foo") (some ["Promise"]) none
    (some [.bare (.mk (.object 21) (.mk (some "BarModel") (some ["_"]) (some true) none
      (some [.resolver "_"]) (some [])))])
    none none)

/-- The argument lists with which the user function `$after` of the definition `name` has
been called, in order. -/
def afterCalls (name : String) : List Event → List (List Value)
  | [] => []
  | .after n args :: rest =>
    if n = name then args :: afterCalls name rest else afterCalls name rest
  | _ :: rest => afterCalls name rest

/-- The number of times `finish` has been entered. -/
def finishCalls : List Event → Nat
  | [] => 0
  | .finish :: rest => finishCalls rest + 1
  | _ :: rest => finishCalls rest

/-- The definition still holds the `$after` function supplied by the user. -/
def Definition.pending (d : Definition) : Bool :=
  match d.after with
  | some (.user _) => true
  | _ => false

/-- The later registry keeps the earlier one, and no user `$after` hook has been called in
between for a definition that was stored without a pending hook in the earlier state. -/
def Inert (s t : State) : Prop :=
  Grows s t ∧
    ∀ key d, getOwn s.dependencies key = some d → d.pending = false →
      afterCalls key t.trace = afterCalls key s.trace

/-- The registry is the same and neither `finish` nor a user `$after` hook has been called
in between. -/
def Still (s t : State) : Prop :=
  t.dependencies = s.dependencies ∧ finishCalls t.trace = finishCalls s.trace ∧
    ∀ key, afterCalls key t.trace = afterCalls key s.trace

/-- Entries of `finish` are only ever added to the log; and when none was added in between,
no user `$after` hook was called and no stored `$after` was replaced. -/
def Calm (s t : State) : Prop :=
  finishCalls s.trace ≤ finishCalls t.trace ∧
    (finishCalls t.trace = finishCalls s.trace →
      (∀ key, afterCalls key t.trace = afterCalls key s.trace) ∧
      ∀ key d, getOwn s.dependencies key = some d →
        ∃ e, getOwn t.dependencies key = some e ∧ e.after = d.after)

/-- Entries of `finish` are only ever added to the log. -/
def Counted (s t : State) : Prop :=
  finishCalls s.trace ≤ finishCalls t.trace

/-- A fresh container after `add({}, {$name: 'K', $after: hook})`, where the hook throws. -/
def throwingAfter : State :=
  (add 1 (.mk (.object 1) (.mk none none none none none none))
    (some (.mk (some "K") none none none none (some [.throw "boom"]))) DependencyResolver).2

/-- The registry of the test `should only call after function once when finish is called
twice`, reached the long way round: `_` and `Promise` are registered, `finish()` is called,
and only then `dep` (object 1) is added with its `$after` hook. -/
def addedAfterFinish : State :=
  (add 1 (.mk (.object 1) (.mk none none none none none none))
    (some (.mk (some "testTrue") (some ["Promise", "_"]) none none none (some [])))
    (finish 2 withPromise).2).2

/-- A client of the container: calls of its methods made one after the other, each with its
own room on the stack; the client catches what a call throws and goes on. -/
def session : List (Nat × Action) → State → State
  | [], s => s
  | (fuel, a) :: rest, s => session rest (perform (container fuel) a s).2

/-- A state that some client reaches from a freshly constructed container. -/
def Reachable (s : State) : Prop :=
  ∃ calls, s = session calls DependencyResolver

/-- Every stored definition that is not a singleton holds a function as `ctr`. -/
def WellFormed (s : State) : Prop :=
  ∀ key d, getOwn s.dependencies key = some d → d.single = false → d.ctr.isFunction = true

/-- Well-formedness carries over from the earlier to the later state. -/
def KeepsForm (s t : State) : Prop :=
  WellFormed s → WellFormed t

/-- The call ended, normally or with an error, before the stack was exhausted. -/
def Outcome.ended {α : Type} : Outcome α → Bool
  | .stackExhausted => false
  | _ => true

/-- Every call that ends on `c` runs the same way on `c'`. -/
structure Extends (c c' : Self) : Prop where
  add : ∀ dep options s, (c.add dep options s).1.ended = true →
    c'.add dep options s = c.add dep options s
  resolver : ∀ key s, (c.resolver key s).1.ended = true → c'.resolver key s = c.resolver key s
  finish : ∀ s, (c.finish s).1.ended = true → c'.finish s = c.finish s

/-- No property name of `Object.prototype` is an own key of the registry. -/
def Unshadowed (s : State) : Prop :=
  ∀ key, key ∈ objectPrototype → getOwn s.dependencies key = none

/-- The later registry shadows no name of `Object.prototype` unless the earlier one did. -/
def KeepsUnshadowed (s t : State) : Prop :=
  Unshadowed s → Unshadowed t

/-- A client session: `add` of another object under the reserved name, then `add` of the
object 5 under `x`. -/
def reservedSession : List (Nat × Action) :=
  [(1, .add (.mk (.object 4) (.mk (some "DependencyResolver") none none none none none)) none),
   (1, .add (.mk (.object 5) (.mk (some "x") none none none none none)) none)]

/-- An export that registers cleanly: the object 2 named `E1`. -/
def cleanExport : ExportEntry :=
  .bare (.mk (.object 2) (.mk (some "E1") none none none none none))

/-- An export whose register hook throws: the object 3 named `E2`. -/
def throwingExport : ExportEntry :=
  .bare (.mk (.object 3) (.mk (some "E2") none none none (some [.throw "boom"]) none))

/-- The object 1 named `P`, exporting `E1` and then `E2`. -/
def halfExported : Dependency :=
  .mk (.object 1) (.mk (some "P") none none (some [cleanExport, throwingExport]) none none)

/-- A fresh container to which three objects have been added, each with a finish hook: `A`
(hook does nothing), `B` (hook throws) and `C` (hook does nothing). -/
def abortingPass : State :=
  (add 1 (.mk (.object 3) (.mk none none none none none none))
    (some (.mk (some "C") none none none none (some [])))
    (add 1 (.mk (.object 2) (.mk none none none none none none))
      (some (.mk (some "B") none none none none (some [.throw "boom"])))
      (add 1 (.mk (.object 1) (.mk none none none none none none))
        (some (.mk (some "A") none none none none (some []))) DependencyResolver).2).2).2

/-- The later log is the earlier one with more entries after it. -/
def Extending (s t : State) : Prop :=
  ∃ es, t.trace = s.trace ++ es

/-- A fresh container after `add({}, {$name: 'H', $deps: ['missing'], $after: hook})`: a
pending finish hook whose dependency is not registered. -/
def unservedHook : State :=
  (add 1 (.mk (.object 1) (.mk none none none none none none))
    (some (.mk (some "H") (some ["missing"]) none none none (some []))) DependencyResolver).2

/-- The registry of the test `should call after function with dependencies when finish is
called`: `_`, `Promise`, then `dep` (object 1) with `$deps: ['Promise', '_']` and `$after`. -/
def withAfter : State :=
  (add 1 (.mk (.object 1) (.mk none none none none none none))
    (some (.mk (some "testTrue") (some ["Promise", "_"]) none none none (some [])))
    withPromise).2

/-- A fresh container after `add({}, {$name: 'K', $after: hook})`, where the hook adds the
object 2 under `D` with a register hook that calls `finish()`. -/
def reentrantAfter : State :=
  (add 1 (.mk (.object 1) (.mk none none none none none none))
    (some (.mk (some "K") none none none none
      (some [.add (.mk (.object 2) (.mk (some "D") none none none (some [.finish]) none))
        none])))
    DependencyResolver).2

/-- A fresh container to which were added the object 1 under `K`, whose finish hook adds the
object 2 under `D` with a register hook that calls `finish()`, and then the object 3 under
`C`, whose finish hook throws. -/
def nestedAbort : State :=
  (add 1 (.mk (.object 3) (.mk none none none none none none))
    (some (.mk (some "C") none none none none (some [.throw "boom"])))
    reentrantAfter).2

/-- The registry, the hooks called and the register hooks called are the same. -/
def Quiet (s t : State) : Prop :=
  t.dependencies = s.dependencies ∧
    (∀ key, afterCalls key t.trace = afterCalls key s.trace) ∧
    ∀ name, registerCalls name t.trace = registerCalls name s.trace

/-- No stored definition holds a finish hook supplied by the user. -/
def Idle (s : State) : Prop :=
  ∀ key d, getOwn s.dependencies key = some d → d.pending = false

/-- A fresh container to which the function 4 has been added under `T` (not a singleton) and
the object 2 under `H`, with `$deps: ['T']` and a finish hook; then `finish()` has run. -/
def servedOnce : State :=
  (finish 2
    (add 1 (.mk (.object 2) (.mk none none none none none none))
      (some (.mk (some "H") (some ["T"]) none none none (some [])))
      (add 1 (.mk (.function 4 .initialises) (.mk none none none none none none))
        (some (.mk (some "T") none none none none none)) DependencyResolver).2).2).2

/-- The definition stored under `a` lists `b` among its dependency names. -/
def DependsOn (l : List (String × Definition)) (a b : String) : Prop :=
  ∃ d, getOwn l a = some d ∧ b ∈ d.deps

/-- The name `b` is reached from `a` through dependency names. -/
inductive Reaches (l : List (String × Definition)) : String → String → Prop where
  | refl (a : String) : Reaches l a a
  | step {a b c : String} : DependsOn l a b → Reaches l b c → Reaches l a c

/-- A dependency cycle is reached from `a`. -/
def Doomed (l : List (String × Definition)) (a : String) : Prop :=
  ∃ c b, Reaches l a c ∧ DependsOn l c b ∧ Reaches l b c

/-- The names in `names` are stored, and so are the dependency names of their definitions. -/
def closedUnder (l : List (String × Definition)) (names : List String) : Bool :=
  names.all (fun a =>
    match getOwn l a with
    | none => false
    | some d => d.deps.all (fun b => decide (b ∈ names)))

/-- A fresh container to which were added `T`, a function whose constructor throws, `C`, an
object that depends on itself, and `N`, an object with `$deps: ['T', 'C']`. -/
def cycleBehindFailure : State :=
  (add 1 (.mk (.object 3) (.mk none none none none none none))
    (some (.mk (some "N") (some ["T", "C"]) none none none none))
    (add 1 (.mk (.object 2) (.mk none none none none none none))
      (some (.mk (some "C") (some ["C"]) none none none none))
      (add 1 (.mk (.function 4 (.throws "ctor")) (.mk none none none none none none))
        (some (.mk (some "T") none none none none none)) DependencyResolver).2).2).2

/-- A fresh container to which were added two objects, `A` with `$deps: ['B']` and `B` with
`$deps: ['A']`: a cycle of singletons. -/
def singletonCycle : State :=
  (add 1 (.mk (.object 2) (.mk none none none none none none))
    (some (.mk (some "B") (some ["A"]) none none none none))
    (add 1 (.mk (.object 1) (.mk none none none none none none))
      (some (.mk (some "A") (some ["B"]) none none none none)) DependencyResolver).2).2

/-- Unfolding the dependency names from `key` ends within `n` levels: no chain of `n` stored
definitions, each naming the next among its dependencies, starts at `key`. -/
def shallow (l : List (String × Definition)) : Nat → String → Bool
  | 0, _ => false
  | n + 1, key =>
    match getOwn l key with
    | none => true
    | some d => d.deps.all (fun j => shallow l n j)

/-- The first name that is not stored, met from `key` depth first and in declared order,
within `n` levels. -/
def firstMissing (l : List (String × Definition)) : Nat → String → Option String
  | 0, _ => none
  | n + 1, key =>
    match getOwn l key with
    | none => some key
    | some d => d.deps.findSome? (fun j => firstMissing l n j)

/-- The constructors of the definitions that are not singletons, one for each occurrence in
the dependency tree unfolded from `key` within `n` levels, in post-order, left to right in
declared dependency order. -/
def invocations (l : List (String × Definition)) : Nat → String → List Value
  | 0, _ => []
  | n + 1, key =>
    match getOwn l key with
    | none => []
    | some d => d.deps.flatMap (fun j => invocations l n j) ++ (if d.single then [] else [d.ctr])

/-- The constructors invoked, in the order of the log. -/
def constructors (trace : List Event) : List Value :=
  trace.filterMap (fun e =>
    match e with
    | .construct ctr _ _ => some ctr
    | _ => none)

/-- A definition whose resolution cannot fail at the constructor: a singleton, or a function
declared with `function` whose body returns normally.  A class is not one: `resolver` calls
it through `apply`, which it refuses. -/
def Definition.sturdy (d : Definition) : Bool :=
  d.single ||
    match d.ctr with
    | .function _ (.throws _) => false
    | .function _ _ => true
    | _ => false

/-- The error `resolver` ends with at a name that is not stored: the error of the guard of
line 99, or, at a name that reads as an inherited property, the TypeError of line 105. -/
def notStored (key : String) : Thrown :=
  if key ∈ objectPrototype then .typeError else .error ("Dependency was not found: " ++ key)

/-- A fresh container to which was added the object `A` with `$deps: ['toString']`. -/
def inheritedDependency : State :=
  (add 1 (.mk (.object 1) (.mk none none none none none none))
    (some (.mk (some "A") (some ["toString"]) none none none none)) DependencyResolver).2

/-- A fresh container to which were added `T`, a function whose constructor throws, and the
object `D` with `$deps: ['T', 'T']`. -/
def failsFirst : State :=
  (add 1 (.mk (.object 1) (.mk none none none none none none))
    (some (.mk (some "D") (some ["T", "T"]) none none none none))
    (add 1 (.mk (.function 4 (.throws "ctor")) (.mk none none none none none none))
      (some (.mk (some "T") none none none none none)) DependencyResolver).2).2

/-- A fresh container to which were added the function `T`, the function `L` with
`$deps: ['T']`, the object `R` with `$deps: ['T']` and the function `D` with
`$deps: ['L', 'R']`: a diamond over the transient `T`, one branch through a singleton. -/
def sharedTransient : State :=
  (add 1 (.mk (.function 7 .initialises) (.mk none none none none none none))
    (some (.mk (some "D") (some ["L", "R"]) none none none none))
    (add 1 (.mk (.object 6) (.mk none none none none none none))
      (some (.mk (some "R") (some ["T"]) none none none none))
      (add 1 (.mk (.function 5 .initialises) (.mk none none none none none none))
        (some (.mk (some "L") (some ["T"]) none none none none))
        (add 1 (.mk (.function 4 .initialises) (.mk none none none none none none))
          (some (.mk (some "T") none none none none none)) DependencyResolver).2).2).2).2

/-! ## Framing and monotonicity -/

theorem construct_sound {R : State → State → Prop} (h : ResolveInvariant R)
    (ctr : Value) (args : List Value) (s : State) : R s (construct ctr args s).2 := by
  cases ctr with
  | function ref body =>
    cases body <;> exact h.alloc _ _ _ _
  | classConstructor ref => exact h.allocFail s
  | object ref => exact h.allocFail s
  | container => exact h.allocFail s
  | created a b => exact h.allocFail s

theorem collect_sound {R : State → State → Prop} (h : ResolveInvariant R)
    (f : String → State → Outcome Value × State) (hf : ∀ k s, R s (f k s).2) :
    ∀ names s, R s (collect f names s).2 := by
  intro names
  induction names with
  | nil => intro s; exact h.refl s
  | cons k rest ih =>
    intro s
    have h1 := hf k s
    rcases hk : f k s with ⟨_ | _ | _, s1⟩
    · rw [hk] at h1
      have h2 := ih s1
      rcases hr : collect f rest s1 with ⟨_ | _ | _, s2⟩ <;>
        (rw [hr] at h2; simp only [collect, hk, hr]; exact h.trans h1 h2)
    · rw [hk] at h1; simp only [collect, hk]; exact h1
    · rw [hk] at h1; simp only [collect, hk]; exact h1

theorem resolver_sound {R : State → State → Prop} (h : ResolveInvariant R) :
    ∀ fuel key s, R s (resolver fuel key s).2 := by
  intro fuel
  induction fuel with
  | zero => intro key s; exact h.refl s
  | succ n ih =>
    intro key s
    show R s (resolverBody (container n) key s).2
    cases hl : lookup s.dependencies key with
    | absent => simp only [resolverBody, hl]; exact h.refl s
    | inherited => simp only [resolverBody, hl]; exact h.refl s
    | own d =>
      have h1 := collect_sound h (container n).resolver ih d.deps s
      rcases hc : collect (container n).resolver d.deps s with ⟨args | e | _, s1⟩
      · rw [hc] at h1
        cases hl1 : lookup s1.dependencies key with
        | own d1 =>
          simp only [resolverBody, hl, hc, hl1]
          split
          · exact h1
          · exact h.trans h1 (construct_sound h _ _ _)
        | absent => simp only [resolverBody, hl, hc, hl1]; exact h1
        | inherited => simp only [resolverBody, hl, hc, hl1]; exact h1
      · rw [hc] at h1; simp only [resolverBody, hl, hc]; exact h1
      · rw [hc] at h1; simp only [resolverBody, hl, hc]; exact h1

theorem forEach_sound {α : Type} {R : State → State → Prop} (h : ResolveInvariant R)
    (f : α → State → Outcome Unit × State) (hf : ∀ x s, R s (f x s).2) :
    ∀ xs s, R s (forEach f xs s).2 := by
  intro xs
  induction xs with
  | nil => intro s; exact h.refl s
  | cons x rest ih =>
    intro s
    have h1 := hf x s
    rcases hx : f x s with ⟨_ | _ | _, s1⟩
    · rw [hx] at h1; simp only [forEach, hx]; exact h.trans h1 (ih s1)
    · rw [hx] at h1; simp only [forEach, hx]; exact h1
    · rw [hx] at h1; simp only [forEach, hx]; exact h1

theorem perform_sound {R : State → State → Prop} (h : AddInvariant R) {self : Self}
    (hs : Respects R self) (a : Action) (s : State) : R s (perform self a s).2 := by
  cases a with
  | add dep options => exact hs.add dep options s
  | resolver key =>
    have h1 := hs.resolver key s
    rcases hr : self.resolver key s with ⟨_ | _ | _, s1⟩ <;>
      (rw [hr] at h1; simp only [perform, hr]; exact h1)
  | finish => exact hs.finish s
  | throw msg => exact h.refl s

theorem runHook_sound {R : State → State → Prop} (h : AddInvariant R) {self : Self}
    (hs : Respects R self) (body : List Action) (s : State) : R s (runHook self body s).2 :=
  forEach_sound h.toResolveInvariant (perform self) (perform_sound h hs) body s

theorem addExport_sound {R : State → State → Prop} {self : Self}
    (hs : Respects R self) (e : ExportEntry) (s : State) : R s (addExport self e s).2 := by
  cases e with
  | request dependency options => exact hs.add dependency options s
  | bare dep => exact hs.add dep none s

theorem addBody_sound {R : State → State → Prop} (h : AddInvariant R) {self : Self}
    (hs : Respects R self) (dep : Dependency) (options : Option DependencyOptions)
    (s : State) : R s (addBody self dep options s).2 := by
  cases hn : (options.getD dep.props).name with
  | none => simp only [addBody, hn]; exact h.refl s
  | some name =>
    by_cases hg : name ≠ "" ∧ (lookup s.dependencies name).truthy = false
    · simp only [addBody, hn, if_pos hg]
      have h1 := h.store s dep (options.getD dep.props) name hg.1 hg.2
      have h2 := forEach_sound h.toResolveInvariant (addExport self) (addExport_sound hs)
        ((options.getD dep.props).exports.getD [])
        { s with dependencies :=
            setOwn s.dependencies name (newDefinition dep (options.getD dep.props) name) }
      rcases hx : forEach (addExport self) ((options.getD dep.props).exports.getD [])
        { s with dependencies :=
            setOwn s.dependencies name (newDefinition dep (options.getD dep.props) name) }
        with ⟨_ | _ | _, s2⟩
      · rw [hx] at h2
        cases hr : (options.getD dep.props).register with
        | none => exact h.trans h1 h2
        | some body =>
          exact h.trans (h.registerCall s dep (options.getD dep.props) name s2 hg.1 hg.2 h2)
            (runHook_sound h hs body _)
      · rw [hx] at h2; exact h.trans h1 h2
      · rw [hx] at h2; exact h.trans h1 h2
    · simp only [addBody, hn, if_neg hg]; exact h.refl s

theorem finishKey_sound {R : State → State → Prop} (h : Invariant R) {self : Self}
    (hs : Respects R self) (key : String) (s : State) : R s (finishKey self key s).2 := by
  cases hl : lookup s.dependencies key with
  | absent => simp only [finishKey, hl]; exact h.refl s
  | inherited => simp only [finishKey, hl]; exact h.refl s
  | own d =>
    cases ha : d.after with
    | none => simp only [finishKey, hl, ha]; exact h.refl s
    | some cb =>
      have h1 := collect_sound h.toResolveInvariant self.resolver hs.resolver d.deps s
      rcases hc : collect self.resolver d.deps s with ⟨args | e | _, s1⟩
      · rw [hc] at h1
        cases hl1 : lookup s1.dependencies key with
        | absent => simp only [finishKey, hl, ha, hc, hl1]; exact h1
        | inherited => simp only [finishKey, hl, ha, hc, hl1]; exact h1
        | own d1 =>
          cases ha1 : d1.after with
          | none => simp only [finishKey, hl, ha, hc, hl1, ha1]; exact h1
          | some cb1 =>
            cases cb1 with
            | noop =>
              simp only [finishKey, hl, ha, hc, hl1, ha1]
              exact h.trans h1 (h.consume s1 key d1 s1 hl1 (by simp [ha1]) (h.refl s1))
            | user body =>
              have h2 := h.afterCall s1 key args d1 body hl1 ha1
              have h3 := runHook_sound h.toAddInvariant hs body (emit (.after key args) s1)
              rcases hr : runHook self body (emit (.after key args) s1) with ⟨_ | _ | _, s2⟩
              · rw [hr] at h3
                simp only [finishKey, hl, ha, hc, hl1, ha1, hr]
                exact h.trans h1 (h.consume s1 key d1 s2 hl1 (by simp [ha1]) (h.trans h2 h3))
              · rw [hr] at h3
                simp only [finishKey, hl, ha, hc, hl1, ha1, hr]
                exact h.trans h1 (h.trans h2 h3)
              · rw [hr] at h3
                simp only [finishKey, hl, ha, hc, hl1, ha1, hr]
                exact h.trans h1 (h.trans h2 h3)
      · rw [hc] at h1; simp only [finishKey, hl, ha, hc]; exact h1
      · rw [hc] at h1; simp only [finishKey, hl, ha, hc]; exact h1

theorem finishBody_sound {R : State → State → Prop} (h : Invariant R) {self : Self}
    (hs : Respects R self) (s : State) : R s (finishBody self s).2 :=
  h.trans (h.finishCall s)
    (forEach_sound h.toResolveInvariant (finishKey self) (finishKey_sound h hs) _ _)

theorem container_sound {R : State → State → Prop} (h : Invariant R) :
    ∀ fuel, Respects R (container fuel) := by
  intro fuel
  induction fuel with
  | zero => exact ⟨fun _ _ s => h.refl s, fun _ s => h.refl s, fun s => h.refl s⟩
  | succ n ih =>
    exact ⟨fun dep options s => addBody_sound h.toAddInvariant ih dep options s,
      fun key s => resolver_sound h.toResolveInvariant (n + 1) key s,
      fun s => finishBody_sound h ih s⟩

theorem session_sound {R : State → State → Prop} (h : Invariant R) :
    ∀ calls s, R s (session calls s) := by
  intro calls
  induction calls with
  | nil => intro s; exact h.refl s
  | cons c rest ih =>
    intro s
    obtain ⟨fuel, a⟩ := c
    exact h.trans (perform_sound h.toAddInvariant (container_sound h fuel) a s) (ih _)

theorem getOwn_setOwn (l : List (String × Definition)) (k : String) (d : Definition)
    (key : String) :
    getOwn (setOwn l k d) key = if k = key then some d else getOwn l key := by
  induction l with
  | nil => simp [setOwn, getOwn]
  | cons p rest ih =>
    obtain ⟨k1, e⟩ := p
    by_cases h1 : k1 = k
    · subst h1
      by_cases h2 : k1 = key <;> simp [setOwn, getOwn, h2]
    · by_cases h2 : k1 = key
      · subst h2
        have h3 : ¬ k = k1 := fun h => h1 h.symm
        simp [setOwn, getOwn, h1, h3]
      · simp [setOwn, getOwn, h1, h2, ih]

theorem getOwn_consume (l : List (String × Definition)) (k key : String) :
    getOwn (consume l k) key =
      if k = key then (getOwn l key).map (fun e => { e with after := some .noop })
      else getOwn l key := by
  induction l with
  | nil => simp [consume, getOwn]
  | cons p rest ih =>
    obtain ⟨k1, e⟩ := p
    by_cases h1 : k1 = k
    · subst h1
      by_cases h2 : k1 = key <;> simp [consume, getOwn, h2]
    · by_cases h2 : k1 = key
      · subst h2
        have h3 : ¬ k = k1 := fun h => h1 h.symm
        simp [consume, getOwn, h1, h3]
      · simp [consume, getOwn, h1, h2, ih]

theorem lookup_own_iff (l : List (String × Definition)) (key : String) (d : Definition) :
    lookup l key = .own d ↔ getOwn l key = some d := by
  unfold lookup
  cases h : getOwn l key with
  | none => simp only []; split <;> simp
  | some e => simp

theorem lookup_falsy (l : List (String × Definition)) (key : String)
    (h : (lookup l key).truthy = false) : getOwn l key = none ∧ key ∉ objectPrototype := by
  unfold lookup at h
  cases hg : getOwn l key with
  | none =>
    rw [hg] at h
    refine ⟨rfl, ?_⟩
    intro hm
    simp [hm, Slot.truthy] at h
  | some e => rw [hg] at h; simp [Slot.truthy] at h

theorem lookup_absent_iff (l : List (String × Definition)) (key : String) :
    lookup l key = .absent ↔ getOwn l key = none ∧ key ∉ objectPrototype := by
  unfold lookup
  cases hg : getOwn l key with
  | none => simp only []; split <;> simp [*]
  | some e => simp

theorem sameCore_refl (d : Definition) : d.sameCore d :=
  ⟨rfl, rfl, rfl, rfl, rfl, rfl⟩

theorem sameCore_trans {a b c : Definition} (h1 : a.sameCore b) (h2 : b.sameCore c) :
    a.sameCore c := by
  obtain ⟨a1, a2, a3, a4, a5, a6⟩ := h1
  obtain ⟨b1, b2, b3, b4, b5, b6⟩ := h2
  exact ⟨b1.trans a1, b2.trans a2, b3.trans a3, b4.trans a4, b5.trans a5, b6.trans a6⟩

theorem grows_refl (s : State) : Grows s s :=
  fun _ d h => ⟨d, h, sameCore_refl d, Or.inl rfl⟩

theorem grows_trans {a b c : State} (h1 : Grows a b) (h2 : Grows b c) : Grows a c := by
  intro key d hd
  obtain ⟨e, he, hc1, ha1⟩ := h1 key d hd
  obtain ⟨f, hf, hc2, ha2⟩ := h2 key e he
  refine ⟨f, hf, sameCore_trans hc1 hc2, ?_⟩
  rcases ha1 with ha1 | ⟨ha1, ha1'⟩
  · rcases ha2 with ha2 | ⟨ha2, ha2'⟩
    · exact Or.inl (ha2.trans ha1)
    · exact Or.inr ⟨by rw [← ha1]; exact ha2, ha2'⟩
  · rcases ha2 with ha2 | ⟨_, ha2'⟩
    · exact Or.inr ⟨ha1, ha2.trans ha1'⟩
    · exact Or.inr ⟨ha1, ha2'⟩

theorem grows_of_dependencies_eq {s t : State} (h : t.dependencies = s.dependencies) :
    Grows s t := by
  intro key d hd
  exact ⟨d, by rw [h]; exact hd, sameCore_refl d, Or.inl rfl⟩

theorem grows_store (s : State) (name : String) (tmp : Definition)
    (hf : (lookup s.dependencies name).truthy = false) :
    Grows s { s with dependencies := setOwn s.dependencies name tmp } := by
  intro key d hd
  have hn := (lookup_falsy _ _ hf).1
  have hne : ¬ name = key := by
    intro h; subst h; rw [hn] at hd; cases hd
  exact ⟨d, by simp [getOwn_setOwn, hne, hd], sameCore_refl d, Or.inl rfl⟩

theorem grows_consume (s : State) (key : String) (d : Definition) (s2 : State)
    (hl : lookup s.dependencies key = .own d) (ha : d.after ≠ none) (h : Grows s s2) :
    Grows s { s2 with dependencies := consume s2.dependencies key } := by
  intro k dk hd
  obtain ⟨e, he, hc, hae⟩ := h k dk hd
  by_cases hk : key = k
  · subst hk
    have : dk = d := by
      rw [lookup_own_iff] at hl
      rw [hl] at hd
      exact (Option.some.inj hd).symm
    subst this
    exact ⟨{ e with after := some .noop }, by simp [getOwn_consume, he], hc, Or.inr ⟨ha, rfl⟩⟩
  · exact ⟨e, by simp [getOwn_consume, hk, he], hc, hae⟩

theorem grows_emit (e : Event) (s : State) : Grows s (emit e s) :=
  grows_of_dependencies_eq rfl

theorem grows_invariant : Invariant Grows where
  refl := grows_refl
  trans := grows_trans
  alloc := fun _ _ _ _ => grows_of_dependencies_eq rfl
  allocFail := fun _ => grows_of_dependencies_eq rfl
  store := fun s _ _ name _ hf => grows_store s name _ hf
  registerCall := fun s _ _ name s2 _ hf h =>
    grows_trans (grows_store s name _ hf) (grows_trans h (grows_emit _ s2))
  afterCall := fun s _ _ _ _ _ _ => grows_emit _ s
  consume := grows_consume
  finishCall := fun s => grows_emit _ s

theorem framed_invariant : ResolveInvariant Framed where
  refl := fun _ => ⟨rfl, Nat.le_refl _⟩
  trans := fun h1 h2 => ⟨h2.1.trans h1.1, Nat.le_trans h1.2 h2.2⟩
  alloc := fun _ _ _ _ => ⟨rfl, Nat.le_succ _⟩
  allocFail := fun _ => ⟨rfl, Nat.le_succ _⟩

theorem resolver_framed (fuel : Nat) (key : String) (s : State) :
    Framed s (resolver fuel key s).2 :=
  resolver_sound framed_invariant fuel key s

theorem collect_framed (fuel : Nat) (names : List String) (s : State) :
    Framed s (collect (resolver fuel) names s).2 :=
  collect_sound framed_invariant (resolver fuel) (resolver_framed fuel) names s

theorem add_grows (fuel : Nat) (dep : Dependency) (options : Option DependencyOptions)
    (s : State) : Grows s (add fuel dep options s).2 :=
  (container_sound grows_invariant fuel).add dep options s

theorem finish_grows (fuel : Nat) (s : State) : Grows s (finish fuel s).2 :=
  (container_sound grows_invariant fuel).finish s
theorem resolverBody_own (self : Self) (key : String) (s : State) (d : Definition)
    (args : List Value) (s1 : State) (d1 : Definition)
    (hl : lookup s.dependencies key = .own d)
    (hc : collect self.resolver d.deps s = (.ok args, s1))
    (hl1 : lookup s1.dependencies key = .own d1) :
    resolverBody self key s =
      if d1.single then (.ok d1.ctr, s1) else construct d1.ctr args s1 := by
  simp only [resolverBody, hl, hc, hl1]

theorem resolverBody_ok (self : Self) (key : String) (s : State) (v : Value) (s2 : State)
    (h : resolverBody self key s = (.ok v, s2)) :
    ∃ d args s1 d1, lookup s.dependencies key = .own d ∧
      collect self.resolver d.deps s = (.ok args, s1) ∧
      lookup s1.dependencies key = .own d1 ∧
      ((d1.single = true ∧ v = d1.ctr ∧ s2 = s1) ∨
        (d1.single = false ∧ construct d1.ctr args s1 = (.ok v, s2))) := by
  cases hl : lookup s.dependencies key with
  | absent => simp [resolverBody, hl] at h
  | inherited => simp [resolverBody, hl] at h
  | own d =>
    rcases hc : collect self.resolver d.deps s with ⟨args | e | _, s1⟩
    · cases hl1 : lookup s1.dependencies key with
      | absent => simp [resolverBody, hl, hc, hl1] at h
      | inherited => simp [resolverBody, hl, hc, hl1] at h
      | own d1 =>
        refine ⟨d, args, s1, d1, rfl, hc, hl1, ?_⟩
        rw [resolverBody_own self key s d args s1 d1 hl hc hl1] at h
        cases hs : d1.single with
        | true =>
          rw [hs] at h
          simp only [if_true, Prod.mk.injEq, Outcome.ok.injEq] at h
          exact Or.inl ⟨rfl, h.1.symm, h.2.symm⟩
        | false =>
          rw [hs] at h
          exact Or.inr ⟨rfl, by simpa using h⟩
    · simp [resolverBody, hl, hc] at h
    · simp [resolverBody, hl, hc] at h

theorem collect_cons_ok (f : String → State → Outcome Value × State) (k : String)
    (rest : List String) (s : State) (vs : List Value) (s2 : State)
    (h : collect f (k :: rest) s = (.ok vs, s2)) :
    ∃ v s1 ws, f k s = (.ok v, s1) ∧ collect f rest s1 = (.ok ws, s2) ∧ vs = v :: ws := by
  rcases hk : f k s with ⟨v | e | _, s1⟩
  · rcases hr : collect f rest s1 with ⟨ws | e | _, s3⟩
    · simp only [collect, hk, hr, Prod.mk.injEq, Outcome.ok.injEq] at h
      exact ⟨v, s1, ws, rfl, by rw [hr, h.2], h.1.symm⟩
    · simp [collect, hk, hr] at h
    · simp [collect, hk, hr] at h
  · simp [collect, hk] at h
  · simp [collect, hk] at h

theorem collect_cons_eq (f : String → State → Outcome Value × State) (k : String)
    (rest : List String) (s : State) (v : Value) (s1 : State) (ws : List Value) (s2 : State)
    (hk : f k s = (.ok v, s1)) (hr : collect f rest s1 = (.ok ws, s2)) :
    collect f (k :: rest) s = (.ok (v :: ws), s2) := by
  simp only [collect, hk, hr]

theorem construct_ok_stable (ctr : Value) (args : List Value) (s : State) (v : Value)
    (s1 : State) (h : construct ctr args s = (.ok v, s1)) (brgs : List Value) (t : State) :
    ∃ w t1, construct ctr brgs t = (.ok w, t1) := by
  cases ctr with
  | function ref body =>
    cases body with
    | initialises => exact ⟨_, _, rfl⟩
    | returnsObject r => exact ⟨_, _, rfl⟩
    | throws msg => simp [construct] at h
  | classConstructor ref => simp [construct] at h
  | object ref => simp [construct] at h
  | container => simp [construct] at h
  | created a b => simp [construct] at h

theorem grows_lookup {s t : State} (h : Grows s t) {key : String} {d : Definition}
    (hl : lookup s.dependencies key = .own d) :
    ∃ e, lookup t.dependencies key = .own e ∧ d.sameCore e := by
  rw [lookup_own_iff] at hl
  obtain ⟨e, he, hc, _⟩ := h key d hl
  exact ⟨e, (lookup_own_iff _ _ _).2 he, hc⟩

theorem framed_grows {s t : State} (h : Framed s t) : Grows s t :=
  grows_of_dependencies_eq h.1

theorem collect_stable (f : String → State → Outcome Value × State)
    (hf : ∀ key s v s1, f key s = (.ok v, s1) → ∀ t, Grows s t → ∃ w t1, f key t = (.ok w, t1))
    (hfr : ∀ key s, Framed s (f key s).2) :
    ∀ names s vs s1, collect f names s = (.ok vs, s1) → ∀ t, Grows s t →
      ∃ ws t1, collect f names t = (.ok ws, t1) := by
  intro names
  induction names with
  | nil => intro s vs s1 _ t _; exact ⟨[], t, rfl⟩
  | cons k rest ih =>
    intro s vs s2 h t hg
    obtain ⟨v, s1, ws, hk, hr, _⟩ := collect_cons_ok f k rest s vs s2 h
    obtain ⟨w, t1, hw⟩ := hf k s v s1 hk t hg
    have h1 : Framed s s1 := by have := hfr k s; rw [hk] at this; exact this
    have h2 : Framed t t1 := by have := hfr k t; rw [hw] at this; exact this
    have hg1 : Grows s1 t1 := by
      intro key d hd
      rw [h1.1] at hd
      obtain ⟨e, he, hc⟩ := hg key d hd
      exact ⟨e, by rw [h2.1]; exact he, hc⟩
    obtain ⟨ws1, t2, hws⟩ := ih s1 ws s2 hr t1 hg1
    exact ⟨w :: ws1, t2, collect_cons_eq f k rest t w t1 ws1 t2 hw hws⟩

theorem resolver_stable : ∀ fuel key s v s1, resolver fuel key s = (.ok v, s1) →
    ∀ t, Grows s t → ∃ w t1, resolver fuel key t = (.ok w, t1) := by
  intro fuel
  induction fuel with
  | zero => intro key s v s1 h; simp [resolver, container] at h
  | succ n ih =>
    intro key s v s2 h t hg
    obtain ⟨d, args, s1, d1, hl, hc, hl1, hcase⟩ :=
      resolverBody_ok (container n) key s v s2 h
    obtain ⟨e, hle, hce⟩ := grows_lookup hg hl
    have hc' : collect (resolver n) e.deps s = (.ok args, s1) := by
      rw [hce.2.2.1]; exact hc
    obtain ⟨brgs, t1, hb⟩ :=
      collect_stable (resolver n) ih (resolver_framed n) e.deps s args s1 hc' t hg
    have hf1 : Framed s s1 := by
      have := collect_framed n d.deps s
      rw [show collect (resolver n) d.deps s = _ from hc] at this
      exact this
    have hf2 : Framed t t1 := by have := collect_framed n e.deps t; rw [hb] at this; exact this
    have hd1 : d1 = d := by
      rw [hf1.1, hl] at hl1; exact (Slot.own.inj hl1).symm
    subst hd1
    have hle1 : lookup t1.dependencies key = .own e := by rw [hf2.1]; exact hle
    have heq := resolverBody_own (container n) key t e brgs t1 e hle hb hle1
    show ∃ w t1, resolverBody (container n) key t = (.ok w, t1)
    rw [heq, hce.2.2.2.1]
    rcases hcase with ⟨hs, _, _⟩ | ⟨hs, hk⟩
    · rw [hs]; exact ⟨_, _, rfl⟩
    · rw [hs, hce.1]
      simpa using construct_ok_stable d1.ctr args s1 v s2 hk brgs t1

theorem keepsForm_of_dependencies_eq {s t : State} (h : t.dependencies = s.dependencies) :
    KeepsForm s t := by
  intro hw key d hd
  rw [h] at hd
  exact hw key d hd

theorem wellFormed_store (s : State) (dep : Dependency) (newDep : DependencyOptions)
    (name : String) (hw : WellFormed s) :
    WellFormed
      { s with dependencies := setOwn s.dependencies name (newDefinition dep newDep name) } := by
  intro key d hd hs
  simp only [getOwn_setOwn] at hd
  by_cases hk : name = key
  · rw [if_pos hk] at hd
    have hd1 := Option.some.inj hd
    subst hd1
    simp only [newDefinition, Bool.or_eq_false_iff, Bool.not_eq_false'] at hs
    exact hs.2
  · rw [if_neg hk] at hd
    exact hw key d hd hs

theorem keepsForm_invariant : Invariant KeepsForm where
  refl := fun _ h => h
  trans := fun h1 h2 h => h2 (h1 h)
  alloc := fun _ _ _ _ => keepsForm_of_dependencies_eq rfl
  allocFail := fun _ => keepsForm_of_dependencies_eq rfl
  store := fun s dep newDep name _ _ hw => wellFormed_store s dep newDep name hw
  registerCall := fun s dep newDep name s2 _ _ h hw =>
    keepsForm_of_dependencies_eq rfl (h (wellFormed_store s dep newDep name hw))
  afterCall := fun _ _ _ _ _ _ _ => keepsForm_of_dependencies_eq rfl
  consume := fun s key _ s2 _ _ h hw => by
    intro k d hd hs
    have hw2 := h hw
    simp only [getOwn_consume] at hd
    by_cases hk : key = k
    · rw [if_pos hk] at hd
      cases hg : getOwn s2.dependencies k with
      | none => rw [hg] at hd; cases hd
      | some e =>
        rw [hg] at hd
        have hd1 := Option.some.inj hd
        subst hd1
        exact hw2 k e hg hs
    · rw [if_neg hk] at hd
      exact hw2 k d hd hs
  finishCall := fun _ => keepsForm_of_dependencies_eq rfl

theorem wellFormed_initial : WellFormed DependencyResolver := by
  intro key d hd hs
  simp only [DependencyResolver, getOwn] at hd
  split at hd
  · have hd1 := Option.some.inj hd
    subst hd1
    cases hs
  · cases hd

theorem reachable_wellFormed (s : State) (h : Reachable s) : WellFormed s := by
  obtain ⟨calls, rfl⟩ := h
  exact session_sound keepsForm_invariant calls DependencyResolver wellFormed_initial

/-! ## More room on the stack changes nothing -/

theorem forEach_mono {α : Type} (f g : α → State → Outcome Unit × State)
    (h : ∀ x s, (f x s).1.ended = true → g x s = f x s) :
    ∀ xs s, (forEach f xs s).1.ended = true → forEach g xs s = forEach f xs s := by
  intro xs
  induction xs with
  | nil => intro s _; rfl
  | cons x rest ih =>
    intro s he
    rcases hx : f x s with ⟨_ | e | _, s1⟩
    · have hg : g x s = f x s := h x s (by rw [hx]; rfl)
      simp only [forEach, hx] at he
      simp only [forEach, hg, hx]
      exact ih s1 he
    · have hg : g x s = f x s := h x s (by rw [hx]; rfl)
      simp only [forEach, hg, hx]
    · simp [forEach, hx, Outcome.ended] at he

theorem collect_mono (f g : String → State → Outcome Value × State)
    (h : ∀ k s, (f k s).1.ended = true → g k s = f k s) :
    ∀ names s, (collect f names s).1.ended = true → collect g names s = collect f names s := by
  intro names
  induction names with
  | nil => intro s _; rfl
  | cons k rest ih =>
    intro s he
    rcases hk : f k s with ⟨v | e | _, s1⟩
    · have hg : g k s = f k s := h k s (by rw [hk]; rfl)
      have he1 : (collect f rest s1).1.ended = true := by
        rcases hr : collect f rest s1 with ⟨_ | _ | _, s2⟩
        · rfl
        · rfl
        · simp [collect, hk, hr, Outcome.ended] at he
      simp only [collect, hg, hk, ih s1 he1]
    · have hg : g k s = f k s := h k s (by rw [hk]; rfl)
      simp only [collect, hg, hk]
    · simp [collect, hk, Outcome.ended] at he

theorem perform_mono {c c' : Self} (h : Extends c c') (a : Action) (s : State)
    (he : (perform c a s).1.ended = true) : perform c' a s = perform c a s := by
  cases a with
  | add dep options => exact h.add dep options s he
  | resolver key =>
    have he1 : (c.resolver key s).1.ended = true := by
      rcases hr : c.resolver key s with ⟨_ | _ | _, s1⟩
      · rfl
      · rfl
      · simp [perform, hr, Outcome.ended] at he
    simp only [perform, h.resolver key s he1]
  | finish => exact h.finish s he
  | throw msg => rfl

theorem runHook_mono {c c' : Self} (h : Extends c c') (body : List Action) (s : State)
    (he : (runHook c body s).1.ended = true) : runHook c' body s = runHook c body s :=
  forEach_mono (perform c) (perform c') (perform_mono h) body s he

theorem addExport_mono {c c' : Self} (h : Extends c c') (e : ExportEntry) (s : State)
    (he : (addExport c e s).1.ended = true) : addExport c' e s = addExport c e s := by
  cases e with
  | request dependency options => exact h.add dependency options s he
  | bare dep => exact h.add dep none s he

theorem addBody_mono {c c' : Self} (h : Extends c c') (dep : Dependency)
    (options : Option DependencyOptions) (s : State)
    (he : (addBody c dep options s).1.ended = true) :
    addBody c' dep options s = addBody c dep options s := by
  cases hn : (options.getD dep.props).name with
  | none => simp only [addBody, hn]
  | some name =>
    by_cases hg : name ≠ "" ∧ (lookup s.dependencies name).truthy = false
    · simp only [addBody, hn, if_pos hg] at he ⊢
      rcases hx : forEach (addExport c) ((options.getD dep.props).exports.getD [])
        { s with dependencies :=
            setOwn s.dependencies name (newDefinition dep (options.getD dep.props) name) }
        with ⟨_ | e | _, s2⟩
      · rw [forEach_mono (addExport c) (addExport c') (addExport_mono h) _ _
          (by rw [hx]; rfl), hx]
        rw [hx] at he
        cases hr : (options.getD dep.props).register with
        | none => rfl
        | some body =>
          rw [hr] at he
          exact runHook_mono h body _ he
      · rw [forEach_mono (addExport c) (addExport c') (addExport_mono h) _ _
          (by rw [hx]; rfl), hx]
      · rw [hx] at he; simp [Outcome.ended] at he
    · simp only [addBody, hn, if_neg hg]

theorem resolverBody_mono {c c' : Self} (h : Extends c c') (key : String) (s : State)
    (he : (resolverBody c key s).1.ended = true) :
    resolverBody c' key s = resolverBody c key s := by
  cases hl : lookup s.dependencies key with
  | absent => simp only [resolverBody, hl]
  | inherited => simp only [resolverBody, hl]
  | own d =>
    have hc : (collect c.resolver d.deps s).1.ended = true := by
      rcases hr : collect c.resolver d.deps s with ⟨_ | _ | _, s1⟩
      · rfl
      · rfl
      · simp [resolverBody, hl, hr, Outcome.ended] at he
    simp only [resolverBody, hl, collect_mono c.resolver c'.resolver h.resolver d.deps s hc]

theorem finishKey_mono {c c' : Self} (h : Extends c c') (key : String) (s : State)
    (he : (finishKey c key s).1.ended = true) : finishKey c' key s = finishKey c key s := by
  cases hl : lookup s.dependencies key with
  | absent => simp only [finishKey, hl]
  | inherited => simp only [finishKey, hl]
  | own d =>
    cases ha : d.after with
    | none => simp only [finishKey, hl, ha]
    | some cb =>
      have hc : (collect c.resolver d.deps s).1.ended = true := by
        rcases hr : collect c.resolver d.deps s with ⟨_ | _ | _, s1⟩
        · rfl
        · rfl
        · simp [finishKey, hl, ha, hr, Outcome.ended] at he
      simp only [finishKey, hl, ha,
        collect_mono c.resolver c'.resolver h.resolver d.deps s hc] at he ⊢
      rcases hr : collect c.resolver d.deps s with ⟨args | e | _, s1⟩
      · simp only [hr] at he ⊢
        cases hl1 : lookup s1.dependencies key with
        | absent => rfl
        | inherited => rfl
        | own d1 =>
          simp only [hl1] at he ⊢
          cases ha1 : d1.after with
          | none => rfl
          | some cb1 =>
            cases cb1 with
            | noop => rfl
            | user body =>
              simp only [ha1] at he ⊢
              have hh : (runHook c body (emit (.after key args) s1)).1.ended = true := by
                rcases hb : runHook c body (emit (.after key args) s1) with ⟨_ | _ | _, s2⟩
                · rfl
                · rfl
                · simp [hb, Outcome.ended] at he
              rw [runHook_mono h body _ hh]
      · rfl
      · rfl

theorem finishBody_mono {c c' : Self} (h : Extends c c') (s : State)
    (he : (finishBody c s).1.ended = true) : finishBody c' s = finishBody c s :=
  forEach_mono (finishKey c) (finishKey c') (finishKey_mono h) _ _ he

theorem container_succ : ∀ fuel, Extends (container fuel) (container (fuel + 1)) := by
  intro fuel
  induction fuel with
  | zero =>
    exact ⟨fun _ _ _ he => by simp [container, Outcome.ended] at he,
      fun _ _ he => by simp [container, Outcome.ended] at he,
      fun _ he => by simp [container, Outcome.ended] at he⟩
  | succ n ih =>
    exact ⟨fun dep options s he => addBody_mono ih dep options s he,
      fun key s he => resolverBody_mono ih key s he,
      fun s he => finishBody_mono ih s he⟩

theorem container_mono (fuel extra : Nat) :
    Extends (container fuel) (container (fuel + extra)) := by
  induction extra with
  | zero => exact ⟨fun _ _ _ _ => rfl, fun _ _ _ => rfl, fun _ _ => rfl⟩
  | succ k ih =>
    have h := container_succ (fuel + k)
    refine ⟨fun dep options s he => ?_, fun key s he => ?_, fun s he => ?_⟩
    · have h1 := ih.add dep options s he
      exact (h.add dep options s (by rw [h1]; exact he)).trans h1
    · have h1 := ih.resolver key s he
      exact (h.resolver key s (by rw [h1]; exact he)).trans h1
    · have h1 := ih.finish s he
      exact (h.finish s (by rw [h1]; exact he)).trans h1

theorem resolver_mono (fuel extra : Nat) (key : String) (s : State)
    (he : (resolver fuel key s).1.ended = true) :
    resolver (fuel + extra) key s = resolver fuel key s :=
  (container_mono fuel extra).resolver key s he

theorem add_mono (fuel extra : Nat) (dep : Dependency) (options : Option DependencyOptions)
    (s : State) (he : (add fuel dep options s).1.ended = true) :
    add (fuel + extra) dep options s = add fuel dep options s :=
  (container_mono fuel extra).add dep options s he

theorem finish_mono (fuel extra : Nat) (s : State) (he : (finish fuel s).1.ended = true) :
    finish (fuel + extra) s = finish fuel s :=
  (container_mono fuel extra).finish s he

/-! ## Resolution -/

/-- C1, as stated, fails: the object stored under `A` is a singleton, yet `resolver('A')`
never returns it, because its dependency `missing` is resolved first and is not registered. -/
theorem singleton_law_counterexample :
    (getOwn brokenSingleton.dependencies "A").map (fun d => (d.ctr, d.single))
        = some (Value.object 1, true) ∧
      (∀ fuel, (resolver fuel "A" brokenSingleton).1 ≠ .ok (.object 1)) ∧
      (resolver 2 "A" brokenSingleton).1
        = .throw (.error "Dependency was not found: missing") := by
  refine ⟨by decide, ?_, by decide⟩
  intro fuel
  match fuel with
  | 0 => decide
  | 1 => decide
  | n + 2 =>
    have : (resolver (n + 2) "A" brokenSingleton).1
        = .throw (.error "Dependency was not found: missing") := rfl
    rw [this]
    exact fun h => Outcome.noConfusion h

/-- C1 (amended): for a registered definition whose singleton flag is true and whose
dependency names all resolve, `resolver` returns the stored `ctr` itself and leaves the
state exactly as the dependency loop left it (nothing is constructed from `ctr`); a second
call returns the same reference. -/
theorem singleton_law (fuel : Nat) (key : String) (s : State) (d : Definition)
    (args : List Value) (s1 : State)
    (hl : lookup s.dependencies key = .own d) (hs : d.single = true)
    (hc : collect (resolver fuel) d.deps s = (.ok args, s1)) :
    resolver (fuel + 1) key s = (.ok d.ctr, s1) ∧
      ∃ s2, resolver (fuel + 1) key s1 = (.ok d.ctr, s2) := by
  have key1 : ∀ (t : State) (brgs : List Value) (t1 : State),
      lookup t.dependencies key = .own d →
      collect (resolver fuel) d.deps t = (.ok brgs, t1) →
      resolver (fuel + 1) key t = (.ok d.ctr, t1) := by
    intro t brgs t1 hlt hct
    have hf : Framed t t1 := by
      have := collect_framed fuel d.deps t; rw [hct] at this; exact this
    have hl1 : lookup t1.dependencies key = .own d := by rw [hf.1]; exact hlt
    have := resolverBody_own (container fuel) key t d brgs t1 d hlt hct hl1
    rw [hs] at this
    exact this
  refine ⟨key1 s args s1 hl hc, ?_⟩
  have hf : Framed s s1 := by
    have := collect_framed fuel d.deps s; rw [hc] at this; exact this
  obtain ⟨brgs, t1, hb⟩ := collect_stable (resolver fuel) (resolver_stable fuel)
    (resolver_framed fuel) d.deps s args s1 hc s1 (framed_grows hf)
  exact ⟨t1, key1 s1 brgs t1 (by rw [hf.1]; exact hl) hb⟩

/-- Witness of C1 (amended) on the test-suite registry: the singleton function 7. -/
theorem singleton_law_witness :
    resolver 2 "testTrue" sampleSingleton = (.ok (.function 7 .initialises), sampleSingleton) ∧
      ∃ s2, resolver 2 "testTrue" sampleSingleton = (.ok (.function 7 .initialises), s2) :=
  singleton_law 1 "testTrue" sampleSingleton
    { ctr := .function 7 .initialises, name := "testTrue", deps := ["_"], single := true,
      exports := none, register := none, after := none }
    [.object 3] sampleSingleton rfl rfl rfl
theorem collect_pointwise (f : String → State → Outcome Value × State)
    (hfr : ∀ key s, Framed s (f key s).2) :
    ∀ names s vs s1, collect f names s = (.ok vs, s1) →
      List.Forall₂ (fun name v => ∃ a b, Framed s a ∧ f name a = (.ok v, b)) names vs := by
  intro names
  induction names with
  | nil =>
    intro s vs s1 h
    simp only [collect, Prod.mk.injEq, Outcome.ok.injEq] at h
    rw [← h.1]; exact List.Forall₂.nil
  | cons k rest ih =>
    intro s vs s2 h
    obtain ⟨v, s1, ws, hk, hr, hvs⟩ := collect_cons_ok f k rest s vs s2 h
    subst hvs
    have h1 : Framed s s1 := by have := hfr k s; rw [hk] at this; exact this
    refine List.Forall₂.cons ⟨s, s1, ⟨rfl, Nat.le_refl _⟩, hk⟩ ?_
    refine List.Forall₂.imp ?_ (ih s1 ws s2 hr)
    rintro name w ⟨a, b, hfa, hab⟩
    exact ⟨a, b, framed_invariant.trans h1 hfa, hab⟩

/-- C2, as stated, fails twice over.  `T` is a registered non-singleton function, yet with
any room on the stack `resolver('T')` returns no instance and its constructor is never
called, because its dependency `missing` is not registered.  `U` is a registered
non-singleton function whose constructor returns an existing object: two calls of
`resolver('U')` return that same object. -/
theorem transient_law_counterexample :
    (getOwn brokenTransient.dependencies "T").map (fun d => (d.ctr, d.single))
        = some (Value.function 4 .initialises, false) ∧
      (∀ fuel, (resolver (fuel + 2) "T" brokenTransient).1
        = .throw (.error "Dependency was not found: missing")) ∧
      (∀ fuel, (resolver fuel "T" brokenTransient).2.trace = []) ∧
      (getOwn brokenTransient.dependencies "U").map (fun d => (d.ctr, d.single))
        = some (Value.function 5 (.returnsObject 9), false) ∧
      (∀ fuel, (resolver (fuel + 1) "U" brokenTransient).1 = .ok (.object 9)) ∧
      ∀ fuel fuel1, (resolver (fuel1 + 1) "U" (resolver (fuel + 1) "U" brokenTransient).2).1
        = .ok (.object 9) := by
  refine ⟨by decide, fun fuel => ?_, fun fuel => ?_, by decide, fun fuel => ?_,
    fun fuel fuel1 => ?_⟩
  · rw [Nat.add_comm, resolver_mono 2 fuel _ _ (by decide)]; decide
  · match fuel with
    | 0 => decide
    | 1 => decide
    | n + 2 => rw [Nat.add_comm, resolver_mono 2 n _ _ (by decide)]; decide
  · rw [Nat.add_comm, resolver_mono 1 fuel _ _ (by decide)]; decide
  · rw [Nat.add_comm fuel 1, resolver_mono 1 fuel _ _ (by decide), Nat.add_comm fuel1 1,
      resolver_mono 1 fuel1 _ _ (by decide)]
    decide

/-- C2 (amended): for a registered non-singleton definition whose `ctr` is a function declared
with `function` (not a class) that returns normally without returning an object of its own,
and whose dependency names all resolve, `resolver` calls `ctr` as a constructor exactly once,
on the values the dependency loop of that call produced, and returns the object allocated for
that call, which is not `ctr`; a second call resolves the dependencies again and returns an
object allocated later, hence a different one. -/
theorem transient_law (fuel : Nat) (key : String) (s : State) (d : Definition) (ref : Nat)
    (args : List Value) (s1 : State)
    (hl : lookup s.dependencies key = .own d) (hs : d.single = false)
    (hf : d.ctr = .function ref .initialises)
    (hc : collect (resolver fuel) d.deps s = (.ok args, s1)) :
    resolver (fuel + 1) key s
        = (.ok (.created s1.serial ref),
            emit (.construct d.ctr args (.created s1.serial ref))
              { s1 with serial := s1.serial + 1 }) ∧
      Value.created s1.serial ref ≠ d.ctr ∧
      ∃ brgs t1,
        collect (resolver fuel) d.deps (resolver (fuel + 1) key s).2 = (.ok brgs, t1) ∧
        resolver (fuel + 1) key (resolver (fuel + 1) key s).2
          = (.ok (.created t1.serial ref),
              emit (.construct d.ctr brgs (.created t1.serial ref))
                { t1 with serial := t1.serial + 1 }) ∧
        Value.created t1.serial ref ≠ .created s1.serial ref := by
  have key1 : ∀ (t : State) (brgs : List Value) (t1 : State),
      lookup t.dependencies key = .own d →
      collect (resolver fuel) d.deps t = (.ok brgs, t1) →
      resolver (fuel + 1) key t
        = (.ok (.created t1.serial ref),
            emit (.construct d.ctr brgs (.created t1.serial ref))
              { t1 with serial := t1.serial + 1 }) := by
    intro t brgs t1 hlt hct
    have hfr : Framed t t1 := by
      have := collect_framed fuel d.deps t; rw [hct] at this; exact this
    have hl1 : lookup t1.dependencies key = .own d := by rw [hfr.1]; exact hlt
    have := resolverBody_own (container fuel) key t d brgs t1 d hlt hct hl1
    rw [hs, hf] at this
    rw [hf]
    exact this
  have h1 := key1 s args s1 hl hc
  have hfr : Framed s s1 := by
    have := collect_framed fuel d.deps s; rw [hc] at this; exact this
  refine ⟨h1, by rw [hf]; exact fun h => Value.noConfusion h, ?_⟩
  rw [h1]
  have hg : Grows s (emit (.construct d.ctr args (.created s1.serial ref))
      { s1 with serial := s1.serial + 1 }) := grows_of_dependencies_eq hfr.1
  obtain ⟨brgs, t1, hb⟩ := collect_stable (resolver fuel) (resolver_stable fuel)
    (resolver_framed fuel) d.deps s args s1 hc _ hg
  have hfr2 := collect_framed fuel d.deps (emit (.construct d.ctr args (.created s1.serial ref))
      { s1 with serial := s1.serial + 1 })
  rw [hb] at hfr2
  refine ⟨brgs, t1, hb, key1 _ brgs t1 ?_ hb, ?_⟩
  · show lookup s1.dependencies key = .own d
    rw [hfr.1]; exact hl
  · intro h
    have h2 : t1.serial = s1.serial := by injection h
    have h3 : s1.serial + 1 ≤ t1.serial := hfr2.2
    omega

/-- Witness of C2 (amended) on the test-suite registry: the constructor 7 with `$deps: ['_']`. -/
theorem transient_law_witness :
    resolver 2 "testTrue" sampleTransient
        = (.ok (.created sampleTransient.serial 7),
            emit (.construct (.function 7 .initialises) [.object 3]
                (.created sampleTransient.serial 7))
              { sampleTransient with serial := sampleTransient.serial + 1 }) ∧
      Value.created sampleTransient.serial 7 ≠ .function 7 .initialises ∧
      ∃ brgs t1,
        collect (resolver 1) ["_"] (resolver 2 "testTrue" sampleTransient).2 = (.ok brgs, t1) ∧
        resolver 2 "testTrue" (resolver 2 "testTrue" sampleTransient).2
          = (.ok (.created t1.serial 7),
              emit (.construct (.function 7 .initialises) brgs (.created t1.serial 7))
                { t1 with serial := t1.serial + 1 }) ∧
        Value.created t1.serial 7 ≠ .created sampleTransient.serial 7 :=
  transient_law 1 "testTrue" sampleTransient
    { ctr := .function 7 .initialises, name := "testTrue", deps := ["_"], single := false,
      exports := none, register := none, after := none }
    7 [.object 3] sampleTransient rfl rfl rfl rfl

/-- Dependency-injection order for a function declared with `function`: take a registered
non-singleton definition that holds one and whose dependency names all resolve.  `resolver`
enters the function once, on the list `args` built by the dependency loop: `args` has one
entry per declared name, the i-th being a result of `resolver` on the i-th name in the same
registry; a definition added with no `$deps` has an empty list of names, hence is called
with no argument. -/
theorem injection_order (fuel : Nat) (key : String) (s : State) (d : Definition)
    (args : List Value) (s1 : State) (ref : Nat) (body : Body)
    (hl : lookup s.dependencies key = .own d) (hs : d.single = false)
    (hf : d.ctr = .function ref body)
    (hc : collect (resolver fuel) d.deps s = (.ok args, s1)) :
    (resolver (fuel + 1) key s).2.trace
        = s1.trace ++ [.construct d.ctr args (.created s1.serial ref)] ∧
      args.length = d.deps.length ∧
      List.Forall₂ (fun name v => ∃ a b, Framed s a ∧ resolver fuel name a = (.ok v, b))
        d.deps args ∧
      (d.deps = [] → args = []) ∧
      ∀ dep newDep name, newDep.deps = none → (newDefinition dep newDep name).deps = [] := by
  have hfr : Framed s s1 := by
    have := collect_framed fuel d.deps s; rw [hc] at this; exact this
  have hl1 : lookup s1.dependencies key = .own d := by rw [hfr.1]; exact hl
  have h1 := resolverBody_own (container fuel) key s d args s1 d hl hc hl1
  have h2 := collect_pointwise (resolver fuel) (resolver_framed fuel) d.deps s args s1 hc
  refine ⟨?_, h2.length_eq.symm, h2, ?_, ?_⟩
  · show (resolverBody (container fuel) key s).2.trace = _
    rw [h1, hs, hf]
    cases body <;> rfl
  · intro hd
    have := h2.length_eq
    rw [hd] at this
    exact List.length_eq_zero.mp this.symm
  · intro dep newDep name hn
    simp [newDefinition, hn]

/-- On the test-suite registry, the function 7 is entered on `lodash`. -/
theorem injection_order_sample :
    (resolver 2 "testTrue" sampleTransient).2.trace
        = sampleTransient.trace
          ++ [.construct (.function 7 .initialises) [.object 3]
                (.created sampleTransient.serial 7)] ∧
      [Value.object 3].length = ["_"].length ∧
      List.Forall₂
        (fun name v => ∃ a b, Framed sampleTransient a ∧ resolver 1 name a = (.ok v, b))
        ["_"] [.object 3] ∧
      (["_"] = [] → [Value.object 3] = []) ∧
      ∀ dep newDep name, newDep.deps = none → (newDefinition dep newDep name).deps = [] :=
  injection_order 1 "testTrue" sampleTransient
    { ctr := .function 7 .initialises, name := "testTrue", deps := ["_"], single := false,
      exports := none, register := none, after := none }
    [.object 3] sampleTransient 7 .initialises rfl rfl rfl rfl

/-- C3, at the failing input `add(class Foo {...}, {$name: 'Foo', $deps: ['_']})`,
`add({}, {$name: '_'})`, `resolver('Foo')`: the class is stored as a definition that is not a
singleton, its dependency `_` resolves to the object 3, and yet, with room for two or more
activations, the call ends with a TypeError and the log is as it was: the constructor of the
class was not entered, so it received no argument. -/
theorem injection_class :
    (getOwn classTransient.dependencies "Foo").map (fun d => (d.ctr, d.single, d.deps))
        = some (Value.classConstructor 7, false, ["_"]) ∧
      (collect (resolver 1) ["_"] classTransient).1 = .ok [.object 3] ∧
      ∀ fuel, (resolver (fuel + 2) "Foo" classTransient).1 = .throw .typeError ∧
        (resolver (fuel + 2) "Foo" classTransient).2.trace = classTransient.trace := by
  refine ⟨by decide, by decide, fun fuel => ?_⟩
  rw [Nat.add_comm, resolver_mono 2 fuel _ _ (by decide)]
  exact ⟨by decide, by decide⟩

theorem resolver_absent (fuel : Nat) (key : String) (s : State)
    (h : lookup s.dependencies key = .absent) :
    resolver (fuel + 1) key s = (.throw (.error ("Dependency was not found: " ++ key)), s) := by
  show resolverBody (container fuel) key s = _
  simp only [resolverBody, h]

/-- C4, at the failing input `resolver('toString')` on a fresh container: `toString` is
not an own key of the registry and `finish` would not visit it, yet `dependencies[key]`
reads the inherited `Object.prototype.toString`, the guard of line 99 is passed, and the
read of `$deps.forEach` on line 105 raises a `TypeError` instead of the error
`'Dependency was not found: toString'`. -/
theorem notFound_inherited_name :
    getOwn DependencyResolver.dependencies "toString" = none ∧
      "toString" ∉ objectKeys DependencyResolver.dependencies ∧
      (resolver 1 "toString" DependencyResolver).1 = .throw .typeError ∧
      ∀ fuel, (resolver fuel "toString" DependencyResolver).1
        ≠ .throw (.error "Dependency was not found: toString") := by
  refine ⟨rfl, by decide, by decide, ?_⟩
  intro fuel
  match fuel with
  | 0 => decide
  | n + 1 =>
    have : (resolver (n + 1) "toString" DependencyResolver).1 = .throw .typeError := rfl
    rw [this]
    exact fun h => Thrown.noConfusion (Outcome.throw.inj h)

/-! ## Registration -/

/-- C5: when the effective name of `add(dep, options)` is missing (absent or the empty
string) or already names a stored definition, `add` returns normally and leaves the whole
state as it was: the registry (hence the stored definition and how it resolves) and the log
of calls (no register hook ran, no export was processed). -/
theorem silent_skip (fuel : Nat) (dep : Dependency) (options : Option DependencyOptions)
    (s : State)
    (h : effectiveName dep options = none ∨ effectiveName dep options = some "" ∨
      ∃ name d, effectiveName dep options = some name ∧
        getOwn s.dependencies name = some d) :
    add (fuel + 1) dep options s = (.ok (), s) := by
  show addBody (container fuel) dep options s = (.ok (), s)
  unfold effectiveName at h
  rcases h with h | h | ⟨name, d, h, hd⟩
  · simp only [addBody, h]
  · simp [addBody, h]
  · have : (lookup s.dependencies name).truthy = true := by
      rw [(lookup_own_iff _ _ _).2 hd]; rfl
    simp [addBody, h, this]

/-- Witness of C5: a second definition under the reserved name is skipped. -/
theorem silent_skip_witness :
    add 1 (.mk (.object 1) (.mk (some "DependencyResolver") none none none
        (some [.throw "never"]) none)) none DependencyResolver
      = (.ok (), DependencyResolver) :=
  silent_skip 0 _ none DependencyResolver
    (Or.inr (Or.inr ⟨"DependencyResolver",
      { ctr := .container, name := "DependencyResolver", deps := [], single := true,
        exports := none, register := none, after := none }, rfl, rfl⟩))

theorem addBody_fresh (self : Self) (dep : Dependency) (options : Option DependencyOptions)
    (s : State) (name : String) (hn : effectiveName dep options = some name)
    (hne : name ≠ "") (hf : lookup s.dependencies name = .absent) :
    addBody self dep options s =
      match forEach (addExport self) ((options.getD dep.props).exports.getD [])
          (store dep options name s) with
      | (.ok _, s2) =>
        (match (options.getD dep.props).register with
         | some body => runHook self body (emit (.register name .container) s2)
         | none => (.ok (), s2))
      | (.throw e, s2) => (.throw e, s2)
      | (.stackExhausted, s2) => (.stackExhausted, s2) := by
  unfold effectiveName at hn
  have ht : (lookup s.dependencies name).truthy = false := by rw [hf]; rfl
  simp only [addBody, hn, store]
  rw [if_pos ⟨hne, ht⟩]

theorem getOwn_store (dep : Dependency) (options : Option DependencyOptions) (name : String)
    (s : State) :
    getOwn (store dep options name s).dependencies name
      = some (newDefinition dep (options.getD dep.props) name) := by
  simp [store, getOwn_setOwn]

theorem addBody_grows_store (fuel : Nat) (dep : Dependency)
    (options : Option DependencyOptions) (s : State) (name : String)
    (hn : effectiveName dep options = some name) (hne : name ≠ "")
    (hf : lookup s.dependencies name = .absent) :
    Grows (store dep options name s) (add (fuel + 1) dep options s).2 := by
  have hs := container_sound grows_invariant fuel
  show Grows _ (addBody (container fuel) dep options s).2
  rw [addBody_fresh _ dep options s name hn hne hf]
  have h2 := forEach_sound grows_invariant.toResolveInvariant (addExport (container fuel))
    (addExport_sound hs) ((options.getD dep.props).exports.getD []) (store dep options name s)
  rcases hx : forEach (addExport (container fuel)) ((options.getD dep.props).exports.getD [])
    (store dep options name s) with ⟨_ | _ | _, s2⟩
  · rw [hx] at h2
    cases hr : (options.getD dep.props).register with
    | none => exact h2
    | some body =>
      exact grows_trans h2 (grows_trans (grows_emit _ s2)
        (runHook_sound grows_invariant.toAddInvariant hs body _))
  · rw [hx] at h2; exact h2
  · rw [hx] at h2; exact h2

theorem add_stored (fuel : Nat) (dep : Dependency) (options : Option DependencyOptions)
    (s : State) (name : String) (hn : effectiveName dep options = some name)
    (hne : name ≠ "") (hf : lookup s.dependencies name = .absent) :
    ∃ d, getOwn (add (fuel + 1) dep options s).2.dependencies name = some d ∧
      (newDefinition dep (options.getD dep.props) name).sameCore d := by
  obtain ⟨d, hd, hc, _⟩ := addBody_grows_store fuel dep options s name hn hne hf name _
    (getOwn_store dep options name s)
  exact ⟨d, hd, hc⟩

/-- C6, as stated, fails in its remark on `resolver`: the object added under `A` with
`$single: false` is stored as a singleton, yet `resolver('A')` does not return it, because
its dependency `missing` is not registered. -/
theorem singleton_flag_counterexample :
    (getOwn declaredTransientObject.dependencies "A").map (fun d => (d.ctr, d.single))
        = some (Value.object 1, true) ∧
      (resolver 2 "A" declaredTransientObject).1
        = .throw (.error "Dependency was not found: missing") ∧
      ∀ fuel, (resolver fuel "A" declaredTransientObject).1 ≠ .ok (.object 1) := by
  refine ⟨by decide, by decide, ?_⟩
  intro fuel
  match fuel with
  | 0 => decide
  | 1 => decide
  | n + 2 =>
    have : (resolver (n + 2) "A" declaredTransientObject).1
        = .throw (.error "Dependency was not found: missing") := rfl
    rw [this]
    exact fun h => Outcome.noConfusion h

/-- C6 (amended): after `add(dep, options)` under a non-empty name for which the registry
object holds nothing, however the call ends, the definition stored under that name has `dep`
as its `ctr` and a singleton flag that is true exactly when `dep` is not a function or the
declared `$single` is `true`; so a non-function `dep` declared `$single: false` is a
singleton, which `resolver` returns as it is whenever its dependency names resolve, and a
function with no `$single` is not a singleton. -/
theorem singleton_flag (fuel : Nat) (dep : Dependency) (options : Option DependencyOptions)
    (s : State) (name : String) (hn : effectiveName dep options = some name)
    (hne : name ≠ "") (hf : lookup s.dependencies name = .absent) :
    ∃ d, lookup (add (fuel + 1) dep options s).2.dependencies name = .own d ∧
      d.ctr = dep.value ∧
      (d.single = true ↔
        (dep.value.isFunction = false ∨ (options.getD dep.props).single = some true)) ∧
      (dep.value.isFunction = false → (options.getD dep.props).single = some false →
        d.single = true ∧
        ∀ n args t, collect (resolver n) d.deps (add (fuel + 1) dep options s).2 = (.ok args, t) →
          resolver (n + 1) name (add (fuel + 1) dep options s).2 = (.ok dep.value, t)) ∧
      (dep.value.isFunction = true → (options.getD dep.props).single = none →
        d.single = false) := by
  obtain ⟨d, hd, hc⟩ := add_stored fuel dep options s name hn hne hf
  have hl := (lookup_own_iff _ _ _).2 hd
  have hctr : d.ctr = dep.value := hc.1
  have hsingle : d.single
      = ((options.getD dep.props).single.getD false || !dep.value.isFunction) := hc.2.2.2.1
  refine ⟨d, hl, hctr, ?_, ?_, ?_⟩
  · rw [hsingle]
    cases (options.getD dep.props).single with
    | none => cases dep.value.isFunction <;> simp
    | some b => cases b <;> cases dep.value.isFunction <;> simp
  · intro h1 h2
    have hs : d.single = true := by rw [hsingle, h1, h2]; rfl
    refine ⟨hs, ?_⟩
    intro n args t hcol
    have hfr : Framed (add (fuel + 1) dep options s).2 t := by
      have := collect_framed n d.deps (add (fuel + 1) dep options s).2
      rw [hcol] at this; exact this
    have hl1 : lookup t.dependencies name = .own d := by rw [hfr.1]; exact hl
    have := resolverBody_own (container n) name _ d args t d hl hcol hl1
    rw [hs, hctr] at this
    exact this
  · intro h1 h2
    rw [hsingle, h1, h2]; rfl

/-- Witness of C6 (amended): the object of the test-suite, declared `$single: false`. -/
theorem singleton_flag_witness :
    ∃ d, lookup (add 1 (.mk (.object 1) (.mk none none none none none none))
          (some (.mk (some "testTrue") none (some false) none none none))
          DependencyResolver).2.dependencies "testTrue" = .own d ∧
      d.ctr = .object 1 ∧
      (d.single = true ↔
        ((Value.object 1).isFunction = false ∨ some false = some true)) ∧
      ((Value.object 1).isFunction = false → some false = some false →
        d.single = true ∧
        ∀ n args t, collect (resolver n) d.deps
            (add 1 (.mk (.object 1) (.mk none none none none none none))
              (some (.mk (some "testTrue") none (some false) none none none))
              DependencyResolver).2 = (.ok args, t) →
          resolver (n + 1) "testTrue"
            (add 1 (.mk (.object 1) (.mk none none none none none none))
              (some (.mk (some "testTrue") none (some false) none none none))
              DependencyResolver).2 = (.ok (.object 1), t)) ∧
      ((Value.object 1).isFunction = true → some false = none → d.single = false) :=
  singleton_flag 0 (.mk (.object 1) (.mk none none none none none none))
    (some (.mk (some "testTrue") none (some false) none none none))
    DependencyResolver "testTrue" rfl (by decide) rfl

theorem addExport_eq (self : Self) (e : ExportEntry) (s : State) :
    addExport self e s = self.add e.dep e.options s := by
  cases e <;> rfl

theorem forEach_cons_ok {α : Type} (f : α → State → Outcome Unit × State) (x : α)
    (xs : List α) (s t : State) (h : forEach f (x :: xs) s = (.ok (), t)) :
    ∃ s1, f x s = (.ok (), s1) ∧ forEach f xs s1 = (.ok (), t) := by
  rcases hx : f x s with ⟨_ | _ | _, s1⟩
  · simp only [forEach, hx] at h
    exact ⟨s1, rfl, h⟩
  · simp [forEach, hx] at h
  · simp [forEach, hx] at h

theorem forEach_append_ok {α : Type} (f : α → State → Outcome Unit × State) :
    ∀ (pre : List α) (e : α) (post : List α) (s t : State),
      forEach f (pre ++ e :: post) s = (.ok (), t) →
      ∃ sm sn, forEach f pre s = (.ok (), sm) ∧ f e sm = (.ok (), sn) ∧
        forEach f post sn = (.ok (), t) := by
  intro pre
  induction pre with
  | nil =>
    intro e post s t h
    obtain ⟨s1, h1, h2⟩ := forEach_cons_ok f e post s t h
    exact ⟨s, s1, rfl, h1, h2⟩
  | cons x rest ih =>
    intro e post s t h
    obtain ⟨s1, h1, h2⟩ := forEach_cons_ok f x (rest ++ e :: post) s t h
    obtain ⟨sm, sn, h3, h4, h5⟩ := ih e post s1 t h2
    refine ⟨sm, sn, ?_, h4, h5⟩
    simp only [forEach, h1, h3]

theorem addBody_skip (self : Self) (dep : Dependency) (options : Option DependencyOptions)
    (s : State)
    (h : ∀ name, effectiveName dep options = some name →
      name = "" ∨ (lookup s.dependencies name).truthy = true) :
    addBody self dep options s = (.ok (), s) := by
  unfold effectiveName at h
  cases hn : (options.getD dep.props).name with
  | none => simp only [addBody, hn]
  | some name =>
    have hg : ¬ (name ≠ "" ∧ (lookup s.dependencies name).truthy = false) := by
      rintro ⟨h1, h2⟩
      rcases h name hn with h3 | h3
      · exact h1 h3
      · rw [h2] at h3; cases h3
    simp only [addBody, hn, if_neg hg]

theorem add_ok_inv (fuel : Nat) (dep : Dependency) (options : Option DependencyOptions)
    (s t : State) (name : String) (hn : effectiveName dep options = some name)
    (hne : name ≠ "") (hf : lookup s.dependencies name = .absent)
    (hret : add (fuel + 1) dep options s = (.ok (), t)) :
    ∃ s2, forEach (addExport (container fuel)) ((options.getD dep.props).exports.getD [])
        (store dep options name s) = (.ok (), s2) ∧ Grows s2 t := by
  have hs := container_sound grows_invariant fuel
  have hret1 : addBody (container fuel) dep options s = (.ok (), t) := hret
  rw [addBody_fresh _ dep options s name hn hne hf] at hret1
  rcases hx : forEach (addExport (container fuel)) ((options.getD dep.props).exports.getD [])
    (store dep options name s) with ⟨_ | _ | _, s2⟩
  · refine ⟨s2, rfl, ?_⟩
    rw [hx] at hret1
    cases hr : (options.getD dep.props).register with
    | none =>
      rw [hr] at hret1
      simp only [Prod.mk.injEq, true_and] at hret1
      rw [← hret1]; exact grows_refl s2
    | some body =>
      rw [hr] at hret1
      have := runHook_sound grows_invariant.toAddInvariant hs body
        (emit (.register name .container) s2)
      simp only at hret1
      rw [hret1] at this
      exact grows_trans (grows_emit _ s2) this
  · rw [hx] at hret1; simp at hret1
  · rw [hx] at hret1; simp at hret1

theorem add_ok_stored (fuel : Nat) (dep : Dependency) (options : Option DependencyOptions)
    (s t : State) (name : String) (hn : effectiveName dep options = some name)
    (hne : name ≠ "") (hp : name ∉ objectPrototype)
    (hret : add fuel dep options s = (.ok (), t)) :
    ∃ d, getOwn t.dependencies name = some d ∧
      (lookup s.dependencies name = .absent →
        (newDefinition dep (options.getD dep.props) name).sameCore d) := by
  cases fuel with
  | zero => simp [add, container] at hret
  | succ n =>
    cases hg : getOwn s.dependencies name with
    | some d =>
      have hl : lookup s.dependencies name = .own d := (lookup_own_iff _ _ _).2 hg
      have hskip : addBody (container n) dep options s = (.ok (), s) := by
        apply addBody_skip
        intro nm hnm
        rw [hn] at hnm
        cases hnm
        right; rw [hl]; rfl
      have : t = s := by
        have h2 : addBody (container n) dep options s = (.ok (), t) := hret
        rw [hskip] at h2
        exact (Prod.mk.inj h2).2.symm
      subst this
      exact ⟨d, hg, fun h => by rw [hl] at h; cases h⟩
    | none =>
      have hl : lookup s.dependencies name = .absent := (lookup_absent_iff _ _).2 ⟨hg, hp⟩
      obtain ⟨d, hd, hc⟩ := add_stored n dep options s name hn hne hl
      rw [hret] at hd
      exact ⟨d, hd, fun _ => hc⟩

/-- C7, as stated, fails: the two entries of `$exports` carry the same name `A`, the second
is skipped, and after the outer `add` has returned `resolver('A')` yields the first entry's
object 2, not the second entry's own object 3. -/
theorem export_cascade_counterexample :
    (∀ fuel, (add (fuel + 2) (.mk (.object 1) (.mk (some "P") none none
        (some [.bare (.mk (.object 2) (.mk (some "A") none none none none none)),
               .bare (.mk (.object 3) (.mk (some "A") none none none none none))])
        none none)) none DependencyResolver).1 = .ok ()) ∧
      (∀ fuel, (resolver (fuel + 1) "A" duplicateExports).1 = .ok (.object 2)) ∧
      ∀ fuel, (resolver fuel "A" duplicateExports).1 ≠ .ok (.object 3) := by
  refine ⟨fun fuel => ?_, fun fuel => ?_, fun fuel => ?_⟩
  · rw [Nat.add_comm, add_mono 2 fuel _ _ _ (by decide)]; decide
  · rw [Nat.add_comm, resolver_mono 1 fuel _ _ (by decide)]; decide
  · match fuel with
    | 0 => decide
    | n + 1 => rw [Nat.add_comm, resolver_mono 1 n _ _ (by decide)]; decide

/-- C7 (amended): let `add(dep, options)` run under a non-empty name for which the registry
object holds nothing, and return normally.  Then every entry of `$exports` that carries a
non-empty name of its own has had its turn and is registered under that name when `add`
returns; and when that name was still free at the entry's turn, the stored `ctr` is the
entry's own dependency, which `resolver` returns if the definition is a singleton whose
dependency names resolve. -/
theorem export_cascade (fuel : Nat) (dep : Dependency) (options : Option DependencyOptions)
    (s t : State) (name : String) (pre : List ExportEntry) (e : ExportEntry)
    (post : List ExportEntry) (n : String)
    (hn : effectiveName dep options = some name) (hne : name ≠ "")
    (hf : lookup s.dependencies name = .absent)
    (hx : (options.getD dep.props).exports = some (pre ++ e :: post))
    (hret : add (fuel + 1) dep options s = (.ok (), t))
    (hen : effectiveName e.dep e.options = some n) (hnne : n ≠ "")
    (hnp : n ∉ objectPrototype) :
    ∃ sm d, forEach (addExport (container fuel)) pre (store dep options name s) = (.ok (), sm) ∧
      lookup t.dependencies n = .own d ∧
      (lookup sm.dependencies n = .absent →
        d.ctr = e.dep.value ∧
        (d.single = true → ∀ k args u, collect (resolver k) d.deps t = (.ok args, u) →
          resolver (k + 1) n t = (.ok e.dep.value, u))) := by
  obtain ⟨s2, hcas, hg2⟩ := add_ok_inv fuel dep options s t name hn hne hf hret
  rw [hx] at hcas
  simp only [Option.getD_some] at hcas
  obtain ⟨sm, sn, hpre, he, hpost⟩ := forEach_append_ok _ pre e post _ s2 hcas
  rw [addExport_eq] at he
  obtain ⟨d1, hd1, hcore⟩ := add_ok_stored fuel e.dep e.options sm sn n hen hnne hnp he
  have hg1 : Grows sn s2 := by
    have := forEach_sound grows_invariant.toResolveInvariant (addExport (container fuel))
      (addExport_sound (container_sound grows_invariant fuel)) post sn
    rw [hpost] at this; exact this
  obtain ⟨d, hd, hc, _⟩ := grows_trans hg1 hg2 n d1 hd1
  have hl := (lookup_own_iff _ _ _).2 hd
  refine ⟨sm, d, hpre, hl, ?_⟩
  intro habs
  have hctr : d.ctr = e.dep.value := by
    rw [hc.1]; exact (hcore habs).1
  refine ⟨hctr, ?_⟩
  intro hs k args u hcol
  have hfr : Framed t u := by
    have := collect_framed k d.deps t
    rw [hcol] at this; exact this
  have hl1 : lookup u.dependencies n = .own d := by rw [hfr.1]; exact hl
  have := resolverBody_own (container k) n t d args u d hl hcol hl1
  rw [hs, hctr] at this
  exact this
/-- Witness of C7 (amended) on the test `should add exports`: the entry `withoutOptions`. -/
theorem export_cascade_witness :
    ∃ sm d, forEach (addExport (container 1)) [exportPromise]
          (store exportingDep (some exportingOptions) "testTrue" withLodash) = (.ok (), sm) ∧
      lookup (add 2 exportingDep (some exportingOptions) withLodash).2.dependencies
          "withoutOptions" = .own d ∧
      (lookup sm.dependencies "withoutOptions" = .absent →
        d.ctr = .object 10 ∧
        (d.single = true → ∀ k args u,
          collect (resolver k) d.deps
              (add 2 exportingDep (some exportingOptions) withLodash).2 = (.ok args, u) →
          resolver (k + 1) "withoutOptions"
              (add 2 exportingDep (some exportingOptions) withLodash).2
            = (.ok (.object 10), u))) :=
  export_cascade 1 exportingDep (some exportingOptions) withLodash
    (add 2 exportingDep (some exportingOptions) withLodash).2 "testTrue"
    [exportPromise] exportWithoutOptions [exportWithoutDependency] "withoutOptions"
    rfl (by decide) rfl rfl rfl rfl (by decide) (by decide)

theorem registerCalls_append (name : String) (a b : List Event) :
    registerCalls name (a ++ b) = registerCalls name a ++ registerCalls name b := by
  induction a with
  | nil => rfl
  | cons e rest ih =>
    cases e with
    | register n arg =>
      by_cases h : n = name <;> simp [registerCalls, h, ih]
    | construct c x t => simpa [registerCalls] using ih
    | after n x => simpa [registerCalls] using ih
    | finish => simpa [registerCalls] using ih

theorem registerCalls_emit (name : String) (e : Event) (s : State)
    (h : ∀ arg, e ≠ .register name arg) :
    registerCalls name (emit e s).trace = registerCalls name s.trace := by
  simp only [emit, registerCalls_append]
  cases e with
  | register n arg =>
    have : ¬ n = name := fun hn => h arg (by rw [hn])
    simp [registerCalls, this]
  | construct c x t => simp [registerCalls]
  | after n x => simp [registerCalls]
  | finish => simp [registerCalls]

theorem settled_refl (s : State) : Settled s s :=
  ⟨grows_refl s, fun _ _ _ => rfl⟩

theorem settled_trans {a b c : State} (h1 : Settled a b) (h2 : Settled b c) : Settled a c := by
  refine ⟨grows_trans h1.1 h2.1, ?_⟩
  intro name d hd
  obtain ⟨e, he, _⟩ := h1.1 name d hd
  rw [h2.2 name e he, h1.2 name d hd]

theorem settled_of_trace {s t : State} (hg : Grows s t)
    (h : ∀ name, registerCalls name t.trace = registerCalls name s.trace) : Settled s t :=
  ⟨hg, fun name _ _ => h name⟩

theorem settled_invariant : Invariant Settled where
  refl := settled_refl
  trans := settled_trans
  alloc := fun s _ _ _ =>
    ⟨grows_of_dependencies_eq rfl, fun name _ _ =>
      registerCalls_emit name _ _ (fun _ h => Event.noConfusion h)⟩
  allocFail := fun s => settled_of_trace (grows_of_dependencies_eq rfl) (fun _ => rfl)
  store := fun s _ _ name _ hf =>
    settled_of_trace (grows_store s name _ hf) (fun _ => rfl)
  registerCall := fun s dep newDep name s2 _ hf h => by
    refine ⟨grows_trans (grows_store s name _ hf) (grows_trans h.1 (grows_emit _ s2)), ?_⟩
    intro nm d hd
    have hne : ¬ name = nm := by
      intro hh; subst hh
      rw [(lookup_falsy _ _ hf).1] at hd; cases hd
    have h1 : getOwn (setOwn s.dependencies name (newDefinition dep newDep name)) nm
        = some d := by
      simp [getOwn_setOwn, hne, hd]
    rw [registerCalls_emit nm _ s2 (fun arg hh => hne (by injection hh))]
    exact h.2 nm d h1
  afterCall := fun s _ _ _ _ _ _ =>
    ⟨grows_emit _ s, fun name _ _ =>
      registerCalls_emit name _ s (fun _ h => Event.noConfusion h)⟩
  consume := fun s key d s2 hl ha h =>
    ⟨grows_consume s key d s2 hl ha h.1, h.2⟩
  finishCall := fun s =>
    ⟨grows_emit _ s, fun name _ _ =>
      registerCalls_emit name _ s (fun _ h => Event.noConfusion h)⟩

/-- C8, as stated, fails: `P` is added under a fresh name with a register hook, but the
register hook of its export `E` throws; the error leaves `add`, and with any room on the
stack the hook of `P` has not been called. -/
theorem register_hook_counterexample :
    (∀ fuel, (add (fuel + 2) failingExport none DependencyResolver).1 = .throw (.user "boom")) ∧
      (∀ fuel, registerCalls "P" (add fuel failingExport none DependencyResolver).2.trace = []) ∧
      (add 2 failingExport none DependencyResolver).2.trace = [.register "E" .container] := by
  refine ⟨fun fuel => ?_, fun fuel => ?_, by decide⟩
  · rw [Nat.add_comm, add_mono 2 fuel _ _ _ (by decide)]; decide
  · match fuel with
    | 0 => decide
    | 1 => decide
    | n + 2 => rw [Nat.add_comm, add_mono 2 n _ _ _ (by decide)]; decide

/-- C8 (amended): let `add(dep, options)` run under a non-empty name for which the registry
object holds nothing, with a function as `$register`, and let the registration of its
exports complete.  Then `add` calls the hook on the state the exports left, with the
container as its only argument, and whatever the hook does, and however it ends, it is
called exactly once in this `add`: the calls recorded for this name grow by that one call.
An `add` that skips its definition records no call at all. -/
theorem register_hook (fuel : Nat) (dep : Dependency) (options : Option DependencyOptions)
    (s s2 : State) (name : String) (body : List Action)
    (hn : effectiveName dep options = some name) (hne : name ≠ "")
    (hf : lookup s.dependencies name = .absent)
    (hr : (options.getD dep.props).register = some body)
    (hcas : forEach (addExport (container fuel)) ((options.getD dep.props).exports.getD [])
      (store dep options name s) = (.ok (), s2)) :
    add (fuel + 1) dep options s
        = runHook (container fuel) body (emit (.register name .container) s2) ∧
      registerCalls name (add (fuel + 1) dep options s).2.trace
        = registerCalls name s.trace ++ [.container] ∧
      ∀ dep1 options1 s1,
        (∀ nm, effectiveName dep1 options1 = some nm →
          nm = "" ∨ (lookup s1.dependencies nm).truthy = true) →
        (add (fuel + 1) dep1 options1 s1).2.trace = s1.trace := by
  have hs := container_sound settled_invariant fuel
  have heq : add (fuel + 1) dep options s
      = runHook (container fuel) body (emit (.register name .container) s2) := by
    show addBody (container fuel) dep options s = _
    rw [addBody_fresh _ dep options s name hn hne hf, hcas, hr]
  refine ⟨heq, ?_, ?_⟩
  · rw [heq]
    have h1 : Settled (store dep options name s) s2 := by
      have := forEach_sound settled_invariant.toResolveInvariant (addExport (container fuel))
        (addExport_sound hs) ((options.getD dep.props).exports.getD [])
        (store dep options name s)
      rw [hcas] at this; exact this
    have hown := getOwn_store dep options name s
    obtain ⟨d2, hd2, _⟩ := h1.1 name _ hown
    have h2 := runHook_sound settled_invariant.toAddInvariant hs body
      (emit (.register name .container) s2)
    rw [h2.2 name d2 hd2]
    have h3 : registerCalls name s2.trace = registerCalls name s.trace := h1.2 name _ hown
    simp [emit, registerCalls_append, h3, registerCalls]
  · intro dep1 options1 s1 hskip
    show (addBody (container fuel) dep1 options1 s1).2.trace = _
    rw [addBody_skip _ dep1 options1 s1 hskip]

/-- Witness of C8 (amended) on the test `should call register function with the
DependencyResolver`: `_` and `Promise` are registered, then `dep` with its hook. -/
theorem register_hook_witness :
    add 2 (.mk (.object 1) (.mk none none none none none none)) (some registeringOptions)
        withPromise
        = runHook (container 1) [.resolver "_"]
            (emit (.register "testTrue" .container)
              (store (.mk (.object 1) (.mk none none none none none none))
                (some registeringOptions) "testTrue" withPromise)) ∧
      registerCalls "testTrue"
          (add 2 (.mk (.object 1) (.mk none none none none none none)) (some registeringOptions)
            withPromise).2.trace
        = registerCalls "testTrue" withPromise.trace ++ [.container] ∧
      ∀ dep1 options1 s1,
        (∀ nm, effectiveName dep1 options1 = some nm →
          nm = "" ∨ (lookup s1.dependencies nm).truthy = true) →
        (add 2 dep1 options1 s1).2.trace = s1.trace :=
  register_hook 1 (.mk (.object 1) (.mk none none none none none none))
    (some registeringOptions) withPromise _ "testTrue" [.resolver "_"]
    rfl (by decide) rfl rfl rfl

theorem cascaded_of_ok : ∀ (fuel : Nat) (es : List ExportEntry) (s1 s2 t : State),
    forEach (addExport (container fuel)) es s1 = (.ok (), s2) → Grows s2 t →
    cascaded fuel es s1 t := by
  intro fuel
  induction fuel with
  | zero => intro es s1 s2 t _ _; trivial
  | succ k ih =>
    intro es s1 s2 t hcas hg pre e post sm n hes hpre hen hnne habs
    subst hes
    obtain ⟨sm0, sn, hpre0, he, hpost⟩ := forEach_append_ok _ pre e post s1 s2 hcas
    rw [hpre] at hpre0
    have hsm : sm0 = sm := (Prod.mk.inj hpre0).2.symm
    subst hsm
    rw [addExport_eq] at he
    have he1 : add (k + 1) e.dep e.options sm0 = (.ok (), sn) := he
    obtain ⟨s3, hin, hg3⟩ := add_ok_inv k e.dep e.options sm0 sn n hen hnne habs he1
    have hgn : Grows sn s2 := by
      have := forEach_sound grows_invariant.toResolveInvariant
        (addExport (container (k + 1)))
        (addExport_sound (container_sound grows_invariant (k + 1))) post sn
      rw [hpost] at this; exact this
    have hgt : Grows sn t := grows_trans hgn hg
    refine ⟨?_, ih _ _ s3 t hin (grows_trans hg3 hgt)⟩
    obtain ⟨d1, hd1, hc1⟩ := add_stored k e.dep e.options sm0 n hen hnne habs
    rw [he1] at hd1
    obtain ⟨d, hd, hc, _⟩ := hgt n d1 hd1
    exact ⟨d, hd, by rw [hc.1]; exact hc1.1⟩

/-- C9, as stated, fails in its conclusion: `X` is a transitive export of `P` with a fresh
name, but the export that declares it carries a name already taken and is skipped, so when
the register hook of `P` runs and resolves `X`, `X` is not in the registry. -/
theorem registration_order_counterexample :
    (add 3 skippedBranch none DependencyResolver).2.trace = [.register "P" .container] ∧
      (∀ fuel, (add (fuel + 3) skippedBranch none DependencyResolver).1
        = .throw (.error "Dependency was not found: X")) ∧
      ∀ fuel, getOwn (add fuel skippedBranch none DependencyResolver).2.dependencies "X"
        = none := by
  refine ⟨by decide, fun fuel => ?_, fun fuel => ?_⟩
  · rw [Nat.add_comm, add_mono 3 fuel _ _ _ (by decide)]; decide
  · match fuel with
    | 0 => rfl
    | 1 => rfl
    | 2 => rfl
    | n + 3 => rw [Nat.add_comm, add_mono 3 n _ _ _ (by decide)]; rfl

/-- C9 (amended): let `add(dep, options)` run under a non-empty name for which the registry
object holds nothing, and let the registration of its exports complete in state `s2`.  Then
(1) the definition is stored before anything else: the exports are registered from a state
that holds it; (2) the exports are registered in declaration order, each by one complete
call of `add` that starts where the previous ones ended and ends before the next one starts;
(3) only then the register hook, if any, is called, on the state `s2`; (4) in that state
`dep` is stored as the `ctr` of the definition, and so is every export whose name was free at
its turn, together with, recursively, the exports of those. -/
theorem registration_order (fuel : Nat) (dep : Dependency)
    (options : Option DependencyOptions) (s s2 : State) (name : String)
    (hn : effectiveName dep options = some name) (hne : name ≠ "")
    (hf : lookup s.dependencies name = .absent)
    (hcas : forEach (addExport (container fuel)) ((options.getD dep.props).exports.getD [])
      (store dep options name s) = (.ok (), s2)) :
    getOwn (store dep options name s).dependencies name
        = some (newDefinition dep (options.getD dep.props) name) ∧
      (∀ pre e post, (options.getD dep.props).exports.getD [] = pre ++ e :: post →
        ∃ sm sn, forEach (addExport (container fuel)) pre (store dep options name s)
            = (.ok (), sm) ∧
          add fuel e.dep e.options sm = (.ok (), sn) ∧
          forEach (addExport (container fuel)) post sn = (.ok (), s2)) ∧
      add (fuel + 1) dep options s
        = (match (options.getD dep.props).register with
           | some body => runHook (container fuel) body (emit (.register name .container) s2)
           | none => (.ok (), s2)) ∧
      (∃ d, getOwn s2.dependencies name = some d ∧ d.ctr = dep.value) ∧
      cascaded fuel ((options.getD dep.props).exports.getD []) (store dep options name s) s2 := by
  refine ⟨getOwn_store dep options name s, ?_, ?_, ?_,
    cascaded_of_ok fuel _ _ s2 s2 hcas (grows_refl s2)⟩
  · intro pre e post hes
    rw [hes] at hcas
    obtain ⟨sm, sn, h1, h2, h3⟩ := forEach_append_ok _ pre e post _ s2 hcas
    rw [addExport_eq] at h2
    exact ⟨sm, sn, h1, h2, h3⟩
  · show addBody (container fuel) dep options s = _
    rw [addBody_fresh _ dep options s name hn hne hf, hcas]
  · have h1 : Grows (store dep options name s) s2 := by
      have := forEach_sound grows_invariant.toResolveInvariant (addExport (container fuel))
        (addExport_sound (container_sound grows_invariant fuel))
        ((options.getD dep.props).exports.getD []) (store dep options name s)
      rw [hcas] at this; exact this
    obtain ⟨d, hd, hc, _⟩ := h1 name _ (getOwn_store dep options name s)
    exact ⟨d, hd, hc.1⟩

/-- Witness of C9 (amended) on the README example: `Foo` exports `BarModel`, whose register
hook runs before `add(fooModule)` goes on. -/
theorem registration_order_witness :
    getOwn (store fooModule none "Foo" withPromise).dependencies "Foo"
        = some (newDefinition fooModule fooModule.props "Foo") ∧
      (∀ pre e post, fooModule.props.exports.getD [] = pre ++ e :: post →
        ∃ sm sn, forEach (addExport (container 2)) pre (store fooModule none "Foo" withPromise)
            = (.ok (), sm) ∧
          add 2 e.dep e.options sm = (.ok (), sn) ∧
          forEach (addExport (container 2)) post sn
            = (.ok (), (add 3 fooModule none withPromise).2)) ∧
      add 3 fooModule none withPromise
        = (match fooModule.props.register with
           | some body =>
             runHook (container 2) body
               (emit (.register "Foo" .container) (add 3 fooModule none withPromise).2)
           | none => (.ok (), (add 3 fooModule none withPromise).2)) ∧
      (∃ d, getOwn (add 3 fooModule none withPromise).2.dependencies "Foo" = some d ∧
        d.ctr = .function 20 .initialises) ∧
      cascaded 2 (fooModule.props.exports.getD []) (store fooModule none "Foo" withPromise)
        (add 3 fooModule none withPromise).2 :=
  registration_order 2 fooModule none withPromise (add 3 fooModule none withPromise).2 "Foo"
    rfl (by decide) rfl rfl

/-! ## Finish -/

theorem afterCalls_append (name : String) (a b : List Event) :
    afterCalls name (a ++ b) = afterCalls name a ++ afterCalls name b := by
  induction a with
  | nil => rfl
  | cons e rest ih =>
    cases e with
    | after n x =>
      by_cases h : n = name <;> simp [afterCalls, h, ih]
    | construct c x t => simpa [afterCalls] using ih
    | register n x => simpa [afterCalls] using ih
    | finish => simpa [afterCalls] using ih

theorem finishCalls_append (a b : List Event) :
    finishCalls (a ++ b) = finishCalls a + finishCalls b := by
  induction a with
  | nil => simp [finishCalls]
  | cons e rest ih =>
    cases e with
    | finish => simp [finishCalls, ih]; omega
    | construct c x t => simpa [finishCalls] using ih
    | register n x => simpa [finishCalls] using ih
    | after n x => simpa [finishCalls] using ih

theorem afterCalls_emit (name : String) (e : Event) (s : State)
    (h : ∀ args, e ≠ .after name args) :
    afterCalls name (emit e s).trace = afterCalls name s.trace := by
  simp only [emit, afterCalls_append]
  cases e with
  | after n args =>
    have : ¬ n = name := fun hn => h args (by rw [hn])
    simp [afterCalls, this]
  | construct c x t => simp [afterCalls]
  | register n x => simp [afterCalls]
  | finish => simp [afterCalls]

theorem afterCalls_emit_self (name : String) (args : List Value) (s : State) :
    afterCalls name (emit (.after name args) s).trace = afterCalls name s.trace ++ [args] := by
  simp [emit, afterCalls_append, afterCalls]

theorem finishCalls_emit (e : Event) (s : State) (h : e ≠ .finish) :
    finishCalls (emit e s).trace = finishCalls s.trace := by
  simp only [emit, finishCalls_append]
  cases e with
  | finish => exact absurd rfl h
  | construct c x t => simp [finishCalls]
  | register n x => simp [finishCalls]
  | after n x => simp [finishCalls]

theorem finishCalls_emit_finish (s : State) :
    finishCalls (emit .finish s).trace = finishCalls s.trace + 1 := by
  simp [emit, finishCalls_append, finishCalls]

theorem grows_pending {s t : State} (h : Grows s t) {key : String} {d : Definition}
    (hd : getOwn s.dependencies key = some d) (hp : d.pending = false) :
    ∃ e, getOwn t.dependencies key = some e ∧ e.pending = false := by
  obtain ⟨e, he, _, ha⟩ := h key d hd
  refine ⟨e, he, ?_⟩
  rcases ha with ha | ⟨_, ha⟩
  · unfold Definition.pending at hp ⊢; rw [ha]; exact hp
  · unfold Definition.pending; rw [ha]

theorem inert_refl (s : State) : Inert s s := ⟨grows_refl s, fun _ _ _ _ => rfl⟩

theorem inert_trans {a b c : State} (h1 : Inert a b) (h2 : Inert b c) : Inert a c := by
  refine ⟨grows_trans h1.1 h2.1, ?_⟩
  intro key d hd hp
  obtain ⟨e, he, hpe⟩ := grows_pending h1.1 hd hp
  rw [h2.2 key e he hpe, h1.2 key d hd hp]

theorem inert_of_trace {s t : State} (hg : Grows s t)
    (h : ∀ key, afterCalls key t.trace = afterCalls key s.trace) : Inert s t :=
  ⟨hg, fun key _ _ _ => h key⟩

theorem inert_invariant : Invariant Inert where
  refl := inert_refl
  trans := inert_trans
  alloc := fun s _ _ _ => inert_of_trace (grows_of_dependencies_eq rfl)
    (fun key => afterCalls_emit key _ _ (fun _ h => Event.noConfusion h))
  allocFail := fun s => inert_of_trace (grows_of_dependencies_eq rfl) (fun _ => rfl)
  store := fun s _ _ name _ hf => inert_of_trace (grows_store s name _ hf) (fun _ => rfl)
  registerCall := fun s dep newDep name s2 _ hf h => by
    refine ⟨grows_trans (grows_store s name _ hf) (grows_trans h.1 (grows_emit _ s2)), ?_⟩
    intro key d hd hp
    have hne : ¬ name = key := by
      intro hh; subst hh
      rw [(lookup_falsy _ _ hf).1] at hd; cases hd
    have h1 : getOwn (setOwn s.dependencies name (newDefinition dep newDep name)) key
        = some d := by
      simp [getOwn_setOwn, hne, hd]
    rw [afterCalls_emit key _ s2 (fun _ hh => Event.noConfusion hh)]
    exact h.2 key d h1 hp
  afterCall := fun s key args d body hl ha => by
    refine ⟨grows_emit _ s, ?_⟩
    intro k dk hdk hp
    apply afterCalls_emit
    intro x hx
    have hk : key = k := by injection hx
    subst hk
    rw [lookup_own_iff] at hl
    rw [hl] at hdk
    have : d = dk := Option.some.inj hdk
    subst this
    simp [Definition.pending, ha] at hp
  consume := fun s key d s2 hl ha h => ⟨grows_consume s key d s2 hl ha h.1, h.2⟩
  finishCall := fun s => inert_of_trace (grows_emit _ s)
    (fun key => afterCalls_emit key _ s (fun _ h => Event.noConfusion h))

theorem still_invariant : ResolveInvariant Still where
  refl := fun _ => ⟨rfl, rfl, fun _ => rfl⟩
  trans := fun h1 h2 =>
    ⟨h2.1.trans h1.1, h2.2.1.trans h1.2.1, fun key => (h2.2.2 key).trans (h1.2.2 key)⟩
  alloc := fun _ _ _ _ =>
    ⟨rfl, finishCalls_emit _ _ (fun h => Event.noConfusion h),
      fun key => afterCalls_emit key _ _ (fun _ h => Event.noConfusion h)⟩
  allocFail := fun _ => ⟨rfl, rfl, fun _ => rfl⟩

theorem calm_of_still {s t : State} (h : Still s t) : Calm s t := by
  refine ⟨Nat.le_of_eq h.2.1.symm, fun _ => ⟨h.2.2, ?_⟩⟩
  intro key d hd
  exact ⟨d, by rw [h.1]; exact hd, rfl⟩

theorem calm_refl (s : State) : Calm s s :=
  ⟨Nat.le_refl _, fun _ => ⟨fun _ => rfl, fun _ d hd => ⟨d, hd, rfl⟩⟩⟩

theorem calm_trans {a b c : State} (h1 : Calm a b) (h2 : Calm b c) : Calm a c := by
  refine ⟨Nat.le_trans h1.1 h2.1, ?_⟩
  intro heq
  have hab : finishCalls b.trace = finishCalls a.trace := by
    have := h1.1; have := h2.1; omega
  have hbc : finishCalls c.trace = finishCalls b.trace := by omega
  obtain ⟨ha1, hs1⟩ := h1.2 hab
  obtain ⟨ha2, hs2⟩ := h2.2 hbc
  refine ⟨fun key => (ha2 key).trans (ha1 key), ?_⟩
  intro key d hd
  obtain ⟨e, he, hea⟩ := hs1 key d hd
  obtain ⟨f, hf, hfa⟩ := hs2 key e he
  exact ⟨f, hf, hfa.trans hea⟩

theorem calm_invariant : AddInvariant Calm where
  refl := calm_refl
  trans := calm_trans
  alloc := fun s c x t => calm_of_still (still_invariant.alloc s c x t)
  allocFail := fun s => calm_of_still (still_invariant.allocFail s)
  store := fun s _ _ name _ hf => by
    refine ⟨Nat.le_refl _, fun _ => ⟨fun _ => rfl, ?_⟩⟩
    intro key d hd
    have hne : ¬ name = key := by
      intro hh; subst hh
      rw [(lookup_falsy _ _ hf).1] at hd; cases hd
    exact ⟨d, by simp [getOwn_setOwn, hne, hd], rfl⟩
  registerCall := fun s _ _ name s2 _ hf h => by
    have hc : finishCalls (emit (.register name .container) s2).trace = finishCalls s2.trace :=
      finishCalls_emit _ _ (fun hh => Event.noConfusion hh)
    refine ⟨by rw [hc]; exact h.1, ?_⟩
    intro heq
    rw [hc] at heq
    obtain ⟨ha, hs⟩ := h.2 heq
    refine ⟨fun key => ?_, ?_⟩
    · rw [afterCalls_emit key _ s2 (fun _ hh => Event.noConfusion hh)]
      exact ha key
    · intro key d hd
      have hne : ¬ name = key := by
        intro hh; subst hh
        rw [(lookup_falsy _ _ hf).1] at hd; cases hd
      exact hs key d (by simp [getOwn_setOwn, hne, hd])
theorem counted_invariant : Invariant Counted where
  refl := fun _ => Nat.le_refl _
  trans := fun h1 h2 => Nat.le_trans h1 h2
  alloc := fun s _ _ _ =>
    Nat.le_of_eq (finishCalls_emit _ _ (fun h => Event.noConfusion h)).symm
  allocFail := fun _ => Nat.le_refl _
  store := fun _ _ _ _ _ _ => Nat.le_refl _
  registerCall := fun s _ _ name s2 _ _ h => by
    show finishCalls s.trace ≤ finishCalls (emit (.register name .container) s2).trace
    rw [finishCalls_emit _ _ (fun hh => Event.noConfusion hh)]
    exact h
  afterCall := fun _ _ _ _ _ _ _ =>
    Nat.le_of_eq (finishCalls_emit _ _ (fun h => Event.noConfusion h)).symm
  consume := fun _ _ _ _ _ _ h => h
  finishCall := fun s => by
    show finishCalls s.trace ≤ finishCalls (emit .finish s).trace
    rw [finishCalls_emit_finish]; exact Nat.le_succ _

theorem container_calm : ∀ fuel, Respects Calm (container fuel) := by
  intro fuel
  induction fuel with
  | zero => exact ⟨fun _ _ s => calm_refl s, fun _ s => calm_refl s, fun s => calm_refl s⟩
  | succ n ih =>
    refine ⟨fun dep options s => addBody_sound calm_invariant ih dep options s,
      fun key s => calm_of_still (resolver_sound still_invariant (n + 1) key s), ?_⟩
    intro s
    have h1 : Counted (emit .finish s) (finishBody (container n) s).2 :=
      forEach_sound counted_invariant.toResolveInvariant (finishKey (container n))
        (finishKey_sound counted_invariant (container_sound counted_invariant n)) _ _
    have h2 : finishCalls s.trace + 1 ≤ finishCalls (finishBody (container n) s).2.trace := by
      have := h1
      unfold Counted at this
      rw [finishCalls_emit_finish] at this
      exact this
    show Calm s (finishBody (container n) s).2
    exact ⟨by omega, fun heq => absurd heq (by omega)⟩

theorem getOwn_mem_keys (l : List (String × Definition)) (key : String) (d : Definition)
    (h : getOwn l key = some d) : key ∈ l.map Prod.fst := by
  induction l with
  | nil => simp [getOwn] at h
  | cons p rest ih =>
    obtain ⟨k, e⟩ := p
    by_cases hk : k = key
    · simp [hk]
    · simp only [getOwn, if_neg hk] at h
      simp [ih h]

theorem mem_objectKeys (l : List (String × Definition)) (key : String) (d : Definition)
    (h : getOwn l key = some d) : key ∈ objectKeys l := by
  have hm := getOwn_mem_keys l key d h
  unfold objectKeys
  rw [List.mem_append]
  cases hi : arrayIndex key with
  | none =>
    right
    rw [List.mem_filter]
    exact ⟨hm, by simp [hi]⟩
  | some n =>
    left
    rw [List.mem_map]
    refine ⟨(n, key), ?_, rfl⟩
    rw [(List.perm_insertionSort _ _).mem_iff, List.mem_filterMap]
    exact ⟨key, hm, by simp [hi]⟩
theorem finishKey_step (fuel : Nat) (k : String) (a b : State)
    (hok : finishKey (container fuel) k a = (.ok (), b))
    (hcount : finishCalls b.trace = finishCalls a.trace) :
    ∃ d, getOwn a.dependencies k = some d ∧
      (∀ key, key ≠ k → afterCalls key b.trace = afterCalls key a.trace) ∧
      (∀ key dk, key ≠ k → getOwn a.dependencies key = some dk →
        ∃ e, getOwn b.dependencies key = some e ∧ e.after = dk.after) ∧
      (d.pending = true →
        (∃ args, afterCalls k b.trace = afterCalls k a.trace ++ [args]) ∧
        ∃ e, getOwn b.dependencies k = some e ∧ e.after = some .noop) := by
  cases hl : lookup a.dependencies k with
  | absent => simp [finishKey, hl] at hok
  | inherited => simp [finishKey, hl] at hok
  | own d =>
    have hd := (lookup_own_iff _ _ _).1 hl
    refine ⟨d, hd, ?_⟩
    cases ha : d.after with
    | none =>
      simp only [finishKey, hl, ha, Prod.mk.injEq, true_and] at hok
      subst hok
      exact ⟨fun _ _ => rfl, fun key dk _ h => ⟨dk, h, rfl⟩,
        fun hp => by simp [Definition.pending, ha] at hp⟩
    | some cb =>
      have hst := collect_sound still_invariant (container fuel).resolver
        (fun key s => resolver_sound still_invariant fuel key s) d.deps a
      rcases hc : collect (container fuel).resolver d.deps a with ⟨args | e | _, s1⟩
      · rw [hc] at hst
        have hl1 : lookup s1.dependencies k = .own d := by rw [hst.1]; exact hl
        cases cb with
        | noop =>
          simp only [finishKey, hl, ha, hc, hl1, Prod.mk.injEq, true_and] at hok
          subst hok
          refine ⟨fun key _ => hst.2.2 key, ?_, fun hp => by simp [Definition.pending, ha] at hp⟩
          intro key dk hne h
          have hne1 : ¬ k = key := fun hh => hne hh.symm
          have hst1 : s1.dependencies = a.dependencies := hst.1
          exact ⟨dk, by simp [getOwn_consume, hne1, hst1, h], rfl⟩
        | user body =>
          have hcalm := runHook_sound calm_invariant (container_calm fuel) body
            (emit (.after k args) s1)
          rcases hr : runHook (container fuel) body (emit (.after k args) s1)
            with ⟨_ | _ | _, s2⟩
          · simp only [finishKey, hl, ha, hc, hl1, hr, Prod.mk.injEq, true_and] at hok
            subst hok
            rw [hr] at hcalm
            have hcnt : finishCalls s2.trace = finishCalls (emit (.after k args) s1).trace := by
              rw [finishCalls_emit _ _ (fun hh => Event.noConfusion hh), hst.2.1]
              exact hcount
            obtain ⟨hac, hsl⟩ := hcalm.2 hcnt
            refine ⟨?_, ?_, ?_⟩
            · intro key hne
              show afterCalls key s2.trace = _
              rw [hac key, afterCalls_emit key _ s1
                (fun x hx => hne (by injection hx with h1; exact h1.symm))]
              exact hst.2.2 key
            · intro key dk hne h
              have hne1 : ¬ k = key := fun hh => hne hh.symm
              obtain ⟨e, he, hea⟩ := hsl key dk
                (by show getOwn s1.dependencies key = _; rw [hst.1]; exact h)
              exact ⟨e, by simp [getOwn_consume, hne1, he], hea⟩
            · intro _
              refine ⟨⟨args, ?_⟩, ?_⟩
              · show afterCalls k s2.trace = _
                rw [hac k, afterCalls_emit_self, hst.2.2 k]
              · obtain ⟨e, he, _⟩ := hsl k d
                  (by show getOwn s1.dependencies k = _; rw [hst.1]; exact hd)
                exact ⟨{ e with after := some .noop }, by simp [getOwn_consume, he], rfl⟩
          · simp [finishKey, hl, ha, hc, hl1, hr] at hok
          · simp [finishKey, hl, ha, hc, hl1, hr] at hok
      · simp [finishKey, hl, ha, hc] at hok
      · simp [finishKey, hl, ha, hc] at hok

theorem finish_loop (fuel : Nat) : ∀ (ks : List String) (a b : State) (key : String)
    (d : Definition), forEach (finishKey (container fuel)) ks a = (.ok (), b) →
    finishCalls b.trace = finishCalls a.trace →
    getOwn a.dependencies key = some d → d.pending = true → key ∈ ks →
    (∃ args, afterCalls key b.trace = afterCalls key a.trace ++ [args]) ∧
      ∃ e, getOwn b.dependencies key = some e ∧ e.after = some .noop := by
  intro ks
  induction ks with
  | nil => intro a b key d _ _ _ _ hm; cases hm
  | cons k rest ih =>
    intro a b key d hok hcount hd hp hm
    obtain ⟨a1, h1, h2⟩ := forEach_cons_ok _ k rest a b hok
    have hc1 : Counted a a1 := by
      have := finishKey_sound counted_invariant (container_sound counted_invariant fuel) k a
      rw [h1] at this; exact this
    have hc2 : Counted a1 b := by
      have := forEach_sound counted_invariant.toResolveInvariant (finishKey (container fuel))
        (finishKey_sound counted_invariant (container_sound counted_invariant fuel)) rest a1
      rw [h2] at this; exact this
    unfold Counted at hc1 hc2
    have hcnt1 : finishCalls a1.trace = finishCalls a.trace := by omega
    have hcnt2 : finishCalls b.trace = finishCalls a1.trace := by omega
    obtain ⟨dk, hdk, hoth, hsl, hself⟩ := finishKey_step fuel k a a1 h1 hcnt1
    by_cases hk : key = k
    · subst hk
      rw [hd] at hdk
      have : d = dk := Option.some.inj hdk
      subst this
      obtain ⟨⟨args, hargs⟩, e, he, hea⟩ := hself hp
      have hin : Inert a1 b := by
        have := forEach_sound inert_invariant.toResolveInvariant (finishKey (container fuel))
          (finishKey_sound inert_invariant (container_sound inert_invariant fuel)) rest a1
        rw [h2] at this; exact this
      have hpe : e.pending = false := by simp [Definition.pending, hea]
      refine ⟨⟨args, by rw [hin.2 key e he hpe, hargs]⟩, ?_⟩
      obtain ⟨f, hf, _, hfa⟩ := hin.1 key e he
      refine ⟨f, hf, ?_⟩
      rcases hfa with hfa | ⟨_, hfa⟩
      · rw [hfa, hea]
      · exact hfa
    · obtain ⟨e, he, hea⟩ := hsl key d hk hd
      have hpe : e.pending = true := by
        unfold Definition.pending at hp ⊢; rw [hea]; exact hp
      have hmr : key ∈ rest := by
        rcases List.mem_cons.1 hm with h | h
        · exact absurd h hk
        · exact h
      obtain ⟨⟨args, hargs⟩, hfin⟩ := ih a1 b key e h2 hcnt2 he hpe hmr
      exact ⟨⟨args, by rw [hargs, hoth key hk]⟩, hfin⟩

/-- C10, as stated, fails: the definition `K` has no dependency names and a finish hook that
throws.  `finish()` calls the hook and ends with its error before the hook is replaced, so
`finish(); finish()` calls the hook twice. -/
theorem finish_once_counterexample :
    (getOwn throwingAfter.dependencies "K").map (fun d => d.deps) = some [] ∧
      (∀ fuel, (finish (fuel + 1) throwingAfter).1 = .throw (.user "boom")) ∧
      (∀ fuel, afterCalls "K" (finish (fuel + 1) throwingAfter).2.trace = [[]]) ∧
      ∀ fuel fuel1,
        afterCalls "K" (finish (fuel1 + 1) (finish (fuel + 1) throwingAfter).2).2.trace
          = [[], []] := by
  refine ⟨by decide, fun fuel => ?_, fun fuel => ?_, fun fuel fuel1 => ?_⟩
  · rw [Nat.add_comm, finish_mono 1 fuel _ (by decide)]; decide
  · rw [Nat.add_comm, finish_mono 1 fuel _ (by decide)]; decide
  · rw [Nat.add_comm fuel 1, finish_mono 1 fuel _ (by decide), Nat.add_comm fuel1 1,
      finish_mono 1 fuel1 _ (by decide)]
    decide

/-- C10 (amended): take a stored definition that still holds the finish hook supplied by
the user, and a call of `finish()` that returns normally and during which no hook calls
`finish` again.  That call invokes the hook exactly once and replaces it by the empty
function; after that, whatever calls of `finish`, `add` and `resolver` follow, the hook is
never invoked again.  The state is arbitrary: a definition added after an earlier `finish()` is
served in the same way by the next one. -/
theorem finish_once (fuel : Nat) (s t : State) (key : String) (d : Definition)
    (hd : getOwn s.dependencies key = some d) (hp : d.pending = true)
    (hret : finish fuel s = (.ok (), t))
    (hno : finishCalls t.trace = finishCalls s.trace + 1) :
    (∃ args, afterCalls key t.trace = afterCalls key s.trace ++ [args]) ∧
      (∃ e, getOwn t.dependencies key = some e ∧ e.after = some .noop) ∧
      ∀ calls, afterCalls key (session calls t).trace = afterCalls key t.trace := by
  cases fuel with
  | zero => simp [finish, container] at hret
  | succ n =>
    have hret1 : forEach (finishKey (container n)) (objectKeys s.dependencies)
        (emit .finish s) = (.ok (), t) := hret
    have hcount : finishCalls t.trace = finishCalls (emit .finish s).trace := by
      rw [finishCalls_emit_finish]; exact hno
    obtain ⟨⟨args, hargs⟩, e, he, hea⟩ := finish_loop n _ _ t key d hret1 hcount hd hp
      (mem_objectKeys _ key d hd)
    have hargs1 : afterCalls key t.trace = afterCalls key s.trace ++ [args] := by
      rw [hargs, afterCalls_emit key _ s (fun _ h => Event.noConfusion h)]
    refine ⟨⟨args, hargs1⟩, ⟨e, he, hea⟩, ?_⟩
    have hpe : e.pending = false := by simp [Definition.pending, hea]
    intro calls
    exact (session_sound inert_invariant calls t).2 key e he hpe

/-- Witness of C10 (amended): `dep` is added after a first `finish()`; the next `finish()`
calls its hook once, on `bluebird` and `lodash`, and later calls do not. -/
theorem finish_once_witness :
    (∃ args, afterCalls "testTrue" (finish 2 addedAfterFinish).2.trace
        = afterCalls "testTrue" addedAfterFinish.trace ++ [args]) ∧
      (∃ e, getOwn (finish 2 addedAfterFinish).2.dependencies "testTrue" = some e ∧
        e.after = some .noop) ∧
      ∀ calls, afterCalls "testTrue" (session calls (finish 2 addedAfterFinish).2).trace
        = afterCalls "testTrue" (finish 2 addedAfterFinish).2.trace :=
  finish_once 2 addedAfterFinish (finish 2 addedAfterFinish).2 "testTrue"
    { ctr := .object 1, name := "testTrue", deps := ["Promise", "_"], single := true,
      exports := none, register := none, after := some (.user []) }
    rfl rfl rfl (by decide)

/-! ## Names inherited from `Object.prototype` -/

theorem resolver_inherited (fuel : Nat) (key : String) (s : State)
    (h : lookup s.dependencies key = .inherited) :
    resolver (fuel + 1) key s = (.throw .typeError, s) := by
  show resolverBody (container fuel) key s = _
  simp only [resolverBody, h]

theorem add_inherited (fuel : Nat) (dep : Dependency) (options : Option DependencyOptions)
    (s : State) (name : String) (hn : effectiveName dep options = some name)
    (h : lookup s.dependencies name = .inherited) :
    add (fuel + 1) dep options s = (.ok (), s) := by
  show addBody (container fuel) dep options s = _
  apply addBody_skip
  intro nm hnm
  rw [hn] at hnm
  cases hnm
  right; rw [h]; rfl

theorem keepsUnshadowed_of_dependencies_eq {s t : State}
    (h : t.dependencies = s.dependencies) : KeepsUnshadowed s t := by
  intro hu key hk
  rw [h]; exact hu key hk

theorem unshadowed_store (s : State) (name : String) (tmp : Definition)
    (hf : (lookup s.dependencies name).truthy = false) (hu : Unshadowed s) :
    Unshadowed { s with dependencies := setOwn s.dependencies name tmp } := by
  intro key hk
  have hne : ¬ name = key := by
    intro hh; subst hh
    exact (lookup_falsy _ _ hf).2 hk
  simp [getOwn_setOwn, hne, hu key hk]

theorem keepsUnshadowed_invariant : Invariant KeepsUnshadowed where
  refl := fun _ h => h
  trans := fun h1 h2 h => h2 (h1 h)
  alloc := fun _ _ _ _ => keepsUnshadowed_of_dependencies_eq rfl
  allocFail := fun _ => keepsUnshadowed_of_dependencies_eq rfl
  store := fun s _ _ name _ hf hu => unshadowed_store s name _ hf hu
  registerCall := fun s _ _ name s2 _ hf h hu =>
    keepsUnshadowed_of_dependencies_eq rfl (h (unshadowed_store s name _ hf hu))
  afterCall := fun _ _ _ _ _ _ _ => keepsUnshadowed_of_dependencies_eq rfl
  consume := fun _ key _ s2 _ _ h hu => by
    intro k hk
    have h2 := h hu k hk
    simp [getOwn_consume, h2]
  finishCall := fun _ => keepsUnshadowed_of_dependencies_eq rfl

theorem unshadowed_initial : Unshadowed DependencyResolver := by
  intro key hk
  simp only [DependencyResolver, getOwn]
  split
  · rename_i h
    subst h
    exact absurd hk (by decide)
  · rfl

theorem reachable_unshadowed (s : State) (h : Reachable s) : Unshadowed s := by
  obtain ⟨calls, rfl⟩ := h
  exact session_sound keepsUnshadowed_invariant calls DependencyResolver unshadowed_initial

theorem inherited_never_found (s : State) (h : Reachable s) (key : String)
    (hk : key ∈ objectPrototype) (fuel : Nat) :
    getOwn s.dependencies key = none ∧ resolver (fuel + 1) key s = (.throw .typeError, s) := by
  have hu := reachable_unshadowed s h key hk
  refine ⟨hu, resolver_inherited fuel key s ?_⟩
  unfold lookup
  rw [hu]
  simp [hk]

/-! ## The reserved name and the life of a stored definition -/

theorem session_calm : ∀ calls s, Calm s (session calls s) := by
  intro calls
  induction calls with
  | nil => intro s; exact calm_refl s
  | cons c rest ih =>
    intro s
    obtain ⟨fuel, a⟩ := c
    exact calm_trans (perform_sound calm_invariant (container_calm fuel) a s) (ih _)

/-- C14: a newly constructed container holds, under the reserved name `DependencyResolver`,
a singleton definition with no dependency names whose value is the container; and in every
state a client can reach that definition is still there, `resolver('DependencyResolver')`
returns the container and changes nothing, and an `add` under the reserved name is skipped. -/
theorem self_registration (s : State) (h : Reachable s) :
    (getOwn DependencyResolver.dependencies "DependencyResolver").map
        (fun d => (d.ctr, d.deps, d.single)) = some (Value.container, [], true) ∧
      (∀ fuel, resolver (fuel + 1) "DependencyResolver" DependencyResolver
        = (.ok .container, DependencyResolver)) ∧
      (∃ d, getOwn s.dependencies "DependencyResolver" = some d ∧ d.ctr = .container ∧
        d.deps = [] ∧ d.single = true) ∧
      (∀ fuel, resolver (fuel + 1) "DependencyResolver" s = (.ok .container, s)) ∧
      ∀ fuel dep options, effectiveName dep options = some "DependencyResolver" →
        add (fuel + 1) dep options s = (.ok (), s) := by
  have hres : ∀ (u : State) (d : Definition),
      getOwn u.dependencies "DependencyResolver" = some d → d.ctr = .container →
      d.deps = [] → d.single = true →
      ∀ fuel, resolver (fuel + 1) "DependencyResolver" u = (.ok .container, u) := by
    intro u d hd hc hdeps hs fuel
    have hl := (lookup_own_iff _ _ _).2 hd
    have hcol : collect (container fuel).resolver d.deps u = (.ok [], u) := by
      rw [hdeps]; rfl
    have := resolverBody_own (container fuel) "DependencyResolver" u d [] u d hl hcol hl
    rw [hs, hc] at this
    exact this
  obtain ⟨calls, rfl⟩ := h
  obtain ⟨d, hd, hcore, _⟩ := session_sound grows_invariant calls DependencyResolver
    "DependencyResolver" _ rfl
  have hc : d.ctr = .container := hcore.1
  have hdeps : d.deps = [] := hcore.2.2.1
  have hs : d.single = true := hcore.2.2.2.1
  refine ⟨rfl, hres DependencyResolver _ rfl rfl rfl rfl, ⟨d, hd, hc, hdeps, hs⟩,
    hres _ d hd hc hdeps hs, ?_⟩
  intro fuel dep options hn
  show addBody (container fuel) dep options _ = _
  apply addBody_skip
  intro nm hnm
  rw [hn] at hnm
  cases hnm
  right
  rw [(lookup_own_iff _ _ _).2 hd]; rfl

/-- Witness of C14: after a client has tried to add another object under the reserved name
and has added one more definition. -/
theorem self_registration_witness :
    (getOwn DependencyResolver.dependencies "DependencyResolver").map
        (fun d => (d.ctr, d.deps, d.single)) = some (Value.container, [], true) ∧
      (∀ fuel, resolver (fuel + 1) "DependencyResolver" DependencyResolver
        = (.ok .container, DependencyResolver)) ∧
      (∃ d, getOwn (session reservedSession DependencyResolver).dependencies
          "DependencyResolver" = some d ∧ d.ctr = .container ∧
        d.deps = [] ∧ d.single = true) ∧
      (∀ fuel, resolver (fuel + 1) "DependencyResolver"
          (session reservedSession DependencyResolver)
        = (.ok .container, session reservedSession DependencyResolver)) ∧
      ∀ fuel dep options, effectiveName dep options = some "DependencyResolver" →
        add (fuel + 1) dep options (session reservedSession DependencyResolver)
          = (.ok (), session reservedSession DependencyResolver) :=
  self_registration (session reservedSession DependencyResolver) ⟨reservedSession, rfl⟩

/-- C18: whatever calls of `add`, `resolver` and `finish` a client makes, with whatever
outcome, every definition stored before is stored after, with the same `ctr`, name,
dependency names, singleton flag, exports and register hook; its `$after` is either the same
or, if there was one, the empty function; it is the same whenever `finish` was not entered
in between; and `resolver` leaves the whole registry as it was. -/
theorem registry_monotone (calls : List (Nat × Action)) (s : State) :
    (∀ key d, getOwn s.dependencies key = some d →
      ∃ e, getOwn (session calls s).dependencies key = some e ∧
        e.ctr = d.ctr ∧ e.name = d.name ∧ e.deps = d.deps ∧ e.single = d.single ∧
        e.exports = d.exports ∧ e.register = d.register ∧
        (e.after = d.after ∨ (d.after ≠ none ∧ e.after = some .noop)) ∧
        (finishCalls (session calls s).trace = finishCalls s.trace → e.after = d.after)) ∧
      ∀ fuel key, (resolver fuel key s).2.dependencies = s.dependencies := by
  refine ⟨?_, fun fuel key => (resolver_framed fuel key s).1⟩
  intro key d hd
  obtain ⟨e, he, hcore, ha⟩ := session_sound grows_invariant calls s key d hd
  obtain ⟨h1, h2, h3, h4, h5, h6⟩ := hcore
  refine ⟨e, he, h1, h2, h3, h4, h5, h6, ha, ?_⟩
  intro hcnt
  obtain ⟨e1, he1, hea⟩ := ((session_calm calls s).2 hcnt).2 key d hd
  rw [he] at he1
  have : e = e1 := Option.some.inj he1
  rw [this]; exact hea

/-! ## Errors leave the registry as it is -/

theorem forEach_append_throw {α : Type} (f : α → State → Outcome Unit × State) :
    ∀ (pre : List α) (e : α) (post : List α) (s sm t : State) (err : Thrown),
      forEach f pre s = (.ok (), sm) → f e sm = (.throw err, t) →
      forEach f (pre ++ e :: post) s = (.throw err, t) := by
  intro pre
  induction pre with
  | nil =>
    intro e post s sm t err hpre he
    simp only [forEach, Prod.mk.injEq, true_and] at hpre
    subst hpre
    simp only [List.nil_append, forEach, he]
  | cons x rest ih =>
    intro e post s sm t err hpre he
    obtain ⟨s1, h1, h2⟩ := forEach_cons_ok f x rest s sm hpre
    simp only [List.cons_append, forEach, h1]
    exact ih e post s1 sm t err h2 he

/-- C15: let `add(dep, options)` run under a non-empty name for which the registry object
holds nothing.  (1) An error raised while an export is registered, or raised by the register
hook of the definition itself, is the outcome of `add`, and the state is the one the error
left.  (2) However `add` ends, the definition is stored, with `dep` as `ctr`; everything
stored when the exports `pre` had been registered is still stored, unchanged but for a
finish hook that was consumed, and whatever `resolver` returned a value for then, it still
returns a value for.  (3) A later `add` under any name stored then is skipped. -/
theorem no_rollback (fuel : Nat) (dep : Dependency) (options : Option DependencyOptions)
    (s : State) (name : String) (hn : effectiveName dep options = some name)
    (hne : name ≠ "") (hf : lookup s.dependencies name = .absent) :
    (∀ pre e post sm t err,
        (options.getD dep.props).exports.getD [] = pre ++ e :: post →
        forEach (addExport (container fuel)) pre (store dep options name s) = (.ok (), sm) →
        add fuel e.dep e.options sm = (.throw err, t) →
        add (fuel + 1) dep options s = (.throw err, t)) ∧
      (∀ s2 body t err,
        forEach (addExport (container fuel)) ((options.getD dep.props).exports.getD [])
          (store dep options name s) = (.ok (), s2) →
        (options.getD dep.props).register = some body →
        runHook (container fuel) body (emit (.register name .container) s2) = (.throw err, t) →
        add (fuel + 1) dep options s = (.throw err, t)) ∧
      (∃ d, getOwn (add (fuel + 1) dep options s).2.dependencies name = some d ∧
        d.ctr = dep.value) ∧
      (∀ pre post sm,
        (options.getD dep.props).exports.getD [] = pre ++ post →
        forEach (addExport (container fuel)) pre (store dep options name s) = (.ok (), sm) →
        Grows sm (add (fuel + 1) dep options s).2 ∧
        (∀ n key v u, resolver n key sm = (.ok v, u) →
          ∃ w u1, resolver n key (add (fuel + 1) dep options s).2 = (.ok w, u1)) ∧
        ∀ key d m dep1 options1, getOwn sm.dependencies key = some d →
          effectiveName dep1 options1 = some key →
          add (m + 1) dep1 options1 (add (fuel + 1) dep options s).2
            = (.ok (), (add (fuel + 1) dep options s).2)) := by
  have hs := container_sound grows_invariant fuel
  have hunfold := addBody_fresh (container fuel) dep options s name hn hne hf
  refine ⟨?_, ?_, ?_, ?_⟩
  · intro pre e post sm t err hes hpre he
    show addBody (container fuel) dep options s = _
    have he1 : addExport (container fuel) e sm = (.throw err, t) := by
      rw [addExport_eq]; exact he
    rw [hunfold, hes, forEach_append_throw _ pre e post _ sm t err hpre he1]
  · intro s2 body t err hcas hr hrun
    show addBody (container fuel) dep options s = _
    rw [hunfold, hcas, hr]
    exact hrun
  · obtain ⟨d, hd, hc⟩ := add_stored fuel dep options s name hn hne hf
    exact ⟨d, hd, hc.1⟩
  · intro pre post sm hes hpre
    have hg : Grows sm (add (fuel + 1) dep options s).2 := by
      show Grows sm (addBody (container fuel) dep options s).2
      rw [hunfold, hes]
      have hrest := forEach_sound grows_invariant.toResolveInvariant
        (addExport (container fuel)) (addExport_sound hs) post sm
      have hsplit : ∀ (xs ys : List ExportEntry) (a b : State),
          forEach (addExport (container fuel)) xs a = (.ok (), b) →
          forEach (addExport (container fuel)) (xs ++ ys) a
            = forEach (addExport (container fuel)) ys b := by
        intro xs
        induction xs with
        | nil =>
          intro ys a b h
          simp only [forEach, Prod.mk.injEq, true_and] at h
          subst h; rfl
        | cons x rest ih =>
          intro ys a b h
          obtain ⟨a1, h1, h2⟩ := forEach_cons_ok _ x rest a b h
          simp only [List.cons_append, forEach, h1]
          exact ih ys a1 b h2
      rw [hsplit pre post _ sm hpre]
      rcases hx : forEach (addExport (container fuel)) post sm with ⟨_ | _ | _, s2⟩
      · rw [hx] at hrest
        cases hr : (options.getD dep.props).register with
        | none => exact hrest
        | some body =>
          exact grows_trans hrest (grows_trans (grows_emit _ s2)
            (runHook_sound grows_invariant.toAddInvariant hs body _))
      · rw [hx] at hrest; exact hrest
      · rw [hx] at hrest; exact hrest
    refine ⟨hg, ?_, ?_⟩
    · intro n key v u hres
      exact resolver_stable n key sm v u hres _ hg
    · intro key d m dep1 options1 hd hn1
      obtain ⟨e, he, _⟩ := hg key d hd
      show addBody (container m) dep1 options1 _ = _
      apply addBody_skip
      intro nm hnm
      rw [hn1] at hnm
      cases hnm
      right
      rw [(lookup_own_iff _ _ _).2 he]; rfl

/-- Witness of C15: the register hook of the second export throws; the error is the
outcome of `add`, and `P` is stored all the same. -/
theorem no_rollback_witness :
    add 2 halfExported none DependencyResolver
        = (.throw (.user "boom"), (add 2 halfExported none DependencyResolver).2) ∧
      (∃ d, getOwn (add 2 halfExported none DependencyResolver).2.dependencies "P" = some d ∧
        d.ctr = .object 1) ∧
      (getOwn (add 2 halfExported none DependencyResolver).2.dependencies "E1").map
        (fun d => d.ctr) = some (.object 2) :=
  ⟨(no_rollback 1 halfExported none DependencyResolver "P" rfl (by decide) rfl).1
      [cleanExport] throwingExport []
      (forEach (addExport (container 1)) [cleanExport]
        (store halfExported none "P" DependencyResolver)).2
      (add 2 halfExported none DependencyResolver).2 (.user "boom") rfl rfl rfl,
    (no_rollback 1 halfExported none DependencyResolver "P" rfl (by decide) rfl).2.2.1,
    by decide⟩

theorem finishKey_collect_throw (self : Self) (key : String) (s t : State) (d : Definition)
    (err : Thrown) (hl : lookup s.dependencies key = .own d) (ha : d.after ≠ none)
    (hc : collect self.resolver d.deps s = (.throw err, t)) :
    finishKey self key s = (.throw err, t) := by
  cases hda : d.after with
  | none => exact absurd hda ha
  | some cb => simp only [finishKey, hl, hda, hc]

theorem finishKey_hook_throw (fuel : Nat) (key : String) (s s1 t : State) (d : Definition)
    (args : List Value) (body : List Action) (err : Thrown)
    (hl : lookup s.dependencies key = .own d) (ha : d.after = some (.user body))
    (hc : collect (resolver fuel) d.deps s = (.ok args, s1))
    (hr : runHook (container fuel) body (emit (.after key args) s1) = (.throw err, t)) :
    finishKey (container fuel) key s = (.throw err, t) := by
  have hfr : Framed s s1 := by
    have := collect_framed fuel d.deps s; rw [hc] at this; exact this
  have hl1 : lookup s1.dependencies key = .own d := by rw [hfr.1]; exact hl
  have hc1 : collect (container fuel).resolver d.deps s = (.ok args, s1) := hc
  simp only [finishKey, hl, ha, hc1, hl1, hr]

theorem finishKey_ok_consumed (fuel : Nat) (k : String) (a b : State) (d : Definition)
    (hok : finishKey (container fuel) k a = (.ok (), b))
    (hd : getOwn a.dependencies k = some d) (ha : d.after ≠ none) :
    ∃ e, getOwn b.dependencies k = some e ∧ e.after = some .noop := by
  have hl := (lookup_own_iff _ _ _).2 hd
  have hgr := container_sound grows_invariant fuel
  cases hda : d.after with
  | none => exact absurd hda ha
  | some cb =>
    have hst := collect_sound framed_invariant (container fuel).resolver
      (fun key s => resolver_framed fuel key s) d.deps a
    rcases hc : collect (container fuel).resolver d.deps a with ⟨args | e | _, s1⟩
    · rw [hc] at hst
      have hl1 : lookup s1.dependencies k = .own d := by rw [hst.1]; exact hl
      have hd1 : getOwn s1.dependencies k = some d := (lookup_own_iff _ _ _).1 hl1
      cases cb with
      | noop =>
        simp only [finishKey, hl, hda, hc, hl1, Prod.mk.injEq, true_and] at hok
        subst hok
        exact ⟨{ d with after := some .noop }, by simp [getOwn_consume, hd1], rfl⟩
      | user body =>
        have hg := runHook_sound grows_invariant.toAddInvariant hgr body
          (emit (.after k args) s1)
        rcases hr : runHook (container fuel) body (emit (.after k args) s1)
          with ⟨_ | _ | _, s2⟩
        · simp only [finishKey, hl, hda, hc, hl1, hr, Prod.mk.injEq, true_and] at hok
          subst hok
          rw [hr] at hg
          obtain ⟨e, he, _⟩ := hg k d hd1
          exact ⟨{ e with after := some .noop }, by simp [getOwn_consume, he], rfl⟩
        · simp [finishKey, hl, hda, hc, hl1, hr] at hok
        · simp [finishKey, hl, hda, hc, hl1, hr] at hok
    · simp [finishKey, hl, hda, hc] at hok
    · simp [finishKey, hl, hda, hc] at hok

theorem grows_noop {s t : State} (h : Grows s t) {key : String} {d : Definition}
    (hd : getOwn s.dependencies key = some d) (ha : d.after = some .noop) :
    ∃ e, getOwn t.dependencies key = some e ∧ e.after = some .noop := by
  obtain ⟨e, he, _, hea⟩ := h key d hd
  refine ⟨e, he, ?_⟩
  rcases hea with hea | ⟨_, hea⟩
  · rw [hea, ha]
  · exact hea

theorem grows_some {s t : State} (h : Grows s t) {key : String} {d : Definition}
    (hd : getOwn s.dependencies key = some d) (ha : d.after ≠ none) :
    ∃ e, getOwn t.dependencies key = some e ∧ e.after ≠ none := by
  obtain ⟨e, he, _, hea⟩ := h key d hd
  refine ⟨e, he, ?_⟩
  rcases hea with hea | ⟨_, hea⟩
  · rw [hea]; exact ha
  · rw [hea]; exact fun h => Option.noConfusion h

theorem consumed_loop (fuel : Nat) : ∀ (ks : List String) (a b : State) (key : String)
    (d : Definition), forEach (finishKey (container fuel)) ks a = (.ok (), b) →
    getOwn a.dependencies key = some d → d.after ≠ none → key ∈ ks →
    ∃ e, getOwn b.dependencies key = some e ∧ e.after = some .noop := by
  intro ks
  induction ks with
  | nil => intro a b key d _ _ _ hm; cases hm
  | cons k rest ih =>
    intro a b key d hok hd ha hm
    obtain ⟨a1, h1, h2⟩ := forEach_cons_ok _ k rest a b hok
    have hg1 : Grows a a1 := by
      have := finishKey_sound grows_invariant (container_sound grows_invariant fuel) k a
      rw [h1] at this; exact this
    have hg2 : Grows a1 b := by
      have := forEach_sound grows_invariant.toResolveInvariant (finishKey (container fuel))
        (finishKey_sound grows_invariant (container_sound grows_invariant fuel)) rest a1
      rw [h2] at this; exact this
    by_cases hk : key = k
    · subst hk
      obtain ⟨e, he, hea⟩ := finishKey_ok_consumed fuel key a a1 d h1 hd ha
      exact grows_noop hg2 he hea
    · obtain ⟨e, he, hea⟩ := grows_some hg1 hd ha
      have hmr : key ∈ rest := by
        rcases List.mem_cons.1 hm with h | h
        · exact absurd h hk
        · exact h
      exact ih a1 b key e h2 he hea hmr

theorem finishKey_others (fuel : Nat) (k : String) (a : State)
    (hcount : finishCalls (finishKey (container fuel) k a).2.trace = finishCalls a.trace)
    (key : String) (hne : key ≠ k) :
    afterCalls key (finishKey (container fuel) k a).2.trace = afterCalls key a.trace := by
  cases hl : lookup a.dependencies k with
  | absent => simp only [finishKey, hl]
  | inherited => simp only [finishKey, hl]
  | own d =>
    cases ha : d.after with
    | none => simp only [finishKey, hl, ha]
    | some cb =>
      have hst := collect_sound still_invariant (container fuel).resolver
        (fun key s => resolver_sound still_invariant fuel key s) d.deps a
      rcases hc : collect (container fuel).resolver d.deps a with ⟨args | e | _, s1⟩
      · rw [hc] at hst
        have hl1 : lookup s1.dependencies k = .own d := by rw [hst.1]; exact hl
        cases cb with
        | noop =>
          simp only [finishKey, hl, ha, hc, hl1]
          exact hst.2.2 key
        | user body =>
          have hcalm := runHook_sound calm_invariant (container_calm fuel) body
            (emit (.after k args) s1)
          have hfin : finishCalls (runHook (container fuel) body
              (emit (.after k args) s1)).2.trace
              = finishCalls (emit (.after k args) s1).trace := by
            rw [finishCalls_emit _ _ (fun hh => Event.noConfusion hh), hst.2.1]
            rw [← hcount]
            simp only [finishKey, hl, ha, hc, hl1]
            rcases runHook (container fuel) body (emit (.after k args) s1)
              with ⟨_ | _ | _, s2⟩ <;> rfl
          have hac := (hcalm.2 hfin).1 key
          have hstep : afterCalls key (finishKey (container fuel) k a).2.trace
              = afterCalls key (runHook (container fuel) body
                  (emit (.after k args) s1)).2.trace := by
            simp only [finishKey, hl, ha, hc, hl1]
            rcases runHook (container fuel) body (emit (.after k args) s1)
              with ⟨_ | _ | _, s2⟩ <;> rfl
          rw [hstep, hac, afterCalls_emit key _ s1
            (fun x hx => hne (by injection hx with h1; exact h1.symm))]
          exact hst.2.2 key
      · rw [hc] at hst; simp only [finishKey, hl, ha, hc]; exact hst.2.2 key
      · rw [hc] at hst; simp only [finishKey, hl, ha, hc]; exact hst.2.2 key

theorem others_loop (fuel : Nat) : ∀ (ks : List String) (a b : State) (key : String),
    forEach (finishKey (container fuel)) ks a = (.ok (), b) →
    finishCalls b.trace = finishCalls a.trace → key ∉ ks →
    afterCalls key b.trace = afterCalls key a.trace := by
  intro ks
  induction ks with
  | nil =>
    intro a b key hok _ _
    simp only [forEach, Prod.mk.injEq, true_and] at hok
    rw [hok]
  | cons k rest ih =>
    intro a b key hok hcount hm
    obtain ⟨a1, h1, h2⟩ := forEach_cons_ok _ k rest a b hok
    have hc1 : Counted a a1 := by
      have := finishKey_sound counted_invariant (container_sound counted_invariant fuel) k a
      rw [h1] at this; exact this
    have hc2 : Counted a1 b := by
      have := forEach_sound counted_invariant.toResolveInvariant (finishKey (container fuel))
        (finishKey_sound counted_invariant (container_sound counted_invariant fuel)) rest a1
      rw [h2] at this; exact this
    unfold Counted at hc1 hc2
    have hne : key ≠ k := fun h => hm (by rw [h]; exact List.mem_cons_self _ _)
    have hnr : key ∉ rest := fun h => hm (List.mem_cons_of_mem _ h)
    have hstep := finishKey_others fuel k a (by rw [h1]; show finishCalls a1.trace = _; omega)
      key hne
    rw [h1] at hstep
    rw [ih a1 b key h2 (by omega) hnr]
    exact hstep

/-- C16, as stated, fails in `nestedAbort`, whose keys are visited in the order
`DependencyResolver`, `K`, `C`.  The pass of `finish()` serves the first key and ends at `K`
with the error `boom`, before it has visited `C`; yet the finish hook of `C` has been
invoked: the hook of `K` added `D`, whose register hook called `finish()`, and that inner
pass went past `K` to `C`, whose hook threw the error that ended both passes. -/
theorem aborted_finish_counterexample :
    objectKeys nestedAbort.dependencies = ["DependencyResolver", "K", "C"] ∧
      (forEach (finishKey (container 3)) ["DependencyResolver"]
        (emit .finish nestedAbort)).1 = .ok () ∧
      (finishKey (container 3) "K" (forEach (finishKey (container 3)) ["DependencyResolver"]
        (emit .finish nestedAbort)).2).1 = .throw (.user "boom") ∧
      afterCalls "C" nestedAbort.trace = [] ∧
      ∀ fuel, (finish (fuel + 4) nestedAbort).1 = .throw (.user "boom") ∧
        afterCalls "C" (finish (fuel + 4) nestedAbort).2.trace = [[]] := by
  refine ⟨by decide, by decide, by decide, by decide, fun fuel => ?_⟩
  rw [Nat.add_comm, finish_mono 4 fuel _ (by decide)]
  exact ⟨by decide, by decide⟩

/-- C16 (amended): let `finish()` have served the keys `pre`, and let the next definition,
`key`, fail: its dependency loop ends with an error, or the loop succeeds and its finish hook
raises.  Then (1) that error is the outcome of `finish()`, in the state the failure left;
(2) every definition stored before is still stored, with the same `ctr`, dependency names and
singleton flag; (3) the hooks served earlier in the pass stay replaced by the empty function;
(4) when no hook called during the pass has entered `finish` itself, no hook of a definition
that had not yet had its turn has been called. -/
theorem aborted_finish (fuel : Nat) (s sm t : State) (key : String) (d : Definition)
    (pre post : List String) (err : Thrown)
    (hkeys : objectKeys s.dependencies = pre ++ key :: post)
    (hpre : forEach (finishKey (container fuel)) pre (emit .finish s) = (.ok (), sm))
    (hl : lookup sm.dependencies key = .own d) (ha : d.after ≠ none)
    (hfail : collect (resolver fuel) d.deps sm = (.throw err, t) ∨
      ∃ args s1 body, collect (resolver fuel) d.deps sm = (.ok args, s1) ∧
        d.after = some (.user body) ∧
        runHook (container fuel) body (emit (.after key args) s1) = (.throw err, t)) :
    finish (fuel + 1) s = (.throw err, t) ∧
      (∀ k dk, getOwn s.dependencies k = some dk →
        ∃ e, getOwn t.dependencies k = some e ∧ e.ctr = dk.ctr ∧ e.deps = dk.deps ∧
          e.single = dk.single) ∧
      (∀ k dk, k ∈ pre → getOwn s.dependencies k = some dk → dk.after ≠ none →
        ∃ e, getOwn t.dependencies k = some e ∧ e.after = some .noop) ∧
      (finishCalls t.trace = finishCalls s.trace + 1 →
        ∀ k, k ∈ post → k ∉ pre → k ≠ key → afterCalls k t.trace = afterCalls k s.trace) := by
  have hstep : finishKey (container fuel) key sm = (.throw err, t) := by
    rcases hfail with hc | ⟨args, s1, body, hc, hab, hr⟩
    · exact finishKey_collect_throw (container fuel) key sm t d err hl ha hc
    · exact finishKey_hook_throw fuel key sm s1 t d args body err hl hab hc hr
  have heq : finish (fuel + 1) s = (.throw err, t) := by
    show forEach (finishKey (container fuel)) (objectKeys s.dependencies) (emit .finish s) = _
    rw [hkeys]
    exact forEach_append_throw _ pre key post _ sm t err hpre hstep
  have hgs : Grows s t := by
    have := (container_sound grows_invariant (fuel + 1)).finish s
    rw [show (container (fuel + 1)).finish s = finish (fuel + 1) s from rfl, heq] at this
    exact this
  have hgm : Grows sm t := by
    have := finishKey_sound grows_invariant (container_sound grows_invariant fuel) key sm
    rw [hstep] at this; exact this
  refine ⟨heq, ?_, ?_, ?_⟩
  · intro k dk hdk
    obtain ⟨e, he, hc, _⟩ := hgs k dk hdk
    exact ⟨e, he, hc.1, hc.2.2.1, hc.2.2.2.1⟩
  · intro k dk hk hdk hda
    obtain ⟨e, he, hea⟩ := consumed_loop fuel pre (emit .finish s) sm k dk hpre hdk hda hk
    exact grows_noop hgm he hea
  · intro hcount k _ hkp hkk
    have hc1 : Counted (emit .finish s) sm := by
      have := forEach_sound counted_invariant.toResolveInvariant (finishKey (container fuel))
        (finishKey_sound counted_invariant (container_sound counted_invariant fuel)) pre
        (emit .finish s)
      rw [hpre] at this; exact this
    have hc2 : Counted sm t := by
      have := finishKey_sound counted_invariant (container_sound counted_invariant fuel) key sm
      rw [hstep] at this; exact this
    unfold Counted at hc1 hc2
    rw [finishCalls_emit_finish] at hc1
    have h1 := others_loop fuel pre (emit .finish s) sm k hpre
      (by rw [finishCalls_emit_finish]; omega) hkp
    have h2 := finishKey_others fuel key sm (by rw [hstep]; show finishCalls t.trace = _; omega)
      k hkk
    rw [hstep] at h2
    rw [h2, h1, afterCalls_emit k _ s (fun _ h => Event.noConfusion h)]

/-- Witness of C16 (amended): `A`, `B` and `C` carry finish hooks and the hook of `B`
throws. -/
theorem aborted_finish_witness :
    finish 1 abortingPass = (.throw (.user "boom"), (finish 1 abortingPass).2) ∧
      (∀ k dk, getOwn abortingPass.dependencies k = some dk →
        ∃ e, getOwn (finish 1 abortingPass).2.dependencies k = some e ∧ e.ctr = dk.ctr ∧
          e.deps = dk.deps ∧ e.single = dk.single) ∧
      (∀ k dk, k ∈ ["DependencyResolver", "A"] →
        getOwn abortingPass.dependencies k = some dk → dk.after ≠ none →
        ∃ e, getOwn (finish 1 abortingPass).2.dependencies k = some e ∧
          e.after = some .noop) ∧
      (finishCalls (finish 1 abortingPass).2.trace = finishCalls abortingPass.trace + 1 →
        ∀ k, k ∈ ["C"] → k ∉ ["DependencyResolver", "A"] → k ≠ "B" →
          afterCalls k (finish 1 abortingPass).2.trace = afterCalls k abortingPass.trace) :=
  aborted_finish 0 abortingPass
    (forEach (finishKey (container 0)) ["DependencyResolver", "A"]
      (emit .finish abortingPass)).2
    (finish 1 abortingPass).2 "B"
    { ctr := .object 2, name := "B", deps := [], single := true, exports := none,
      register := none, after := some (.user [.throw "boom"]) }
    ["DependencyResolver", "A"] ["C"] (.user "boom") rfl rfl rfl
    (fun h => Option.noConfusion h)
    (Or.inr ⟨[], _, [.throw "boom"], rfl, rfl, rfl⟩)

/-! ## What `finish` hands to a hook -/

theorem extending_refl (s : State) : Extending s s := ⟨[], by simp⟩

theorem extending_trans {a b c : State} (h1 : Extending a b) (h2 : Extending b c) :
    Extending a c := by
  obtain ⟨e1, h1⟩ := h1
  obtain ⟨e2, h2⟩ := h2
  exact ⟨e1 ++ e2, by rw [h2, h1, List.append_assoc]⟩

theorem extending_emit (e : Event) (s : State) : Extending s (emit e s) := ⟨[e], rfl⟩

theorem extending_of_trace_eq {s t : State} (h : t.trace = s.trace) : Extending s t :=
  ⟨[], by rw [h]; simp⟩

theorem extending_invariant : Invariant Extending where
  refl := extending_refl
  trans := extending_trans
  alloc := fun _ _ _ _ => ⟨[_], rfl⟩
  allocFail := fun _ => extending_of_trace_eq rfl
  store := fun _ _ _ _ _ _ => extending_of_trace_eq rfl
  registerCall := fun _ _ _ _ s2 _ _ h =>
    extending_trans (extending_trans (extending_of_trace_eq rfl) h) (extending_emit _ s2)
  afterCall := fun s _ _ _ _ _ _ => extending_emit _ s
  consume := fun _ _ _ _ _ _ h => extending_trans h (extending_of_trace_eq rfl)
  finishCall := fun s => extending_emit _ s

theorem forEach_append_eq {α : Type} (f : α → State → Outcome Unit × State) :
    ∀ (xs ys : List α) (a b : State), forEach f xs a = (.ok (), b) →
      forEach f (xs ++ ys) a = forEach f ys b := by
  intro xs
  induction xs with
  | nil =>
    intro ys a b h
    simp only [forEach, Prod.mk.injEq, true_and] at h
    subst h; rfl
  | cons x rest ih =>
    intro ys a b h
    obtain ⟨a1, h1, h2⟩ := forEach_cons_ok f x rest a b h
    simp only [List.cons_append, forEach, h1]
    exact ih ys a1 b h2

theorem forEach_cons_sound {α : Type} {R : State → State → Prop} (h : ResolveInvariant R)
    (f : α → State → Outcome Unit × State) (hf : ∀ x s, R s (f x s).2) (x : α)
    (xs : List α) (s : State) : R (f x s).2 (forEach f (x :: xs) s).2 := by
  rcases hx : f x s with ⟨_ | _ | _, s1⟩
  · simp only [forEach, hx]; exact forEach_sound h f hf xs s1
  · simp only [forEach, hx]; exact h.refl s1
  · simp only [forEach, hx]; exact h.refl s1

/-- C11, as stated, fails: `H` has a pending finish hook, but its dependency `missing` is not
registered; `finish()` ends with the NotFound error and never invokes the hook. -/
theorem finish_arguments_counterexample :
    (getOwn unservedHook.dependencies "H").map (fun d => (d.deps, d.pending))
        = some (["missing"], true) ∧
      (∀ fuel, (finish (fuel + 2) unservedHook).1
        = .throw (.error "Dependency was not found: missing")) ∧
      ∀ fuel, afterCalls "H" (finish fuel unservedHook).2.trace = [] := by
  refine ⟨by decide, fun fuel => ?_, fun fuel => ?_⟩
  · rw [Nat.add_comm, finish_mono 2 fuel _ (by decide)]; decide
  · match fuel with
    | 0 => decide
    | 1 => decide
    | n + 2 => rw [Nat.add_comm, finish_mono 2 n _ (by decide)]; decide

/-- C11 (amended): let `finish()` have served the keys before `key`, and let the definition
stored under `key` hold a pending finish hook and dependency names that all resolve.  Then
the next thing `finish()` does after the dependency loop is to call the hook on the list
`args` that loop built: `args` has one entry per declared name, the i-th being a result of
`resolver` on the i-th name in the same registry, and nothing else (neither the container
nor the definition's own value is added to it). -/
theorem finish_arguments (fuel : Nat) (s sm s1 : State) (key : String) (d : Definition)
    (body : List Action) (args : List Value) (pre post : List String)
    (hkeys : objectKeys s.dependencies = pre ++ key :: post)
    (hpre : forEach (finishKey (container fuel)) pre (emit .finish s) = (.ok (), sm))
    (hl : lookup sm.dependencies key = .own d) (ha : d.after = some (.user body))
    (hc : collect (resolver fuel) d.deps sm = (.ok args, s1)) :
    (∃ rest, (finish (fuel + 1) s).2.trace = s1.trace ++ .after key args :: rest) ∧
      args.length = d.deps.length ∧
      List.Forall₂ (fun name v => ∃ a b, Framed sm a ∧ resolver fuel name a = (.ok v, b))
        d.deps args ∧
      (d.deps = [] → args = []) := by
  have hext := container_sound extending_invariant fuel
  have h2 := collect_pointwise (resolver fuel) (resolver_framed fuel) d.deps sm args s1 hc
  refine ⟨?_, h2.length_eq.symm, h2, ?_⟩
  · have hfr : Framed sm s1 := by
      have := collect_framed fuel d.deps sm; rw [hc] at this; exact this
    have hl1 : lookup s1.dependencies key = .own d := by rw [hfr.1]; exact hl
    have hc1 : collect (container fuel).resolver d.deps sm = (.ok args, s1) := hc
    have hstep : Extending (emit (.after key args) s1) (finishKey (container fuel) key sm).2 := by
      have hr := runHook_sound extending_invariant.toAddInvariant hext body
        (emit (.after key args) s1)
      simp only [finishKey, hl, ha, hc1, hl1]
      rcases hb : runHook (container fuel) body (emit (.after key args) s1)
        with ⟨_ | _ | _, s2⟩
      · rw [hb] at hr; exact extending_trans hr (extending_of_trace_eq rfl)
      · rw [hb] at hr; exact hr
      · rw [hb] at hr; exact hr
    have hrest : Extending (finishKey (container fuel) key sm).2 (finish (fuel + 1) s).2 := by
      show Extending _ (forEach (finishKey (container fuel)) (objectKeys s.dependencies)
        (emit .finish s)).2
      rw [hkeys, forEach_append_eq _ pre (key :: post) _ sm hpre]
      exact forEach_cons_sound extending_invariant.toResolveInvariant _
        (finishKey_sound extending_invariant hext) key post sm
    obtain ⟨es, hes⟩ := extending_trans hstep hrest
    refine ⟨es, ?_⟩
    rw [hes]
    simp [emit]
  · intro hd
    have := h2.length_eq
    rw [hd] at this
    exact List.length_eq_zero.mp this.symm

/-- Witness of C11 (amended) on the test `should call after function with dependencies when
finish is called`: the hook is called on `bluebird` and `lodash`, in that order. -/
theorem finish_arguments_witness :
    (∃ rest, (finish 2 withAfter).2.trace
        = (emit .finish withAfter).trace
          ++ .after "testTrue" [.function 8 .initialises, .object 3] :: rest) ∧
      [Value.function 8 .initialises, Value.object 3].length = ["Promise", "_"].length ∧
      List.Forall₂ (fun name v => ∃ a b, Framed (emit .finish withAfter) a ∧
          resolver 1 name a = (.ok v, b))
        ["Promise", "_"] [.function 8 .initialises, .object 3] ∧
      (["Promise", "_"] = [] → [Value.function 8 .initialises, Value.object 3] = []) :=
  finish_arguments 1 withAfter (emit .finish withAfter) (emit .finish withAfter) "testTrue"
    { ctr := .object 1, name := "testTrue", deps := ["Promise", "_"], single := true,
      exports := none, register := none, after := some (.user []) }
    [] [.function 8 .initialises, .object 3] ["DependencyResolver", "_", "Promise"] []
    rfl rfl rfl rfl rfl

/-! ## A hook that has returned -/

/-- C12, as stated, fails twice over.  The finish hook of `K` in `throwingAfter` throws: each
`finish()` invokes it and ends with its error, so two calls invoke it twice.  The finish
hook of `K` in `reentrantAfter` adds a definition whose register hook calls `finish()`: one
call of `finish()` that returns normally invokes the hook twice. -/
theorem finish_inert_counterexample :
    (∀ fuel fuel1,
        afterCalls "K" (finish (fuel1 + 1) (finish (fuel + 1) throwingAfter).2).2.trace
          = [[], []]) ∧
      (∀ fuel, (finish (fuel + 4) reentrantAfter).1 = .ok ()) ∧
      ∀ fuel, afterCalls "K" (finish (fuel + 4) reentrantAfter).2.trace = [[], []] := by
  refine ⟨fun fuel fuel1 => ?_, fun fuel => ?_, fun fuel => ?_⟩
  · rw [Nat.add_comm fuel 1, finish_mono 1 fuel _ (by decide), Nat.add_comm fuel1 1,
      finish_mono 1 fuel1 _ (by decide)]
    decide
  · rw [Nat.add_comm, finish_mono 4 fuel _ (by decide)]; decide
  · rw [Nat.add_comm, finish_mono 4 fuel _ (by decide)]; decide

/-- C12 (amended): once the finish hook of a definition has been served by `finish` and the
call has returned normally, the hook is replaced by the empty function, and nothing that
follows invokes the user's function again: neither the rest of that pass over the keys
`post`, however it ends, nor any later calls of `add`, `resolver` and `finish`, however they
end. -/
theorem finish_inert (fuel : Nat) (a b : State) (key : String) (d : Definition)
    (post : List String) (calls : List (Nat × Action))
    (hd : getOwn a.dependencies key = some d) (ha : d.after ≠ none)
    (hok : finishKey (container fuel) key a = (.ok (), b)) :
    (∃ e, getOwn b.dependencies key = some e ∧ e.after = some .noop) ∧
      afterCalls key (session calls (forEach (finishKey (container fuel)) post b).2).trace
        = afterCalls key b.trace ∧
      ∃ e, getOwn (session calls
          (forEach (finishKey (container fuel)) post b).2).dependencies key = some e ∧
        e.after = some .noop := by
  obtain ⟨e, he, hea⟩ := finishKey_ok_consumed fuel key a b d hok hd ha
  have hpe : e.pending = false := by simp [Definition.pending, hea]
  have h1 : Inert b (forEach (finishKey (container fuel)) post b).2 :=
    forEach_sound inert_invariant.toResolveInvariant (finishKey (container fuel))
      (finishKey_sound inert_invariant (container_sound inert_invariant fuel)) post b
  have h2 := session_sound inert_invariant calls (forEach (finishKey (container fuel)) post b).2
  have h3 := inert_trans h1 h2
  exact ⟨⟨e, he, hea⟩, h3.2 key e he hpe, grows_noop h3.1 he hea⟩

/-- Witness of C12 (amended): in `abortingPass` the hook of `A` returns, then the hook of `B`
throws and ends the pass; a later `finish()` does not invoke the hook of `A` again. -/
theorem finish_inert_witness :
    (∃ e, getOwn (finishKey (container 0) "A" (emit .finish abortingPass)).2.dependencies "A"
        = some e ∧ e.after = some .noop) ∧
      afterCalls "A" (session [(1, .finish)]
          (forEach (finishKey (container 0)) ["B", "C"]
            (finishKey (container 0) "A" (emit .finish abortingPass)).2).2).trace
        = afterCalls "A" (finishKey (container 0) "A" (emit .finish abortingPass)).2.trace ∧
      ∃ e, getOwn (session [(1, .finish)]
          (forEach (finishKey (container 0)) ["B", "C"]
            (finishKey (container 0) "A" (emit .finish abortingPass)).2).2).dependencies "A"
          = some e ∧
        e.after = some .noop :=
  finish_inert 0 (emit .finish abortingPass)
    (finishKey (container 0) "A" (emit .finish abortingPass)).2 "A"
    { ctr := .object 1, name := "A", deps := [], single := true, exports := none,
      register := none, after := some (.user []) }
    ["B", "C"] [(1, .finish)] rfl (fun h => Option.noConfusion h) rfl

/-! ## `finish` with nothing pending -/

theorem consume_noop (l : List (String × Definition)) (key : String) (d : Definition)
    (hd : getOwn l key = some d) (ha : d.after = some .noop) : consume l key = l := by
  induction l with
  | nil => rfl
  | cons p rest ih =>
    obtain ⟨k, e⟩ := p
    by_cases hk : k = key
    · simp only [getOwn, if_pos hk] at hd
      have hed : e = d := Option.some.inj hd
      subst hed
      simp only [consume, if_pos hk]
      cases e
      simp only at ha
      subst ha
      rfl
    · simp only [getOwn, if_neg hk] at hd
      simp only [consume, if_neg hk, ih hd]

theorem objectKeys_own (l : List (String × Definition)) (key : String)
    (h : key ∈ objectKeys l) : ∃ d, getOwn l key = some d := by
  have hm : key ∈ l.map Prod.fst := by
    unfold objectKeys at h
    rw [List.mem_append] at h
    rcases h with h | h
    · rw [List.mem_map] at h
      obtain ⟨⟨n, k⟩, hnk, hk⟩ := h
      rw [(List.perm_insertionSort _ _).mem_iff, List.mem_filterMap] at hnk
      obtain ⟨k1, hk1, hk2⟩ := hnk
      cases hi : arrayIndex k1 with
      | none => rw [hi] at hk2; cases hk2
      | some m =>
        rw [hi] at hk2
        simp only [Option.map_some', Option.some.injEq, Prod.mk.injEq] at hk2
        simp only at hk
        rw [← hk, ← hk2.2]; exact hk1
    · exact (List.mem_filter.1 h).1
  clear h
  induction l with
  | nil => cases hm
  | cons p rest ih =>
    obtain ⟨k, e⟩ := p
    by_cases hk : k = key
    · exact ⟨e, by simp [getOwn, hk]⟩
    · simp only [List.map_cons, List.mem_cons] at hm
      rcases hm with hm | hm
      · exact absurd hm.symm hk
      · obtain ⟨d, hd⟩ := ih hm
        exact ⟨d, by simp [getOwn, hk, hd]⟩

theorem quiet_invariant : ResolveInvariant Quiet where
  refl := fun _ => ⟨rfl, fun _ => rfl, fun _ => rfl⟩
  trans := fun h1 h2 =>
    ⟨h2.1.trans h1.1, fun key => (h2.2.1 key).trans (h1.2.1 key),
      fun name => (h2.2.2 name).trans (h1.2.2 name)⟩
  alloc := fun _ _ _ _ =>
    ⟨rfl, fun key => afterCalls_emit key _ _ (fun _ h => Event.noConfusion h),
      fun name => registerCalls_emit name _ _ (fun _ h => Event.noConfusion h)⟩
  allocFail := fun _ => ⟨rfl, fun _ => rfl, fun _ => rfl⟩

theorem finishKey_idle (fuel : Nat) (k : String) (a : State) (hi : Idle a) :
    Quiet a (finishKey (container fuel) k a).2 := by
  cases hl : lookup a.dependencies k with
  | absent => simp only [finishKey, hl]; exact quiet_invariant.refl a
  | inherited => simp only [finishKey, hl]; exact quiet_invariant.refl a
  | own d =>
    have hd := (lookup_own_iff _ _ _).1 hl
    cases ha : d.after with
    | none => simp only [finishKey, hl, ha]; exact quiet_invariant.refl a
    | some cb =>
      have hq := collect_sound quiet_invariant (container fuel).resolver
        (fun key s => resolver_sound quiet_invariant fuel key s) d.deps a
      rcases hc : collect (container fuel).resolver d.deps a with ⟨args | e | _, s1⟩
      · rw [hc] at hq
        have hl1 : lookup s1.dependencies k = .own d := by rw [hq.1]; exact hl
        cases cb with
        | noop =>
          simp only [finishKey, hl, ha, hc, hl1]
          have hd1 : getOwn s1.dependencies k = some d := (lookup_own_iff _ _ _).1 hl1
          refine ⟨?_, hq.2.1, hq.2.2⟩
          show consume s1.dependencies k = a.dependencies
          rw [consume_noop _ k d hd1 ha]; exact hq.1
        | user body =>
          have := hi k d hd
          simp [Definition.pending, ha] at this
      · rw [hc] at hq; simp only [finishKey, hl, ha, hc]; exact hq
      · rw [hc] at hq; simp only [finishKey, hl, ha, hc]; exact hq

theorem idle_of_quiet {a b : State} (h : Quiet a b) (hi : Idle a) : Idle b := by
  intro key d hd
  rw [h.1] at hd
  exact hi key d hd

theorem forEach_idle (fuel : Nat) : ∀ (ks : List String) (a : State), Idle a →
    Quiet a (forEach (finishKey (container fuel)) ks a).2 := by
  intro ks
  induction ks with
  | nil => intro a _; exact quiet_invariant.refl a
  | cons k rest ih =>
    intro a hi
    have h1 := finishKey_idle fuel k a hi
    rcases hx : finishKey (container fuel) k a with ⟨_ | _ | _, a1⟩
    · rw [hx] at h1
      simp only [forEach, hx]
      exact quiet_invariant.trans h1 (ih a1 (idle_of_quiet h1 hi))
    · rw [hx] at h1; simp only [forEach, hx]; exact h1
    · rw [hx] at h1; simp only [forEach, hx]; exact h1

theorem forEach_hookless (fuel : Nat) : ∀ (ks : List String) (a : State),
    (∀ k, k ∈ ks → ∃ d, getOwn a.dependencies k = some d ∧ d.after = none) →
    forEach (finishKey (container fuel)) ks a = (.ok (), a) := by
  intro ks
  induction ks with
  | nil => intro a _; rfl
  | cons k rest ih =>
    intro a h
    obtain ⟨d, hd, ha⟩ := h k (List.mem_cons_self _ _)
    have hl := (lookup_own_iff _ _ _).2 hd
    have hstep : finishKey (container fuel) k a = (.ok (), a) := by
      simp only [finishKey, hl, ha]
    simp only [forEach, hstep]
    exact ih a (fun j hj => h j (List.mem_cons_of_mem _ hj))

theorem forEach_resolving (fuel : Nat) (s : State) (hi : Idle s)
    (hres : ∀ key d, getOwn s.dependencies key = some d → d.after ≠ none →
      ∃ args u, collect (resolver fuel) d.deps s = (.ok args, u)) :
    ∀ (ks : List String) (a : State), a.dependencies = s.dependencies →
      (∀ k, k ∈ ks → ∃ d, getOwn s.dependencies k = some d) →
      (forEach (finishKey (container fuel)) ks a).1 = .ok () := by
  intro ks
  induction ks with
  | nil => intro a _ _; rfl
  | cons k rest ih =>
    intro a hdeps hown
    obtain ⟨d, hd⟩ := hown k (List.mem_cons_self _ _)
    have hda : getOwn a.dependencies k = some d := by rw [hdeps]; exact hd
    have hl := (lookup_own_iff _ _ _).2 hda
    have hia : Idle a := fun key e he => hi key e (by rw [← hdeps]; exact he)
    have hq := finishKey_idle fuel k a hia
    have hstep : (finishKey (container fuel) k a).1 = .ok () := by
      cases ha : d.after with
      | none => simp only [finishKey, hl, ha]
      | some cb =>
        obtain ⟨args, u, hc⟩ := hres k d hd (by rw [ha]; exact fun h => Option.noConfusion h)
        obtain ⟨brgs, u1, hc1⟩ := collect_stable (resolver fuel) (resolver_stable fuel)
          (resolver_framed fuel) d.deps s args u hc a (grows_of_dependencies_eq hdeps)
        have hfr : Framed a u1 := by
          have := collect_framed fuel d.deps a; rw [hc1] at this; exact this
        have hl1 : lookup u1.dependencies k = .own d := by rw [hfr.1]; exact hl
        have hc2 : collect (container fuel).resolver d.deps a = (.ok brgs, u1) := hc1
        cases cb with
        | noop => simp only [finishKey, hl, ha, hc2, hl1]
        | user body =>
          have := hi k d hd
          simp [Definition.pending, ha] at this
    rcases hx : finishKey (container fuel) k a with ⟨_ | _ | _, a1⟩
    · rw [hx] at hq
      simp only [forEach, hx]
      exact ih a1 (hq.1.trans hdeps) (fun j hj => hown j (List.mem_cons_of_mem _ hj))
    · rw [hx] at hstep; cases hstep
    · rw [hx] at hstep; cases hstep

/-- C13, as stated, fails: in `servedOnce` every finish hook has been run and replaced, yet
another `finish()` resolves the dependency `T` of `H` again and constructs one more
instance of it. -/
theorem finish_idle_counterexample :
    servedOnce.dependencies.map (fun p => (p.1, p.2.pending))
        = [("DependencyResolver", false), ("T", false), ("H", false)] ∧
      (finish 2 servedOnce).1 = .ok () ∧
      (finish 2 servedOnce).2.trace
        = servedOnce.trace
          ++ [.finish, .construct (.function 4 .initialises) [] (.created 1 4)] ∧
      (finish 2 servedOnce).2.serial = servedOnce.serial + 1 := by
  decide

/-- C13 (amended): in a state where no stored definition holds a pending finish hook,
`finish()`, however it ends, invokes no finish hook and no register hook and leaves the
registry as it was; it returns normally whenever the dependency names of the definitions
whose hook has been replaced resolve, which it resolves once more; and when no stored
definition has a finish hook at all, it does nothing but return. -/
theorem finish_idle (fuel : Nat) (s : State) (hi : Idle s) :
    (finish fuel s).2.dependencies = s.dependencies ∧
      (∀ key, afterCalls key (finish fuel s).2.trace = afterCalls key s.trace) ∧
      (∀ name, registerCalls name (finish fuel s).2.trace = registerCalls name s.trace) ∧
      ((∀ key d, getOwn s.dependencies key = some d → d.after ≠ none →
          ∃ args u, collect (resolver fuel) d.deps s = (.ok args, u)) →
        (finish (fuel + 1) s).1 = .ok ()) ∧
      ((∀ key d, getOwn s.dependencies key = some d → d.after = none) →
        finish (fuel + 1) s = (.ok (), emit .finish s)) := by
  have hq : Quiet s (finish fuel s).2 := by
    cases fuel with
    | zero => exact quiet_invariant.refl s
    | succ n =>
      have h1 : Quiet s (emit .finish s) :=
        ⟨rfl, fun key => afterCalls_emit key _ s (fun _ h => Event.noConfusion h),
          fun name => registerCalls_emit name _ s (fun _ h => Event.noConfusion h)⟩
      exact quiet_invariant.trans h1
        (forEach_idle n (objectKeys s.dependencies) (emit .finish s) (idle_of_quiet h1 hi))
  refine ⟨hq.1, hq.2.1, hq.2.2, ?_, ?_⟩
  · intro hres
    exact forEach_resolving fuel s hi hres (objectKeys s.dependencies) (emit .finish s) rfl
      (fun k hk => objectKeys_own _ k hk)
  · intro hnone
    apply forEach_hookless
    intro k hk
    obtain ⟨d, hd⟩ := objectKeys_own _ k hk
    exact ⟨d, hd, hnone k d hd⟩

theorem idle_of_all (s : State)
    (h : s.dependencies.all (fun p => !p.2.pending) = true) : Idle s := by
  intro key d hd
  have hall := List.all_eq_true.1 h
  have hm : (key, d) ∈ s.dependencies ∨ ∃ k, (k, d) ∈ s.dependencies := by
    generalize s.dependencies = l at hd
    induction l with
    | nil => simp [getOwn] at hd
    | cons p rest ih =>
      obtain ⟨k, e⟩ := p
      by_cases hk : k = key
      · simp only [getOwn, if_pos hk] at hd
        have := Option.some.inj hd
        subst this
        exact Or.inr ⟨k, List.mem_cons_self _ _⟩
      · simp only [getOwn, if_neg hk] at hd
        rcases ih hd with h1 | ⟨k1, h1⟩
        · exact Or.inl (List.mem_cons_of_mem _ h1)
        · exact Or.inr ⟨k1, List.mem_cons_of_mem _ h1⟩
  rcases hm with h1 | ⟨k1, h1⟩
  · simpa using hall _ h1
  · simpa using hall _ h1

/-- Witness of C13 (amended): `servedOnce`, where the hook of `H` has been replaced. -/
theorem finish_idle_witness :
    (finish 1 servedOnce).2.dependencies = servedOnce.dependencies ∧
      (∀ key, afterCalls key (finish 1 servedOnce).2.trace
        = afterCalls key servedOnce.trace) ∧
      (∀ name, registerCalls name (finish 1 servedOnce).2.trace
        = registerCalls name servedOnce.trace) ∧
      ((∀ key d, getOwn servedOnce.dependencies key = some d → d.after ≠ none →
          ∃ args u, collect (resolver 1) d.deps servedOnce = (.ok args, u)) →
        (finish 2 servedOnce).1 = .ok ()) ∧
      ((∀ key d, getOwn servedOnce.dependencies key = some d → d.after = none) →
        finish 2 servedOnce = (.ok (), emit .finish servedOnce)) :=
  finish_idle 1 servedOnce (idle_of_all servedOnce (by decide))

/-! ## Cycles -/

theorem doomed_step (l : List (String × Definition)) (a : String) (h : Doomed l a) :
    ∃ j, DependsOn l a j ∧ Doomed l j := by
  obtain ⟨c, b, hr, hd, hb⟩ := h
  cases hr with
  | refl => exact ⟨b, hd, a, b, hb, hd, hb⟩
  | step hstep hrest => exact ⟨_, hstep, c, b, hrest, hd, hb⟩

theorem closedUnder_reaches (l : List (String × Definition)) (names : List String)
    (hc : closedUnder l names = true) (a k : String) (ha : a ∈ names)
    (hr : Reaches l a k) : k ∈ names := by
  induction hr with
  | refl => exact ha
  | step hd _ ih =>
    apply ih
    obtain ⟨d, hda, hb⟩ := hd
    have := List.all_eq_true.1 hc _ ha
    rw [hda] at this
    simpa using List.all_eq_true.1 this _ hb

theorem closedUnder_registered (l : List (String × Definition)) (names : List String)
    (hc : closedUnder l names = true) (a : String) (ha : a ∈ names) :
    ∀ k, Reaches l a k → ∃ d, getOwn l k = some d := by
  intro k hr
  have hk := closedUnder_reaches l names hc a k ha hr
  have := List.all_eq_true.1 hc _ hk
  cases hg : getOwn l k with
  | none => rw [hg] at this; cases this
  | some d => exact ⟨d, rfl⟩

theorem pointwise_of_mem {α β : Type} {R : α → β → Prop} {xs : List α} {ys : List β}
    (h : List.Forall₂ R xs ys) {x : α} (hx : x ∈ xs) : ∃ y, R x y := by
  induction h with
  | nil => cases hx
  | cons hr _ ih =>
    rcases List.mem_cons.1 hx with h1 | h1
    · subst h1; exact ⟨_, hr⟩
    · exact ih h1

theorem doomed_never_ok : ∀ (fuel : Nat) (key : String) (s : State) (v : Value) (t : State),
    Doomed s.dependencies key → resolver fuel key s ≠ (.ok v, t) := by
  intro fuel
  induction fuel with
  | zero => intro key s v t _ h; simp [resolver, container] at h
  | succ n ih =>
    intro key s v t hdoom h
    obtain ⟨d, args, s1, d1, hl, hc, _, _⟩ := resolverBody_ok (container n) key s v t h
    obtain ⟨j, ⟨d2, hd2, hj⟩, hdj⟩ := doomed_step _ key hdoom
    have hd := (lookup_own_iff _ _ _).1 hl
    rw [hd] at hd2
    have : d = d2 := Option.some.inj hd2
    subst this
    have hp := collect_pointwise (resolver n) (resolver_framed n) d.deps s args s1 hc
    obtain ⟨w, a, b, hfa, hres⟩ := pointwise_of_mem hp hj
    exact ih j a w b (by rw [hfa.1]; exact hdj) hres

theorem construct_throw (ctr : Value) (args : List Value) (s t : State) (e : Thrown)
    (h : construct ctr args s = (.throw e, t)) : ∀ msg, e ≠ .error msg := by
  intro msg he
  subst he
  cases ctr with
  | function ref body => cases body <;> simp [construct] at h
  | classConstructor r => simp [construct] at h
  | object r => simp [construct] at h
  | container => simp [construct] at h
  | created a b => simp [construct] at h

theorem collect_throw (f : String → State → Outcome Value × State)
    (hfr : ∀ key s, Framed s (f key s).2) :
    ∀ names s e t, collect f names s = (.throw e, t) →
      ∃ j a, j ∈ names ∧ Framed s a ∧ f j a = (.throw e, t) := by
  intro names
  induction names with
  | nil => intro s e t h; simp [collect] at h
  | cons k rest ih =>
    intro s e t h
    rcases hk : f k s with ⟨v | e1 | _, s1⟩
    · have h1 : Framed s s1 := by have := hfr k s; rw [hk] at this; exact this
      rcases hr : collect f rest s1 with ⟨ws | e2 | _, s2⟩
      · simp [collect, hk, hr] at h
      · simp only [collect, hk, hr, Prod.mk.injEq, Outcome.throw.injEq] at h
        obtain ⟨j, a, hj, hfa, hja⟩ := ih s1 e2 s2 hr
        refine ⟨j, a, List.mem_cons_of_mem _ hj, framed_invariant.trans h1 hfa, ?_⟩
        rw [hja, h.1, h.2]
      · simp [collect, hk, hr] at h
    · simp only [collect, hk, Prod.mk.injEq, Outcome.throw.injEq] at h
      exact ⟨k, s, List.mem_cons_self _ _, ⟨rfl, Nat.le_refl _⟩, by rw [hk, h.1, h.2]⟩
    · simp [collect, hk] at h

/-- An error that ends `resolver`, when every name reached is registered, was raised by the
constructor of a definition reached that is not a singleton. -/
theorem registered_throw : ∀ (fuel : Nat) (key : String) (s : State) (e : Thrown) (t : State),
    (∀ k, Reaches s.dependencies key k → ∃ d, getOwn s.dependencies k = some d) →
    resolver fuel key s = (.throw e, t) →
    ∃ k d args u, Reaches s.dependencies key k ∧ getOwn s.dependencies k = some d ∧
      d.single = false ∧ construct d.ctr args u = (.throw e, t) := by
  intro fuel
  induction fuel with
  | zero => intro key s e t _ h; simp [resolver, container] at h
  | succ n ih =>
    intro key s e t hreg h
    obtain ⟨d, hd⟩ := hreg key (Reaches.refl key)
    have hl := (lookup_own_iff _ _ _).2 hd
    have h1 : resolverBody (container n) key s = (.throw e, t) := h
    rcases hc : collect (container n).resolver d.deps s with ⟨args | e1 | _, s1⟩
    · have hfr : Framed s s1 := by
        have := collect_framed n d.deps s
        rw [show collect (resolver n) d.deps s = _ from hc] at this; exact this
      have hl1 : lookup s1.dependencies key = .own d := by rw [hfr.1]; exact hl
      rw [resolverBody_own (container n) key s d args s1 d hl hc hl1] at h1
      cases hs : d.single with
      | true => rw [hs] at h1; simp at h1
      | false =>
        rw [hs] at h1
        exact ⟨key, d, args, s1, Reaches.refl key, hd, hs, by simpa using h1⟩
    · simp only [resolverBody, hl, hc, Prod.mk.injEq, Outcome.throw.injEq] at h1
      obtain ⟨j, a, hj, hfa, hja⟩ := collect_throw (resolver n) (resolver_framed n)
        d.deps s e1 s1 hc
      have hstep : DependsOn s.dependencies key j := ⟨d, hd, hj⟩
      have hrega : ∀ k, Reaches a.dependencies j k →
          ∃ d, getOwn a.dependencies k = some d := by
        intro k hk
        rw [hfa.1] at hk ⊢
        exact hreg k (Reaches.step hstep hk)
      obtain ⟨k, dk, args, u, hrk, hdk, hsk, hck⟩ := ih j a e1 s1 hrega hja
      rw [hfa.1] at hrk hdk
      exact ⟨k, dk, args, u, Reaches.step hstep hrk, hdk, hsk, by rw [hck, h1.1, h1.2]⟩
    · simp [resolverBody, hl, hc] at h1

/-- C17, as stated, fails in its reading of "never": in `cycleBehindFailure` every name
reached from `N` is registered and the cycle of `C` is reached from `N`, yet with room for two
or more activations `resolver('N')` ends, with the error thrown by the constructor of `T`,
which is resolved before `C`: it does not exhaust every finite stack. -/
theorem no_cycle_guard_counterexample :
    (∀ k, Reaches cycleBehindFailure.dependencies "N" k →
        ∃ d, getOwn cycleBehindFailure.dependencies k = some d) ∧
      Doomed cycleBehindFailure.dependencies "N" ∧
      ∀ fuel, (resolver (fuel + 2) "N" cycleBehindFailure).1 = .throw (.user "ctor") := by
  refine ⟨closedUnder_registered _ ["N", "T", "C"] (by decide) "N" (by decide), ?_,
    fun fuel => ?_⟩
  · exact ⟨"C", "C", Reaches.step ⟨_, rfl, by decide⟩ (Reaches.refl "C"),
      ⟨_, rfl, by decide⟩, Reaches.refl "C"⟩
  · rw [Nat.add_comm, resolver_mono 2 fuel _ _ (by decide)]; decide

/-- C17 (amended): in a registry where every name reached from `name` through dependency
names is registered and a dependency cycle is reached from `name`, `resolver(name)`, with
whatever room on the stack, returns no value and raises no NotFound error, whether or not
the definitions on the cycle are singletons; and when the constructor of no definition
reached can fail, it exhausts every finite stack. -/
theorem no_cycle_guard (s : State) (name : String)
    (hreg : ∀ k, Reaches s.dependencies name k → ∃ d, getOwn s.dependencies k = some d)
    (hcyc : Doomed s.dependencies name) :
    (∀ fuel v, (resolver fuel name s).1 ≠ .ok v) ∧
      (∀ fuel msg, (resolver fuel name s).1 ≠ .throw (.error msg)) ∧
      ((∀ k d, Reaches s.dependencies name k → getOwn s.dependencies k = some d →
          d.single = false →
          ∃ ref body, d.ctr = .function ref body ∧ ∀ msg, body ≠ .throws msg) →
        ∀ fuel, (resolver fuel name s).1 = .stackExhausted) := by
  have hok : ∀ fuel v, (resolver fuel name s).1 ≠ .ok v := by
    intro fuel v h
    exact doomed_never_ok fuel name s v (resolver fuel name s).2 hcyc (by rw [← h])
  refine ⟨hok, ?_, ?_⟩
  · intro fuel msg h
    obtain ⟨k, d, args, u, _, _, _, hc⟩ := registered_throw fuel name s (.error msg)
      (resolver fuel name s).2 hreg (by rw [← h])
    exact construct_throw d.ctr args u _ _ hc msg rfl
  · intro hsturdy fuel
    rcases hr : resolver fuel name s with ⟨v | e | _, t⟩
    · exact absurd (by rw [hr]) (hok fuel v)
    · obtain ⟨k, d, args, u, hrk, hdk, hsk, hc⟩ := registered_throw fuel name s e t hreg hr
      obtain ⟨ref, body, hctr, hbody⟩ := hsturdy k d hrk hdk hsk
      rw [hctr] at hc
      cases body with
      | initialises => simp [construct] at hc
      | returnsObject r => simp [construct] at hc
      | throws msg => exact absurd rfl (hbody msg)
    · rfl

/-- Witness of C17 (amended): two singletons that depend on each other. -/
theorem no_cycle_guard_witness :
    (∀ fuel v, (resolver fuel "A" singletonCycle).1 ≠ .ok v) ∧
      (∀ fuel msg, (resolver fuel "A" singletonCycle).1 ≠ .throw (.error msg)) ∧
      ((∀ k d, Reaches singletonCycle.dependencies "A" k →
          getOwn singletonCycle.dependencies k = some d →
          d.single = false →
          ∃ ref body, d.ctr = .function ref body ∧ ∀ msg, body ≠ .throws msg) →
        ∀ fuel, (resolver fuel "A" singletonCycle).1 = .stackExhausted) :=
  no_cycle_guard singletonCycle "A"
    (closedUnder_registered _ ["A", "B"] (by decide) "A" (by decide))
    ⟨"A", "B", Reaches.refl "A", ⟨_, rfl, by decide⟩,
      Reaches.step ⟨_, rfl, by decide⟩ (Reaches.refl "A")⟩

/-! ## The dependency closure -/

theorem reaches_trans {l : List (String × Definition)} {a b c : String}
    (h1 : Reaches l a b) (h2 : Reaches l b c) : Reaches l a c := by
  induction h1 with
  | refl => exact h2
  | step hd _ ih => exact Reaches.step hd (ih h2)

theorem shallow_false (l : List (String × Definition)) (n : Nat) (key : String)
    (h : shallow l (n + 1) key = false) :
    ∃ d j, getOwn l key = some d ∧ j ∈ d.deps ∧ shallow l n j = false := by
  cases hg : getOwn l key with
  | none => simp [shallow, hg] at h
  | some d =>
    simp only [shallow, hg] at h
    have : ¬ ∀ j, j ∈ d.deps → shallow l n j = true := by
      intro hall
      rw [List.all_eq_true.2 hall] at h
      cases h
    obtain ⟨j, hj⟩ := not_forall.1 this
    obtain ⟨hmem, hsh⟩ := Classical.not_imp.1 hj
    exact ⟨d, j, rfl, hmem, by simpa using hsh⟩

theorem shallow_true (l : List (String × Definition)) (n : Nat) (key : String) (d : Definition)
    (hg : getOwn l key = some d) (h : shallow l (n + 1) key = true) :
    ∀ j, j ∈ d.deps → shallow l n j = true := by
  simp only [shallow, hg] at h
  exact List.all_eq_true.1 h

theorem deep_cycle (l : List (String × Definition)) :
    ∀ (n : Nat) (key : String) (visited : List String), visited.Nodup →
      (∀ v, v ∈ visited → v ∈ l.map Prod.fst) →
      (∀ v, v ∈ visited → ∃ b, DependsOn l v b ∧ Reaches l b key) →
      l.length < n + visited.length → shallow l n key = false → Doomed l key := by
  intro n
  induction n with
  | zero =>
    intro key visited hnd hsub _ hlen _
    have := (List.subperm_of_subset hnd hsub).length_le
    simp only [List.length_map] at this
    omega
  | succ n ih =>
    intro key visited hnd hsub hback hlen hsh
    obtain ⟨d, j, hg, hj, hshj⟩ := shallow_false l n key hsh
    by_cases hv : key ∈ visited
    · obtain ⟨b, hd, hb⟩ := hback key hv
      exact ⟨key, b, Reaches.refl key, hd, hb⟩
    · have hstep : DependsOn l key j := ⟨d, hg, hj⟩
      obtain ⟨c, b, hr, hd, hb⟩ := ih j (key :: visited) (List.nodup_cons.2 ⟨hv, hnd⟩)
        (by
          intro v hmem
          rcases List.mem_cons.1 hmem with h1 | h1
          · rw [h1]; exact getOwn_mem_keys l key d hg
          · exact hsub v h1)
        (by
          intro v hmem
          rcases List.mem_cons.1 hmem with h1 | h1
          · rw [h1]; exact ⟨j, hstep, Reaches.refl j⟩
          · obtain ⟨b, hd, hb⟩ := hback v h1
            exact ⟨b, hd, reaches_trans hb (Reaches.step hstep (Reaches.refl j))⟩)
        (by simp only [List.length_cons]; omega) hshj
      exact ⟨c, b, Reaches.step hstep hr, hd, hb⟩

/-- In a registry without a cycle reached from `key`, the unfolding from `key` ends within as
many levels as there are definitions, and one more for the names that are not stored. -/
theorem acyclic_shallow (l : List (String × Definition)) (key : String)
    (h : ¬ Doomed l key) : shallow l (l.length + 1) key = true := by
  cases hs : shallow l (l.length + 1) key with
  | true => rfl
  | false =>
    exact absurd (deep_cycle l (l.length + 1) key [] List.nodup_nil
      (fun v hv => by cases hv) (fun v hv => by cases hv) (by simp) hs) h

theorem shallow_acyclic (l : List (String × Definition)) :
    ∀ (n : Nat) (key : String), shallow l n key = true → ¬ Doomed l key := by
  intro n
  induction n with
  | zero => intro key h; simp [shallow] at h
  | succ n ih =>
    intro key h hdoom
    obtain ⟨j, ⟨d, hd, hj⟩, hdj⟩ := doomed_step l key hdoom
    exact ih j (shallow_true l n key d hd h j hj) hdj

theorem firstMissing_none (l : List (String × Definition)) :
    ∀ (n : Nat) (key : String), shallow l n key = true →
      (firstMissing l n key = none ↔ ∀ k, Reaches l key k → ∃ d, getOwn l k = some d) := by
  intro n
  induction n with
  | zero => intro key h; simp [shallow] at h
  | succ n ih =>
    intro key h
    cases hg : getOwn l key with
    | none =>
      simp only [firstMissing, hg]
      constructor
      · intro hc; cases hc
      · intro hreg
        obtain ⟨d, hd⟩ := hreg key (Reaches.refl key)
        rw [hg] at hd; cases hd
    | some d =>
      have hsh := shallow_true l n key d hg h
      simp only [firstMissing, hg, List.findSome?_eq_none_iff]
      constructor
      · intro hall k hr
        cases hr with
        | refl => exact ⟨d, hg⟩
        | step hstep hrest =>
          obtain ⟨d2, hd2, hb⟩ := hstep
          rw [hg] at hd2
          cases hd2
          exact (ih _ (hsh _ hb)).1 (hall _ hb) k hrest
      · intro hreg j hj
        exact (ih j (hsh j hj)).2 (fun k hk => hreg k (Reaches.step ⟨d, hg, hj⟩ hk))

theorem constructors_append (a b : List Event) :
    constructors (a ++ b) = constructors a ++ constructors b := by
  simp [constructors]

theorem construct_constructors (ctr : Value) (args : List Value) (s : State) (v : Value)
    (t : State) (h : construct ctr args s = (.ok v, t)) :
    constructors t.trace = constructors s.trace ++ [ctr] := by
  cases ctr with
  | function ref body =>
    cases body with
    | initialises =>
      simp only [construct, Prod.mk.injEq] at h
      rw [← h.2]; simp [emit, constructors]
    | returnsObject r =>
      simp only [construct, Prod.mk.injEq] at h
      rw [← h.2]; simp [emit, constructors]
    | throws msg => simp [construct] at h
  | classConstructor r => simp [construct] at h
  | object r => simp [construct] at h
  | container => simp [construct] at h
  | created a b => simp [construct] at h

theorem construct_sturdy (d : Definition) (args : List Value) (s : State)
    (hs : d.sturdy = true) (hn : d.single = false) :
    ∃ v t, construct d.ctr args s = (.ok v, t) := by
  unfold Definition.sturdy at hs
  rw [hn] at hs
  cases hc : d.ctr with
  | function ref body =>
    cases body with
    | initialises => exact ⟨_, _, rfl⟩
    | returnsObject r => exact ⟨_, _, rfl⟩
    | throws msg => rw [hc] at hs; simp at hs
  | classConstructor r => rw [hc] at hs; simp at hs
  | object r => rw [hc] at hs; simp at hs
  | container => rw [hc] at hs; simp at hs
  | created a b => rw [hc] at hs; simp at hs

theorem collect_invocations (n : Nat) (l : List (String × Definition))
    (ih : ∀ key s v t, s.dependencies = l → resolver n key s = (.ok v, t) →
      constructors t.trace = constructors s.trace ++ invocations l n key) :
    ∀ names s vs t, s.dependencies = l → collect (resolver n) names s = (.ok vs, t) →
      constructors t.trace =
        constructors s.trace ++ names.flatMap (fun j => invocations l n j) := by
  intro names
  induction names with
  | nil =>
    intro s vs t _ h
    simp only [collect, Prod.mk.injEq] at h
    rw [← h.2]; simp
  | cons k rest ihr =>
    intro s vs t hs h
    obtain ⟨v, s1, ws, hk, hrest, _⟩ := collect_cons_ok (resolver n) k rest s vs t h
    have hfr : s1.dependencies = l := by
      have := (resolver_framed n k s).1
      rw [hk] at this
      rw [this, hs]
    rw [ihr s1 ws t hfr hrest, ih k s v s1 hs hk, List.flatMap_cons, List.append_assoc]

/-- A call of `resolver` that returns has invoked the constructors of the definitions that
are not singletons once for each occurrence in the unfolded tree, in post-order. -/
theorem resolver_invocations (l : List (String × Definition)) :
    ∀ (n : Nat) (key : String) (s : State) (v : Value) (t : State), s.dependencies = l →
      resolver n key s = (.ok v, t) →
      constructors t.trace = constructors s.trace ++ invocations l n key := by
  intro n
  induction n with
  | zero => intro key s v t _ h; simp [resolver, container] at h
  | succ n ih =>
    intro key s v t hs h
    obtain ⟨d, args, s1, d1, hl, hc, hl1, hcase⟩ := resolverBody_ok (container n) key s v t h
    have hfr : s1.dependencies = s.dependencies := by
      have := (collect_framed n d.deps s).1
      rw [show collect (resolver n) d.deps s = _ from hc] at this; exact this
    rw [hfr, hl] at hl1
    cases hl1
    have hd : getOwn l key = some d := by rw [← hs]; exact (lookup_own_iff _ _ _).1 hl
    have hcol := collect_invocations n l ih d.deps s args s1 hs hc
    simp only [invocations, hd]
    rcases hcase with ⟨hsingle, _, hst⟩ | ⟨hsingle, hcons⟩
    · rw [hst, hcol, hsingle]; simp
    · rw [construct_constructors d.ctr args s1 v t hcons, hcol, hsingle]; simp

theorem collect_unfold (n : Nat) (l : List (String × Definition))
    (ih : ∀ key s, s.dependencies = l → shallow l n key = true →
      (∀ k d, Reaches l key k → getOwn l k = some d → d.sturdy = true) →
      (firstMissing l n key = none → ∃ v t, resolver n key s = (.ok v, t)) ∧
        ∀ m, firstMissing l n key = some m →
          ∃ t, resolver n key s = (.throw (notStored m), t)) :
    ∀ names s, s.dependencies = l → (∀ j, j ∈ names → shallow l n j = true) →
      (∀ j, j ∈ names →
        ∀ k d, Reaches l j k → getOwn l k = some d → d.sturdy = true) →
      (names.findSome? (fun j => firstMissing l n j) = none →
          ∃ vs t, collect (resolver n) names s = (.ok vs, t)) ∧
        ∀ m, names.findSome? (fun j => firstMissing l n j) = some m →
          ∃ t, collect (resolver n) names s = (.throw (notStored m), t) := by
  intro names
  induction names with
  | nil =>
    intro s _ _ _
    exact ⟨fun _ => ⟨[], s, rfl⟩, fun m hm => by simp at hm⟩
  | cons k rest ihr =>
    intro s hs hsh hst
    obtain ⟨hnone, hsome⟩ := ih k s hs (hsh k (List.mem_cons_self _ _))
      (hst k (List.mem_cons_self _ _))
    cases hfm : firstMissing l n k with
    | some m =>
      obtain ⟨t, ht⟩ := hsome m hfm
      have hf : (k :: rest).findSome? (fun j => firstMissing l n j) = some m := by
        simp only [List.findSome?_cons, hfm]
      rw [hf]
      refine ⟨fun hc => (by cases hc), fun m2 hm2 => ?_⟩
      cases hm2
      exact ⟨t, by simp only [collect, ht]⟩
    | none =>
      obtain ⟨v, s1, hv⟩ := hnone hfm
      have hfr : s1.dependencies = l := by
        have := (resolver_framed n k s).1
        rw [hv] at this
        rw [this, hs]
      obtain ⟨hrn, hrs⟩ := ihr s1 hfr (fun j hj => hsh j (List.mem_cons_of_mem _ hj))
        (fun j hj => hst j (List.mem_cons_of_mem _ hj))
      simp only [List.findSome?_cons, hfm]
      constructor
      · intro hc
        obtain ⟨vs, t, ht⟩ := hrn hc
        exact ⟨v :: vs, t, by simp only [collect, hv, ht]⟩
      · intro m hm
        obtain ⟨t, ht⟩ := hrs m hm
        exact ⟨t, by simp only [collect, hv, ht]⟩

/-- When the unfolding from `key` ends within `n` levels and every definition reached is
sturdy, `resolver(key)` with room for `n` activations returns a value if no name met is
missing, and otherwise ends with the error raised at the first missing name. -/
theorem resolver_unfold (l : List (String × Definition)) :
    ∀ (n : Nat) (key : String) (s : State), s.dependencies = l → shallow l n key = true →
      (∀ k d, Reaches l key k → getOwn l k = some d → d.sturdy = true) →
      (firstMissing l n key = none → ∃ v t, resolver n key s = (.ok v, t)) ∧
        ∀ m, firstMissing l n key = some m →
          ∃ t, resolver n key s = (.throw (notStored m), t) := by
  intro n
  induction n with
  | zero => intro key s _ h; simp [shallow] at h
  | succ n ih =>
    intro key s hs hsh hst
    cases hg : getOwn l key with
    | none =>
      have hf : firstMissing l (n + 1) key = some key := by simp only [firstMissing, hg]
      rw [hf]
      refine ⟨fun hc => (by cases hc), fun m hm => ?_⟩
      cases hm
      refine ⟨s, ?_⟩
      show resolverBody (container n) key s = _
      by_cases hp : key ∈ objectPrototype
      · simp [resolverBody, lookup, hs, hg, hp, notStored]
      · simp [resolverBody, lookup, hs, hg, hp, notStored]
    | some d =>
      have hl : lookup s.dependencies key = .own d := by
        rw [hs]; exact (lookup_own_iff _ _ _).2 hg
      obtain ⟨hcn, hcs⟩ := collect_unfold n l ih d.deps s hs (shallow_true l n key d hg hsh)
        (fun j hj k e hk he => hst k e (Reaches.step ⟨d, hg, hj⟩ hk) he)
      simp only [firstMissing, hg]
      constructor
      · intro hc
        obtain ⟨args, s1, hcol⟩ := hcn hc
        have hfr : s1.dependencies = s.dependencies := by
          have := (collect_framed n d.deps s).1
          rw [hcol] at this; exact this
        have hl1 : lookup s1.dependencies key = .own d := by rw [hfr]; exact hl
        have hbody := resolverBody_own (container n) key s d args s1 d hl hcol hl1
        cases hsingle : d.single with
        | true => exact ⟨d.ctr, s1, by rw [hsingle] at hbody; exact hbody⟩
        | false =>
          obtain ⟨v, t, hv⟩ := construct_sturdy d args s1 (hst key d (Reaches.refl key) hg)
            hsingle
          exact ⟨v, t, by rw [hsingle] at hbody; rw [← hv]; exact hbody⟩
      · intro m hm
        obtain ⟨t, ht⟩ := hcs m hm
        refine ⟨t, ?_⟩
        show resolverBody (container n) key s = _
        have ht2 : collect (container n).resolver d.deps s = (.throw (notStored m), t) := ht
        simp only [resolverBody, hl, ht2]


theorem firstMissing_stored (l : List (String × Definition)) :
    ∀ (n : Nat) (key m : String), firstMissing l n key = some m → getOwn l m = none := by
  intro n
  induction n with
  | zero => intro key m h; simp [firstMissing] at h
  | succ n ih =>
    intro key m h
    cases hg : getOwn l key with
    | none =>
      simp only [firstMissing, hg, Option.some.injEq] at h
      rw [← h]; exact hg
    | some d =>
      simp only [firstMissing, hg] at h
      obtain ⟨j, _, hj⟩ := List.exists_of_findSome?_eq_some h
      exact ih j m hj

theorem sturdy_of_all (l : List (String × Definition))
    (h : l.all (fun p => p.2.sturdy) = true) :
    ∀ k d, getOwn l k = some d → d.sturdy = true := by
  induction l with
  | nil => intro k d hd; simp [getOwn] at hd
  | cons p rest ih =>
    obtain ⟨a, e⟩ := p
    simp only [List.all_cons, Bool.and_eq_true] at h
    intro k d hd
    by_cases hk : a = k
    · simp only [getOwn, hk, if_true, Option.some.injEq] at hd
      rw [← hd]; exact h.1
    · simp only [getOwn, hk, if_false] at hd
      exact ih h.2 k d hd

/-- In a registry whose graph reached from `name` is acyclic and whose definitions reached
are sturdy, `resolver(name)` ends whenever it has room for one activation more than there are
definitions: with a value exactly when every name reached is stored, and otherwise with the
error `Dependency was not found: ` naming the first missing name, unless that name is a
property name inherited from `Object.prototype`. -/
theorem closure_resolution (s : State) (name : String)
    (hacyc : ¬ Doomed s.dependencies name)
    (hsturdy : ∀ k d, Reaches s.dependencies name k → getOwn s.dependencies k = some d →
      d.sturdy = true) :
    (firstMissing s.dependencies (s.dependencies.length + 1) name = none ↔
        ∀ k, Reaches s.dependencies name k → ∃ d, getOwn s.dependencies k = some d) ∧
      (firstMissing s.dependencies (s.dependencies.length + 1) name = none →
        ∃ v t, ∀ fuel, s.dependencies.length < fuel → resolver fuel name s = (.ok v, t)) ∧
      ∀ m, firstMissing s.dependencies (s.dependencies.length + 1) name = some m →
        getOwn s.dependencies m = none ∧
        ∃ t, ∀ fuel, s.dependencies.length < fuel →
          resolver fuel name s = (.throw (notStored m), t) := by
  have hsh := acyclic_shallow s.dependencies name hacyc
  obtain ⟨hn, hs⟩ := resolver_unfold s.dependencies (s.dependencies.length + 1) name s rfl
    hsh hsturdy
  refine ⟨firstMissing_none _ _ _ hsh, ?_, ?_⟩
  · intro hfm
    obtain ⟨v, t, h⟩ := hn hfm
    refine ⟨v, t, fun fuel hf => ?_⟩
    obtain ⟨extra, rfl⟩ := Nat.exists_eq_add_of_le (Nat.succ_le_of_lt hf)
    rw [resolver_mono _ extra name s (by rw [h]; rfl), h]
  · intro m hfm
    obtain ⟨t, h⟩ := hs m hfm
    refine ⟨firstMissing_stored _ _ _ m hfm, t, fun fuel hf => ?_⟩
    obtain ⟨extra, rfl⟩ := Nat.exists_eq_add_of_le (Nat.succ_le_of_lt hf)
    rw [resolver_mono _ extra name s (by rw [h]; rfl), h]

/-- C19, at the failing input `resolver('A')` where the object `A` was added with
`$deps: ['toString']` and nothing else was: the graph reached from `A` is acyclic, every
stored definition is a singleton, `toString` is not stored and is the first missing name
met, and with room for two or more activations the call ends with a TypeError, not with the
error `Dependency was not found: toString`. -/
theorem closure_inherited_name :
    ¬ Doomed inheritedDependency.dependencies "A" ∧
      inheritedDependency.dependencies.all (fun p => p.2.sturdy) = true ∧
      getOwn inheritedDependency.dependencies "toString" = none ∧
      firstMissing inheritedDependency.dependencies 2 "A" = some "toString" ∧
      ∀ fuel, (resolver (fuel + 2) "A" inheritedDependency).1 = .throw .typeError := by
  refine ⟨shallow_acyclic _ 2 "A" (by decide), by decide, rfl, by decide,
    fun fuel => ?_⟩
  rw [Nat.add_comm, resolver_mono 2 fuel _ _ (by decide)]; decide

/-! ## No memoisation of transient construction -/

/-- C20, as stated, fails: in `failsFirst` the graph reached from `D` is acyclic and every
name reached is stored, the tree unfolded from `D` holds the transient `T` twice, yet with
room for two or more activations `resolver('D')` invokes the constructor of `T` once only:
that invocation throws and ends the resolution. -/
theorem no_memoisation_counterexample :
    ¬ Doomed failsFirst.dependencies "D" ∧
      (∀ k, Reaches failsFirst.dependencies "D" k →
        ∃ d, getOwn failsFirst.dependencies k = some d) ∧
      invocations failsFirst.dependencies 2 "D" =
        [.function 4 (.throws "ctor"), .function 4 (.throws "ctor")] ∧
      ∀ fuel, constructors (resolver (fuel + 2) "D" failsFirst).2.trace =
        constructors failsFirst.trace ++ [.function 4 (.throws "ctor")] := by
  refine ⟨shallow_acyclic _ 2 "D" (by decide),
    closedUnder_registered _ ["D", "T"] (by decide) "D" (by decide), by decide,
    fun fuel => ?_⟩
  rw [Nat.add_comm, resolver_mono 2 fuel _ _ (by decide)]; decide

/-- C20 (amended): for every acyclic, fully registered registry in which every definition
reached from `name` that is not a singleton holds a function declared with `function` (not a
class) that returns normally, one call `resolver(name)` with room for more activations than
there are definitions returns a value, and the constructors it has invoked are those of the
definitions that are not singletons, once for each occurrence in the dependency tree unfolded
from `name`, in post-order, left to right in declared dependency order. -/
theorem no_memoisation (s : State) (name : String)
    (hacyc : ¬ Doomed s.dependencies name)
    (hreg : ∀ k, Reaches s.dependencies name k → ∃ d, getOwn s.dependencies k = some d)
    (hsturdy : ∀ k d, Reaches s.dependencies name k → getOwn s.dependencies k = some d →
      d.sturdy = true) :
    ∃ v t, ∀ fuel, s.dependencies.length < fuel →
      resolver fuel name s = (.ok v, t) ∧
        constructors t.trace = constructors s.trace ++ invocations s.dependencies fuel name := by
  have hsh := acyclic_shallow s.dependencies name hacyc
  obtain ⟨v, t, h⟩ := (resolver_unfold s.dependencies (s.dependencies.length + 1) name s rfl
    hsh hsturdy).1 ((firstMissing_none _ _ _ hsh).2 hreg)
  refine ⟨v, t, fun fuel hf => ?_⟩
  obtain ⟨extra, rfl⟩ := Nat.exists_eq_add_of_le (Nat.succ_le_of_lt hf)
  have hres : resolver (s.dependencies.length.succ + extra) name s = (.ok v, t) := by
    rw [resolver_mono _ extra name s (by rw [h]; rfl), h]
  exact ⟨hres, resolver_invocations s.dependencies _ name s v t rfl hres⟩

/-- Witness of C20 (amended): the diamond `sharedTransient`, resolved at `D`. -/
theorem no_memoisation_witness :
    ∃ v t, ∀ fuel, sharedTransient.dependencies.length < fuel →
      resolver fuel "D" sharedTransient = (.ok v, t) ∧
        constructors t.trace = constructors sharedTransient.trace ++
          invocations sharedTransient.dependencies fuel "D" :=
  no_memoisation sharedTransient "D" (shallow_acyclic _ 3 "D" (by decide))
    (closedUnder_registered _ ["D", "L", "R", "T"] (by decide) "D" (by decide))
    (fun k d _ h => sturdy_of_all _ (by decide) k d h)

/-- In the diamond `sharedTransient`, the shared transient `T` is constructed twice, once
under `L` and once, discarded, under the singleton `R`. -/
theorem sharedTransient_invocations :
    constructors (resolver 5 "D" sharedTransient).2.trace =
      [.function 4 .initialises, .function 5 .initialises, .function 4 .initialises,
        .function 7 .initialises] := by
  decide

end Deepen
